import Mathlib

/-!
Shallow embedding of the dbmigrator migration engine (crates `dbmigrator`
and `dbmigrator_core`) together with proofs about its changelog
consolidation, planning, verification, recipe loading and adapter logic.

Source files embedded:
- `dbmigrator/src/changelog.rs` (struct Changelog)
- `dbmigrator/src/migrator.rs` (update_agg_log, find_agg_log, Migrator)
- `dbmigrator_core/src/recipe.rs` (RecipeScript, order_recipes, checksums)
- `dbmigrator/src/drivers/tokio_postgres.rs` (AsyncClient for Client)

Rust machine integers `i32` are modelled as `Int` (no arithmetic close to
the overflow boundary occurs in the embedded claims), Rust `Option`/`Result`
as `Option`/`Except`, timestamps (`OffsetDateTime`) as opaque `Option Int`
payloads (the engine never inspects them), and a Rust panic as the
distinguished error value of an `Except`.

Version comparators are `fn(&str, &str) -> Ordering` values in the source;
the embedding keeps them as `String → String → Ordering` parameters of each
definition, and the theorems instantiate them with a comparator induced by a
key function into a linear order, which covers the two comparators shipped
by the crate (`simple_compare` is the byte-wise string order, i.e. the key
is the identity embedding of the string).
-/

namespace DbMigrator

/-! ## Ordering helpers and lawful comparators -/

/-- Rank of an `Ordering` value, used to express that a comparator applied
along a sorted list is monotone (`lt` before `eq` before `gt`). -/
def ordRank : Ordering → Nat
  | .lt => 0
  | .eq => 1
  | .gt => 2

/-- Comparator on a linear order, written exactly as the three-way compare
the Rust code observes (`Ordering::Less/Equal/Greater`). -/
def cmpOf {K : Type} [LinearOrder K] (x y : K) : Ordering :=
  if x < y then .lt else if x = y then .eq else .gt

/-- A version comparator induced by a key function into a linear order.
`simple_compare` from the source is `keyCmp id` (byte-wise string order). -/
def keyCmp {K : Type} [LinearOrder K] (k : String → K) (a b : String) : Ordering :=
  cmpOf (k a) (k b)

theorem cmpOf_eq_iff {K : Type} [LinearOrder K] (x y : K) :
    cmpOf x y = .eq ↔ x = y := by
  unfold cmpOf
  split
  · constructor
    · intro h; cases h
    · intro h; subst h; simp_all
  · split
    · simp_all
    · constructor
      · intro h; cases h
      · intro h; simp_all

theorem cmpOf_lt_iff {K : Type} [LinearOrder K] (x y : K) :
    cmpOf x y = .lt ↔ x < y := by
  unfold cmpOf
  split
  · simp_all
  · split
    · constructor
      · intro h; cases h
      · intro h; simp_all
    · constructor
      · intro h; cases h
      · intro h; simp_all

theorem cmpOf_gt_iff {K : Type} [LinearOrder K] (x y : K) :
    cmpOf x y = .gt ↔ y < x := by
  unfold cmpOf
  rcases lt_trichotomy x y with h | h | h
  · simp [h, asymm h]
  · subst h; simp [lt_irrefl]
  · simp [asymm h, ne_of_gt h, h]

theorem cmpOf_self {K : Type} [LinearOrder K] (x : K) : cmpOf x x = .eq := by
  simp [cmpOf_eq_iff]

/-! ## Changelog entries (`dbmigrator/src/changelog.rs`) -/

/-- One row of the migration log table. Timestamps are opaque payloads. -/
structure Changelog where
  log_id : Int
  version : String
  name : Option String
  kind : String
  checksum : Option String
  apply_by : Option String
  start_ts : Option Int
  finish_ts : Option Int
  revert_ts : Option Int
  deriving Repr, DecidableEq

/-- The part of a changelog row that the consolidation algorithm inspects:
its version and whether the checksum is present. -/
def Changelog.sig (c : Changelog) : String × Bool :=
  (c.version, c.checksum.isSome)

/-- Changelog::checksum32 slices the first 8 bytes of the stored checksum.
The byte slice `checksum[0..8]` panics in Rust when the checksum is shorter
than 8 (or has no character boundary at 8); the panic is modelled as the
outer `none`. String indices are modelled at character granularity
(checksums are ASCII hex in the engine). -/
def Changelog.checksum32 (c : Changelog) : Option (Option String) :=
  match c.checksum with
  | some s => if 8 ≤ s.length then some (some (s.take 8)) else none
  | none => some none

/-! ## Rust slice binary search (`slice::binary_search_by`) -/

/-- Loop of Rust `slice::binary_search_by`: interval `[left, right)`,
midpoint `left + (right - left) / 2`; returns `Except.ok i` when the
comparator answers `Equal` at `i` and `Except.error i` with the final
insertion point otherwise. The default `d` stands for the (never observed)
out-of-bounds read. The loop consumes explicit fuel so that it is
structurally recursive (hence kernel-computable); since the interval
shrinks at every step, any fuel of at least `right - left` reproduces the
Rust loop exactly, and the wrapper below supplies the list length. -/
def bsLoop {α : Type} (f : α → Ordering) (l : List α) (d : α) :
    Nat → Nat → Nat → Except Nat Nat
  | 0, left, _ => .error left
  | fuel + 1, left, right =>
    if left < right then
      let mid := left + (right - left) / 2
      match f (l.getD mid d) with
      | .lt => bsLoop f l d fuel (mid + 1) right
      | .eq => .ok mid
      | .gt => bsLoop f l d fuel left mid
    else
      .error left

/-- Rust `slice::binary_search_by` on the whole list. -/
def binarySearchBy {α : Type} (f : α → Ordering) (l : List α) (d : α) : Except Nat Nat :=
  bsLoop f l d l.length 0 l.length

/-- The comparator partitions the list into a `lt` prefix of length `n`, an
`eq` run of length `m` and a `gt` suffix. -/
def OrdPartition {α : Type} (f : α → Ordering) (l : List α) (d : α) (n m : Nat) : Prop :=
  n + m ≤ l.length ∧
  (∀ i, i < n → f (l.getD i d) = .lt) ∧
  (∀ i, n ≤ i → i < n + m → f (l.getD i d) = .eq) ∧
  (∀ i, n + m ≤ i → i < l.length → f (l.getD i d) = .gt)

theorem bsLoop_spec {α : Type} (f : α → Ordering) (l : List α) (d : α) (n m : Nat)
    (hp : OrdPartition f l d n m) :
    ∀ fuel left right, right - left ≤ fuel → left ≤ n → n + m ≤ right → right ≤ l.length →
      (m = 0 → bsLoop f l d fuel left right = .error n) ∧
      (0 < m → ∃ i, n ≤ i ∧ i < n + m ∧ bsLoop f l d fuel left right = .ok i) := by
  obtain ⟨hnm, hlt, heq, hgt⟩ := hp
  intro fuel
  induction fuel with
  | zero =>
    intro left right hfuel h1 h2 h3
    simp only [bsLoop]
    constructor
    · intro hm
      have : left = n := by omega
      rw [this]
    · intro hm; omega
  | succ fuel ih =>
    intro left right hfuel h1 h2 h3
    simp only [bsLoop]
    by_cases hlr : left < right
    · rw [if_pos hlr]
      set mid := left + (right - left) / 2 with hmid
      have hmlo : left ≤ mid := by omega
      have hmhi : mid < right := by
        have h0 : 0 < right - left := Nat.sub_pos_of_lt hlr
        have : (right - left) / 2 < right - left := Nat.div_lt_self h0 (by omega)
        omega
      have hmlen : mid < l.length := by omega
      rcases hf : f (l.getD mid d) with _ | _ | _
      · -- Less: element strictly below the target region
        have hmn : mid < n := by
          by_contra hge
          push_neg at hge
          by_cases hmid2 : mid < n + m
          · have := heq mid hge hmid2; rw [hf] at this; cases this
          · push_neg at hmid2
            have := hgt mid hmid2 hmlen; rw [hf] at this; cases this
        exact ih (mid + 1) right (by omega) (by omega) h2 h3
      · -- Equal: found an element of the eq run
        have hmn : n ≤ mid ∧ mid < n + m := by
          constructor
          · by_contra hge
            push_neg at hge
            have := hlt mid hge; rw [hf] at this; cases this
          · by_contra hge
            push_neg at hge
            have := hgt mid hge hmlen; rw [hf] at this; cases this
        constructor
        · intro hm; omega
        · intro hm; exact ⟨mid, hmn.1, hmn.2, rfl⟩
      · -- Greater: element strictly above the target region
        have hmn : n + m ≤ mid := by
          by_contra hge
          push_neg at hge
          by_cases hmid2 : mid < n
          · have := hlt mid hmid2; rw [hf] at this; cases this
          · push_neg at hmid2
            have := heq mid hmid2 hge; rw [hf] at this; cases this
        exact ih left mid (by omega) h1 (by omega) (by omega)
    · rw [if_neg hlr]
      constructor
      · intro hm
        have : left = n := by omega
        rw [this]
      · intro hm; omega

/-- Binary search on a partitioned list with no `eq` element returns the
insertion point `n`, the length of the `lt` prefix. -/
theorem binarySearchBy_err {α : Type} (f : α → Ordering) (l : List α) (d : α) (n : Nat)
    (hp : OrdPartition f l d n 0) :
    binarySearchBy f l d = .error n := by
  have h := bsLoop_spec f l d n 0 hp l.length 0 l.length (by omega) (by omega)
    (by have := hp.1; omega) (le_refl _)
  exact h.1 rfl

/-- Binary search on a partitioned list with a nonempty `eq` run finds some
index inside the run. -/
theorem binarySearchBy_ok {α : Type} (f : α → Ordering) (l : List α) (d : α) (n m : Nat)
    (hp : OrdPartition f l d n m) (hm : 0 < m) :
    ∃ i, n ≤ i ∧ i < n + m ∧ binarySearchBy f l d = .ok i := by
  have h := bsLoop_spec f l d n m hp l.length 0 l.length (by omega) (by omega)
    (by have := hp.1; omega) (le_refl _)
  exact h.2 hm

/-! ### Deriving partitions from monotone comparators -/

theorem countP_take_le {α : Type} (p : α → Bool) (l : List α) (i : Nat) :
    (l.take i).countP p ≤ i := by
  calc (l.take i).countP p ≤ (l.take i).length := List.countP_le_length p
  _ ≤ i := by simp [List.length_take]

theorem countP_lt_add_eq {α : Type} (f : α → Ordering) (l : List α) :
    l.countP (fun a => f a = .lt) + l.countP (fun a => f a = .eq)
      = l.countP (fun a => decide (f a = .lt) || decide (f a = .eq)) := by
  induction l with
  | nil => simp
  | cons x xs ih =>
    rcases hx : f x with _ | _ | _ <;>
      simp only [List.countP_cons, hx] <;> simp <;> omega

/-- On a list along which the comparator is rank-monotone, the `lt` count
and the `eq` count describe an ordered partition. -/
theorem ordPartition_of_mono {α : Type} (f : α → Ordering) (l : List α) (d : α)
    (hmono : l.Pairwise (fun a b => ordRank (f a) ≤ ordRank (f b))) :
    OrdPartition f l d (l.countP (fun a => f a = .lt)) (l.countP (fun a => f a = .eq)) := by
  have hget := List.pairwise_iff_getElem.mp hmono
  set n := l.countP (fun a => f a = .lt) with hn
  set m := l.countP (fun a => f a = .eq) with hm
  have hsplit : ∀ i, i ≤ l.length →
      l.countP (fun a => f a = .lt) =
        (l.take i).countP (fun a => f a = .lt) + (l.drop i).countP (fun a => f a = .lt) := by
    intro i _
    rw [← List.countP_append, List.take_append_drop]
  have hsplit2 : ∀ i, i ≤ l.length →
      l.countP (fun a => decide (f a = .lt) || decide (f a = .eq)) =
        (l.take i).countP (fun a => decide (f a = .lt) || decide (f a = .eq)) +
        (l.drop i).countP (fun a => decide (f a = .lt) || decide (f a = .eq)) := by
    intro i _
    rw [← List.countP_append, List.take_append_drop]
  have hnm_eq : n + m = l.countP (fun a => decide (f a = .lt) || decide (f a = .eq)) := by
    rw [hn, hm]; exact countP_lt_add_eq f l
  have hnmle : n + m ≤ l.length := by
    rw [hnm_eq]; exact List.countP_le_length _
  -- monotone transport: once the comparator leaves a rank, it never returns
  have hrank : ∀ i j, i ≤ j → (hj : j < l.length) → (hi : i < l.length) →
      ordRank (f (l.getD i d)) ≤ ordRank (f (l.getD j d)) := by
    intro i j hij hj hi
    rcases Nat.eq_or_lt_of_le hij with h | h
    · subst h; exact le_refl _
    · have := hget i j hi hj h
      simpa [List.getD_eq_getElem?_getD, List.getElem?_eq_getElem, hi, hj] using this
  refine ⟨hnmle, ?_, ?_, ?_⟩
  · -- indices below n are lt
    intro i hi
    have hilen : i < l.length := by
      have : n ≤ l.length := by rw [hn]; exact List.countP_le_length _
      omega
    by_contra hne
    -- all indices ≥ i are not lt, so n ≤ i
    have hdrop : (l.drop i).countP (fun a => f a = .lt) = 0 := by
      rw [List.countP_eq_zero]
      intro a ha
      rcases List.mem_iff_getElem.mp ha with ⟨j, hj, rfl⟩
      have hjlen : i + j < l.length := by
        have := l.length_drop i
        omega
      have hji : (l.drop i)[j] = l.getD (i + j) d := by
        rw [List.getElem_drop]
        simp [List.getD_eq_getElem?_getD, List.getElem?_eq_getElem, hjlen]
      rw [hji]
      simp only [decide_eq_true_eq]
      intro hfa
      have hr := hrank i (i + j) (by omega) hjlen hilen
      rw [hfa] at hr
      rcases hx : f (l.getD i d) with _ | _ | _
      · exact hne hx
      · rw [hx] at hr; simp [ordRank] at hr
      · rw [hx] at hr; simp [ordRank] at hr
    have := hsplit i (by omega)
    rw [hdrop] at this
    have hle := countP_take_le (fun a => f a = .lt) l i
    omega
  · -- indices in the run are eq
    intro i hni hinm
    have hilen : i < l.length := by omega
    rcases hx : f (l.getD i d) with _ | _ | _
    · -- lt at i would force n ≥ i + 1
      exfalso
      have hlen1 : (l.take (i + 1)).length = i + 1 := by
        simp [List.length_take]; omega
      have htake0 : (l.take (i + 1)).countP (fun a => f a = .lt) = (l.take (i + 1)).length := by
        rw [List.countP_eq_length]
        intro a ha
        rcases List.mem_iff_getElem.mp ha with ⟨j, hj, rfl⟩
        have hjlen : j < l.length := by
          have := l.length_take (i + 1)
          omega
        have hji : j ≤ i := by
          have := l.length_take (i + 1)
          have : j < i + 1 := by omega
          omega
        have hjt : (l.take (i + 1))[j] = l.getD j d := by
          rw [List.getElem_take]
          simp [List.getD_eq_getElem?_getD, List.getElem?_eq_getElem, hjlen]
        rw [hjt]
        have hr := hrank j i hji hilen hjlen
        rw [hx] at hr
        simp only [ordRank] at hr
        rcases hy : f (l.getD j d) with _ | _ | _
        · simp
        · rw [hy] at hr; simp [ordRank] at hr
        · rw [hy] at hr; simp [ordRank] at hr
      have htake := htake0.trans hlen1
      have := hsplit (i + 1) (by omega)
      rw [htake] at this
      omega
    · rfl
    · -- gt at i would force n + m ≤ i
      exfalso
      have hdrop : (l.drop i).countP (fun a => decide (f a = .lt) || decide (f a = .eq)) = 0 := by
        rw [List.countP_eq_zero]
        intro a ha
        rcases List.mem_iff_getElem.mp ha with ⟨j, hj, rfl⟩
        have hjlen : i + j < l.length := by
          have := l.length_drop i
          omega
        have hji : (l.drop i)[j] = l.getD (i + j) d := by
          rw [List.getElem_drop]
          simp [List.getD_eq_getElem?_getD, List.getElem?_eq_getElem, hjlen]
        rw [hji]
        have hr := hrank i (i + j) (by omega) hjlen hilen
        rw [hx] at hr
        simp only [ordRank] at hr
        rcases hy : f (l.getD (i + j) d) with _ | _ | _
        · rw [hy] at hr; simp [ordRank] at hr
        · rw [hy] at hr; simp [ordRank] at hr
        · simp
      have := hsplit2 i (by omega)
      rw [hdrop, ← hnm_eq] at this
      have hle := countP_take_le (fun a => decide (f a = .lt) || decide (f a = .eq)) l i
      omega
  · -- indices past the run are gt
    intro i hnm hilen
    rcases hx : f (l.getD i d) with _ | _ | _
    · exfalso
      have htake : i + 1 ≤ (l.take (i + 1)).countP (fun a => decide (f a = .lt) || decide (f a = .eq)) := by
        have : (l.take (i + 1)).countP (fun a => decide (f a = .lt) || decide (f a = .eq)) =
            (l.take (i + 1)).length := by
          rw [List.countP_eq_length]
          intro a ha
          rcases List.mem_iff_getElem.mp ha with ⟨j, hj, rfl⟩
          have hjlen : j < l.length := by
            have := l.length_take (i + 1)
            omega
          have hji : j ≤ i := by
            have := l.length_take (i + 1)
            omega
          have hjt : (l.take (i + 1))[j] = l.getD j d := by
            rw [List.getElem_take]
            simp [List.getD_eq_getElem?_getD, List.getElem?_eq_getElem, hjlen]
          rw [hjt]
          have hr := hrank j i hji hilen hjlen
          rw [hx] at hr
          simp only [ordRank] at hr
          rcases hy : f (l.getD j d) with _ | _ | _
          · simp
          · simp
          · rw [hy] at hr; simp [ordRank] at hr
        rw [this]
        simp [List.length_take]
        omega
      have hsp := hsplit2 (i + 1) (by omega)
      rw [← hnm_eq] at hsp
      have := countP_take_le (fun a => decide (f a = .lt) || decide (f a = .eq)) l (i + 1)
      omega
    · exfalso
      have htake : i + 1 ≤ (l.take (i + 1)).countP (fun a => decide (f a = .lt) || decide (f a = .eq)) := by
        have : (l.take (i + 1)).countP (fun a => decide (f a = .lt) || decide (f a = .eq)) =
            (l.take (i + 1)).length := by
          rw [List.countP_eq_length]
          intro a ha
          rcases List.mem_iff_getElem.mp ha with ⟨j, hj, rfl⟩
          have hjlen : j < l.length := by
            have := l.length_take (i + 1)
            omega
          have hji : j ≤ i := by
            have := l.length_take (i + 1)
            omega
          have hjt : (l.take (i + 1))[j] = l.getD j d := by
            rw [List.getElem_take]
            simp [List.getD_eq_getElem?_getD, List.getElem?_eq_getElem, hjlen]
          rw [hjt]
          have hr := hrank j i hji hilen hjlen
          rw [hx] at hr
          simp only [ordRank] at hr
          rcases hy : f (l.getD j d) with _ | _ | _
          · simp
          · simp
          · rw [hy] at hr; simp [ordRank] at hr
        rw [this]
        simp [List.length_take]
        omega
      have hsp := hsplit2 (i + 1) (by omega)
      rw [← hnm_eq] at hsp
      have := countP_take_le (fun a => decide (f a = .lt) || decide (f a = .eq)) l (i + 1)
      omega
    · rfl

/-! ## Consolidation (`dbmigrator/src/migrator.rs`, update_agg_log / find_agg_log) -/

instance : Inhabited Changelog :=
  ⟨⟨0, "", none, "", none, none, none, none, none⟩⟩

/-- Embedding of `update_agg_log` (migrator.rs lines 91 to 111): binary
search the aggregated log by version; an incoming entry with a checksum is
inserted or replaces the found entry, an entry without a checksum removes
the found entry or is dropped. -/
def updateAggLog (cmp : String → String → Ordering) (aggLog : List Changelog)
    (log : Changelog) : List Changelog :=
  match binarySearchBy (fun a => cmp a.version log.version) aggLog default,
      log.checksum.isSome with
  | .error index, true => aggLog.insertIdx index log
  | .error _, false => aggLog
  | .ok index, true => aggLog.set index log
  | .ok index, false => aggLog.eraseIdx index

/-- The consolidation loop of `read_changelog` (migrator.rs lines 241 to
244): fold the raw rows in insertion order into the aggregated view. -/
def consolidate (cmp : String → String → Ordering) (rawLogs : List Changelog) :
    List Changelog :=
  rawLogs.foldl (updateAggLog cmp) []

/-- Embedding of `find_agg_log` (migrator.rs lines 113 to 122). -/
def findAggLog (cmp : String → String → Ordering) (aggLog : List Changelog)
    (version : String) : Option Changelog :=
  match binarySearchBy (fun a => cmp a.version version) aggLog default with
  | .ok index => some (aggLog.getD index default)
  | .error _ => none

/-- Strictly increasing version keys along a changelog list. -/
def SortedKeys {K : Type} [LinearOrder K] (k : String → K) (l : List Changelog) : Prop :=
  l.Pairwise (fun a b => k a.version < k b.version)

/-! ### Helper facts about bounds, take/drop decompositions and zones -/

theorem bsLoop_bounds {α : Type} (f : α → Ordering) (l : List α) (d : α) :
    ∀ fuel left right, right - left ≤ fuel → left ≤ right →
      (∀ i, bsLoop f l d fuel left right = .error i → left ≤ i ∧ i ≤ right) ∧
      (∀ i, bsLoop f l d fuel left right = .ok i → left ≤ i ∧ i < right) := by
  intro fuel
  induction fuel with
  | zero =>
    intro left right hfuel hlr
    simp only [bsLoop]
    constructor
    · intro i hi
      cases hi
      omega
    · intro i hi
      cases hi
  | succ fuel ih =>
    intro left right hfuel hlr
    simp only [bsLoop]
    by_cases h : left < right
    · rw [if_pos h]
      set mid := left + (right - left) / 2 with hmid
      have hmlo : left ≤ mid := by omega
      have hmhi : mid < right := by
        have h0 : 0 < right - left := Nat.sub_pos_of_lt h
        have : (right - left) / 2 < right - left := Nat.div_lt_self h0 (by omega)
        omega
      rcases hf : f (l.getD mid d) with _ | _ | _
      · have := ih (mid + 1) right (by omega) (by omega)
        constructor
        · intro i hi
          have := this.1 i hi
          omega
        · intro i hi
          have := this.2 i hi
          omega
      · constructor
        · intro i hi
          cases hi
        · intro i hi
          cases hi
          omega
      · have := ih left mid (by omega) (by omega)
        constructor
        · intro i hi
          have := this.1 i hi
          omega
        · intro i hi
          have := this.2 i hi
          omega
    · rw [if_neg h]
      constructor
      · intro i hi
        cases hi
        omega
      · intro i hi
        cases hi

theorem binarySearchBy_bounds {α : Type} (f : α → Ordering) (l : List α) (d : α) :
    (∀ i, binarySearchBy f l d = .error i → i ≤ l.length) ∧
    (∀ i, binarySearchBy f l d = .ok i → i < l.length) := by
  have := bsLoop_bounds f l d l.length 0 l.length (by omega) (by omega)
  constructor
  · intro i hi
    exact (this.1 i hi).2
  · intro i hi
    exact (this.2 i hi).2

theorem insertIdx_eq_take_cons_drop {α : Type} (a : α) :
    ∀ (n : Nat) (l : List α), n ≤ l.length →
      l.insertIdx n a = l.take n ++ a :: l.drop n := by
  intro n
  induction n with
  | zero => intro l _; simp
  | succ n ih =>
    intro l hl
    match l with
    | [] => simp at hl
    | x :: xs =>
      simp only [List.insertIdx_succ_cons, List.take_succ_cons, List.drop_succ_cons,
        List.cons_append]
      rw [ih xs (by simpa using hl)]

theorem set_eq_take_cons_drop {α : Type} (a : α) :
    ∀ (n : Nat) (l : List α), n < l.length →
      l.set n a = l.take n ++ a :: l.drop (n + 1) := by
  intro n
  induction n with
  | zero =>
    intro l hl
    match l with
    | [] => simp at hl
    | x :: xs => simp
  | succ n ih =>
    intro l hl
    match l with
    | [] => simp at hl
    | x :: xs =>
      simp only [List.set_cons_succ, List.take_succ_cons, List.drop_succ_cons,
        List.cons_append]
      rw [ih xs (by simpa using hl)]

theorem eq_take_cons_drop {α : Type} (d : α) (n : Nat) (l : List α) (h : n < l.length) :
    l = l.take n ++ l.getD n d :: l.drop (n + 1) := by
  conv_lhs => rw [← List.take_append_drop n l]
  congr 1
  rw [List.getD_eq_getElem?_getD, List.getElem?_eq_getElem h]
  simp only [Option.getD_some]
  exact (List.getElem_cons_drop l n h).symm

theorem mem_take_of_partition {α : Type} {f : α → Ordering} {l : List α} {d : α} {n m : Nat}
    (hp : OrdPartition f l d n m) : ∀ a ∈ l.take n, f a = .lt := by
  intro a ha
  rcases List.mem_iff_getElem.mp ha with ⟨j, hj, rfl⟩
  have hjl : j < l.length := by
    have := l.length_take n
    omega
  have hjn : j < n := by
    have := l.length_take n
    omega
  have : (l.take n)[j] = l.getD j d := by
    rw [List.getElem_take]
    simp [List.getD_eq_getElem?_getD, List.getElem?_eq_getElem, hjl]
  rw [this]
  exact hp.2.1 j hjn

theorem mem_drop_of_partition {α : Type} {f : α → Ordering} {l : List α} {d : α} {n m : Nat}
    (hp : OrdPartition f l d n m) : ∀ a ∈ l.drop (n + m), f a = .gt := by
  intro a ha
  rcases List.mem_iff_getElem.mp ha with ⟨j, hj, rfl⟩
  have hjl : n + m + j < l.length := by
    have := l.length_drop (n + m)
    omega
  have : (l.drop (n + m))[j] = l.getD (n + m + j) d := by
    rw [List.getElem_drop]
    simp [List.getD_eq_getElem?_getD, List.getElem?_eq_getElem, hjl]
  rw [this]
  exact hp.2.2.2 (n + m + j) (by omega) hjl

theorem getD_of_partition_eq {α : Type} {f : α → Ordering} {l : List α} {d : α} {n m : Nat}
    (hp : OrdPartition f l d n m) (hm : 0 < m) : f (l.getD n d) = .eq :=
  hp.2.2.1 n (le_refl n) (by omega)

/-! ### Rank monotonicity of the three-way compare -/

theorem ordRank_cmpOf {K : Type} [LinearOrder K] (x c : K) :
    ordRank (cmpOf x c) = if x < c then 0 else if x = c then 1 else 2 := by
  unfold cmpOf
  by_cases h1 : x < c
  · simp [h1, ordRank]
  · by_cases h2 : x = c
    · simp [h1, h2, ordRank]
    · simp [h1, h2, ordRank]

theorem ordRank_cmpOf_mono {K : Type} [LinearOrder K] {x y c : K} (hxy : x ≤ y) :
    ordRank (cmpOf x c) ≤ ordRank (cmpOf y c) := by
  rw [ordRank_cmpOf, ordRank_cmpOf]
  by_cases h1 : x < c
  · rw [if_pos h1]
    split_ifs <;> omega
  · by_cases h3 : x = c
    · have hyc : ¬ y < c := by
        intro h
        have := lt_of_le_of_lt (h3 ▸ hxy) h
        exact absurd this (lt_irrefl c)
      rw [if_neg h1, if_pos h3, if_neg hyc]
      split_ifs <;> omega
    · have hcx : c < x := by
        rcases lt_trichotomy x c with h | h | h
        · exact absurd h h1
        · exact absurd h h3
        · exact h
      have hcy : c < y := lt_of_lt_of_le hcx hxy
      have hyc : ¬ y < c := asymm hcy
      have hyne : ¬ y = c := by
        intro h
        rw [h] at hcy
        exact absurd hcy (lt_irrefl c)
      rw [if_neg h1, if_neg h3, if_neg hyc, if_neg hyne]

/-! ### Characterization of update_agg_log on sorted aggregates -/

theorem countP_key_eq_le_one {K : Type} [LinearOrder K] {k : String → K}
    {A : List Changelog} (hs : SortedKeys k A) (κ : K) :
    A.countP (fun a => k a.version = κ) ≤ 1 := by
  induction A with
  | nil => simp
  | cons x xs ih =>
    have hs2 := List.pairwise_cons.mp hs
    rw [List.countP_cons]
    by_cases hx : k x.version = κ
    · have hz : xs.countP (fun a => k a.version = κ) = 0 := by
        rw [List.countP_eq_zero]
        intro a ha
        simp only [decide_eq_true_eq]
        intro hk
        have := hs2.1 a ha
        rw [hx, hk] at this
        exact absurd this (lt_irrefl κ)
      simp [hx, hz]
    · have : (decide (k x.version = κ)) = false := by simp [hx]
      rw [this]
      simpa using ih hs2.2

/-- On a strictly sorted aggregate, the ordered partition for the search
comparator of a version key. -/
theorem sorted_ordPartition {K : Type} [LinearOrder K] {k : String → K}
    {A : List Changelog} (hs : SortedKeys k A) (κ : K) :
    OrdPartition (fun a => cmpOf (k a.version) κ) A default
      (A.countP (fun a => k a.version < κ)) (A.countP (fun a => k a.version = κ)) := by
  have hmono : A.Pairwise (fun a b =>
      ordRank (cmpOf (k a.version) κ) ≤ ordRank (cmpOf (k b.version) κ)) := by
    exact hs.imp (fun h => ordRank_cmpOf_mono (le_of_lt h))
  have h := ordPartition_of_mono (fun a => cmpOf (k a.version) κ) A default hmono
  have he1 : A.countP (fun a => cmpOf (k a.version) κ = .lt)
      = A.countP (fun a => k a.version < κ) := by
    apply List.countP_congr
    intro a _
    simp [cmpOf_lt_iff]
  have he2 : A.countP (fun a => cmpOf (k a.version) κ = .eq)
      = A.countP (fun a => k a.version = κ) := by
    apply List.countP_congr
    intro a _
    simp [cmpOf_eq_iff]
  rw [he1, he2] at h
  exact h

/-- Full behavioural characterization of `update_agg_log` on a sorted
aggregate: with `n` entries strictly below the incoming version and `m`
(0 or 1) entries at it, the update replaces, inserts, removes or ignores
exactly as the claim describes. -/
theorem updateAggLog_eq {K : Type} [LinearOrder K] (k : String → K) (A : List Changelog)
    (e : Changelog) (hs : SortedKeys k A) :
    updateAggLog (keyCmp k) A e =
      if e.checksum.isSome then
        if A.countP (fun a => k a.version = k e.version) = 0 then
          A.take (A.countP (fun a => k a.version < k e.version)) ++
            e :: A.drop (A.countP (fun a => k a.version < k e.version))
        else
          A.take (A.countP (fun a => k a.version < k e.version)) ++
            e :: A.drop (A.countP (fun a => k a.version < k e.version) + 1)
      else
        if A.countP (fun a => k a.version = k e.version) = 0 then A
        else
          A.take (A.countP (fun a => k a.version < k e.version)) ++
            A.drop (A.countP (fun a => k a.version < k e.version) + 1) := by
  set κ := k e.version with hκ
  set n := A.countP (fun a => k a.version < κ) with hn
  set m := A.countP (fun a => k a.version = κ) with hm
  have hp := sorted_ordPartition hs κ
  rw [← hn, ← hm] at hp
  have hm1 : m ≤ 1 := countP_key_eq_le_one hs κ
  have hnm : n + m ≤ A.length := hp.1
  have hsearch : (fun a : Changelog => keyCmp k a.version e.version)
      = (fun a : Changelog => cmpOf (k a.version) κ) := by
    funext a
    rfl
  unfold updateAggLog
  rw [hsearch]
  rcases Nat.eq_zero_or_pos m with hm0 | hmpos
  · -- no entry at this version: search misses with insertion point n
    have hb : binarySearchBy (fun a : Changelog => cmpOf (k a.version) κ) A default
        = .error n := by
      apply binarySearchBy_err
      rw [hm0] at hp
      exact hp
    rw [hb]
    rcases hcs : e.checksum.isSome with _ | _
    · simp [hm0]
    · have hins := insertIdx_eq_take_cons_drop e n A (by omega)
      simp [hm0, hins]
  · -- unique entry at this version: search finds index n
    have hmeq : m = 1 := by omega
    obtain ⟨i, hi1, hi2, hb⟩ := binarySearchBy_ok
      (fun a : Changelog => cmpOf (k a.version) κ) A default n m hp hmpos
    have hieq : i = n := by omega
    rw [hieq] at hb
    rw [hb]
    have hne0 : ¬ m = 0 := by omega
    rcases hcs : e.checksum.isSome with _ | _
    · have her := List.eraseIdx_eq_take_drop_succ A n
      simp [hne0, her]
    · have hset := set_eq_take_cons_drop e n A (by omega)
      simp [hne0, hset]

theorem sortedKeys_take {K : Type} [LinearOrder K] {k : String → K} {A : List Changelog}
    (hs : SortedKeys k A) (n : Nat) : SortedKeys k (A.take n) :=
  List.Pairwise.sublist (List.take_sublist n A) hs

theorem sortedKeys_drop {K : Type} [LinearOrder K] {k : String → K} {A : List Changelog}
    (hs : SortedKeys k A) (n : Nat) : SortedKeys k (A.drop n) :=
  List.Pairwise.sublist (List.drop_sublist n A) hs

/-- update_agg_log preserves strict sortedness of the aggregate. -/
theorem sortedKeys_updateAggLog {K : Type} [LinearOrder K] (k : String → K)
    (A : List Changelog) (e : Changelog) (hs : SortedKeys k A) :
    SortedKeys k (updateAggLog (keyCmp k) A e) := by
  have hp := sorted_ordPartition hs (k e.version)
  have hnm := hp.1
  have hm1 := countP_key_eq_le_one hs (k e.version)
  have hz1 : ∀ a ∈ A.take (A.countP (fun a => k a.version < k e.version)),
      k a.version < k e.version := by
    intro a ha
    exact (cmpOf_lt_iff _ _).mp (mem_take_of_partition hp a ha)
  have hz2 : ∀ a ∈ A.drop (A.countP (fun a => k a.version < k e.version) +
      A.countP (fun a => k a.version = k e.version)), k e.version < k a.version := by
    intro a ha
    exact (cmpOf_gt_iff _ _).mp (mem_drop_of_partition hp a ha)
  rw [updateAggLog_eq k A e hs]
  split_ifs with h1 h2 h2
  · -- insert at the sorted position
    rw [h2, Nat.add_zero] at hz2
    unfold SortedKeys
    rw [List.pairwise_append]
    refine ⟨sortedKeys_take hs _, ?_, ?_⟩
    · rw [List.pairwise_cons]
      exact ⟨fun b hb => hz2 b hb, sortedKeys_drop hs _⟩
    · intro a ha b hb
      rcases List.mem_cons.mp hb with rfl | hb2
      · exact hz1 a ha
      · exact lt_trans (hz1 a ha) (hz2 b hb2)
  · -- replace the entry at the version
    have hmeq : A.countP (fun a => k a.version = k e.version) = 1 := by omega
    rw [hmeq] at hz2
    unfold SortedKeys
    rw [List.pairwise_append]
    refine ⟨sortedKeys_take hs _, ?_, ?_⟩
    · rw [List.pairwise_cons]
      exact ⟨fun b hb => hz2 b hb, sortedKeys_drop hs _⟩
    · intro a ha b hb
      rcases List.mem_cons.mp hb with rfl | hb2
      · exact hz1 a ha
      · exact lt_trans (hz1 a ha) (hz2 b hb2)
  · -- no entry to remove
    exact hs
  · -- remove the entry at the version
    have hmeq : A.countP (fun a => k a.version = k e.version) = 1 := by omega
    rw [hmeq] at hz2
    unfold SortedKeys
    rw [List.pairwise_append]
    refine ⟨sortedKeys_take hs _, sortedKeys_drop hs _, ?_⟩
    intro a ha b hb
    exact lt_trans (hz1 a ha) (hz2 b hb)

/-- Effect of update_agg_log on the lookup of any version class: the class
of the incoming entry now holds it iff its checksum is present, every
other class is untouched. -/
theorem find?_key_updateAggLog {K : Type} [LinearOrder K] (k : String → K)
    (A : List Changelog) (e : Changelog) (hs : SortedKeys k A) (κ : K) :
    (updateAggLog (keyCmp k) A e).find? (fun c => k c.version = κ) =
      if k e.version = κ then (if e.checksum.isSome then some e else none)
      else A.find? (fun c => k c.version = κ) := by
  have hp := sorted_ordPartition hs (k e.version)
  have hnm := hp.1
  have hm1 := countP_key_eq_le_one hs (k e.version)
  have hz1 : ∀ a ∈ A.take (A.countP (fun a => k a.version < k e.version)),
      k a.version < k e.version := by
    intro a ha
    exact (cmpOf_lt_iff _ _).mp (mem_take_of_partition hp a ha)
  have hz2 : ∀ a ∈ A.drop (A.countP (fun a => k a.version < k e.version) +
      A.countP (fun a => k a.version = k e.version)), k e.version < k a.version := by
    intro a ha
    exact (cmpOf_gt_iff _ _).mp (mem_drop_of_partition hp a ha)
  rw [updateAggLog_eq k A e hs]
  by_cases hκ : k e.version = κ
  · subst hκ
    rw [if_pos rfl]
    have htn : (A.take (A.countP (fun a => k a.version < k e.version))).find?
        (fun c => k c.version = k e.version) = none := by
      rw [List.find?_eq_none]
      intro a ha
      simp only [decide_eq_true_eq]
      exact ne_of_lt (hz1 a ha)
    split_ifs with h1 h2 h2
    · rw [List.find?_append, htn]
      simp
    · rw [List.find?_append, htn]
      simp
    · conv_lhs => rw [← List.take_append_drop (A.countP (fun a => k a.version < k e.version)) A]
      rw [List.find?_append, htn]
      rw [h2, Nat.add_zero] at hz2
      have : (A.drop (A.countP (fun a => k a.version < k e.version))).find?
          (fun c => k c.version = k e.version) = none := by
        rw [List.find?_eq_none]
        intro a ha
        simp only [decide_eq_true_eq]
        exact (ne_of_lt (hz2 a ha)).symm
      simp [this]
    · rw [List.find?_append, htn]
      have hmeq : A.countP (fun a => k a.version = k e.version) = 1 := by omega
      rw [hmeq] at hz2
      have : (A.drop (A.countP (fun a => k a.version < k e.version) + 1)).find?
          (fun c => k c.version = k e.version) = none := by
        rw [List.find?_eq_none]
        intro a ha
        simp only [decide_eq_true_eq]
        exact (ne_of_lt (hz2 a ha)).symm
      simp [this]
  · rw [if_neg hκ]
    have hmid : ∀ h : ¬ A.countP (fun a => k a.version = k e.version) = 0,
        k (A.getD (A.countP (fun a => k a.version < k e.version)) default).version
          = k e.version := by
      intro h
      have := getD_of_partition_eq hp (by omega)
      exact (cmpOf_eq_iff _ _).mp this
  -- class κ differs from the incoming version: lookups agree
    split_ifs with h1 h2 h2
    · conv_rhs => rw [← List.take_append_drop (A.countP (fun a => k a.version < k e.version)) A]
      rw [List.find?_append, List.find?_append, List.find?_cons_of_neg _ (by simp [hκ])]
    · have hA2 := eq_take_cons_drop default (A.countP (fun a => k a.version < k e.version)) A
        (by omega)
      conv_rhs => rw [hA2]
      rw [List.find?_append, List.find?_append, List.find?_cons_of_neg _ (by simp [hκ]),
        List.find?_cons_of_neg _ (by
          simp only [decide_eq_true_eq]
          rw [hmid h2]
          exact hκ)]
    · rfl
    · have hA2 := eq_take_cons_drop default (A.countP (fun a => k a.version < k e.version)) A
        (by omega)
      conv_rhs => rw [hA2]
      rw [List.find?_append, List.find?_append,
        List.find?_cons_of_neg _ (by
          simp only [decide_eq_true_eq]
          rw [hmid h2]
          exact hκ)]

/-- Declarative reading of §4.3 of the spec (a second definition, written
from the words of the spec and not from the code, for comparison with the
code-level fold): the most recent raw entry of the version class, kept
exactly when its checksum is non-null. -/
def specEffectiveEntry {K : Type} [LinearOrder K] (k : String → K) (raw : List Changelog)
    (κ : K) : Option Changelog :=
  match (raw.filter (fun e => k e.version = κ)).getLast? with
  | some e => if e.checksum.isSome then some e else none
  | none => none

theorem consolidate_append_singleton (cmp : String → String → Ordering)
    (raw : List Changelog) (e : Changelog) :
    consolidate cmp (raw ++ [e]) = updateAggLog cmp (consolidate cmp raw) e := by
  unfold consolidate
  rw [List.foldl_append]
  rfl

theorem consolidate_sorted_and_lookup {K : Type} [LinearOrder K] (k : String → K)
    (raw : List Changelog) :
    SortedKeys k (consolidate (keyCmp k) raw) ∧
      ∀ κ : K, (consolidate (keyCmp k) raw).find? (fun c => k c.version = κ) =
        specEffectiveEntry k raw κ := by
  induction raw using List.reverseRecOn with
  | nil =>
    constructor
    · simp [consolidate, SortedKeys]
    · intro κ
      simp [consolidate, specEffectiveEntry]
  | append_singleton raw e ih =>
    rw [consolidate_append_singleton]
    constructor
    · exact sortedKeys_updateAggLog k _ e ih.1
    · intro κ
      rw [find?_key_updateAggLog k _ e ih.1 κ]
      unfold specEffectiveEntry
      rw [List.filter_append]
      by_cases hκ : k e.version = κ
      · rw [if_pos hκ]
        have : List.filter (fun e => decide (k e.version = κ)) [e] = [e] := by
          simp [hκ]
        rw [this, List.getLast?_concat]
      · rw [if_neg hκ]
        have : List.filter (fun e => decide (k e.version = κ)) [e] = [] := by
          simp [hκ]
        rw [this, List.append_nil]
        exact ih.2 κ

/-- C1: changelog consolidation is the fold of update_agg_log over the raw
entries in insertion order; a checksummed entry replaces or inserts at its
version class and a null-checksum entry removes or is ignored, so the
consolidated list is ordered by the version comparator and maps every
version class to the most recent raw entry of that class exactly when that
entry has a non-null checksum (and contains no other entries). -/
theorem claim1_consolidation_correspondence {K : Type} [LinearOrder K] (k : String → K)
    (raw : List Changelog) :
    SortedKeys k (consolidate (keyCmp k) raw) ∧
      ∀ κ : K, (consolidate (keyCmp k) raw).find? (fun c => k c.version = κ) =
        specEffectiveEntry k raw κ :=
  consolidate_sorted_and_lookup k raw

/-! ### Checksums of consolidated entries are always present -/

theorem updateAggLog_all_isSome (cmp : String → String → Ordering) (A : List Changelog)
    (e : Changelog) (hA : ∀ c ∈ A, c.checksum.isSome = true) :
    ∀ c ∈ updateAggLog cmp A e, c.checksum.isSome = true := by
  intro c hc
  unfold updateAggLog at hc
  split at hc
  next index hsearch hsome =>
    have hbound := (binarySearchBy_bounds _ A default).1 index hsearch
    rcases (List.mem_insertIdx hbound).mp hc with rfl | hmem
    · exact hsome
    · exact hA c hmem
  next => exact hA c hc
  next index hsearch hsome =>
    rcases List.mem_or_eq_of_mem_set hc with hmem | rfl
    · exact hA c hmem
    · exact hsome
  next => exact hA c (List.mem_of_mem_eraseIdx hc)

theorem consolidate_all_isSome (cmp : String → String → Ordering) (raw : List Changelog) :
    ∀ c ∈ consolidate cmp raw, c.checksum.isSome = true := by
  suffices h : ∀ A, (∀ c ∈ A, c.checksum.isSome = true) →
      ∀ c ∈ raw.foldl (updateAggLog cmp) A, c.checksum.isSome = true by
    exact h [] (by intro c hc; cases hc)
  induction raw with
  | nil => intro A hA; exact hA
  | cons e raw ih =>
    intro A hA
    exact ih _ (updateAggLog_all_isSome cmp A e hA)

/-! ### Claim C10: Changelog::checksum32 -/

/-- C10: checksum32 is total only when the stored checksum, if present, is
at least 8 characters long (the byte-level character-boundary proviso is
absorbed by the character-granular string model): it returns the first 8
characters for such entries, propagates a missing checksum as none, and
panics (outer none) on a shorter non-null checksum. -/
theorem claim10_checksum32_totality (c : Changelog) :
    (c.checksum = none → c.checksum32 = some none) ∧
    (∀ s, c.checksum = some s → 8 ≤ s.length → c.checksum32 = some (some (s.take 8))) ∧
    (∀ s, c.checksum = some s → s.length < 8 → c.checksum32 = none) := by
  refine ⟨?_, ?_, ?_⟩
  · intro h
    simp [Changelog.checksum32, h]
  · intro s h hl
    simp [Changelog.checksum32, h, hl]
  · intro s h hl
    simp only [Changelog.checksum32, h]
    rw [if_neg (by omega)]

theorem claim10_checksum32_totality_witness :
    (Changelog.mk 1 "1.0.0" none "upgrade" (some "abc") none none none none).checksum32
      = none ∧
    (Changelog.mk 1 "1.0.0" none "upgrade" (some "0123456789abcdef") none none none
      none).checksum32 = some (some "01234567") := by
  constructor
  · exact (claim10_checksum32_totality _).2.2 "abc" rfl (by decide)
  · have h := (claim10_checksum32_totality
      (Changelog.mk 1 "1.0.0" none "upgrade" (some "0123456789abcdef") none none none
        none)).2.1 "0123456789abcdef" rfl (by decide)
    rw [h]
    decide

/-! ## Recipe model (`dbmigrator_core/src/recipe.rs`) -/

inductive RecipeKind
  | Baseline
  | Upgrade
  | Revert
  | Fixup
  deriving Repr, DecidableEq

/-- Discriminant order of the Rust `derive(Ord)` on the RecipeKind enum:
Baseline < Upgrade < Revert < Fixup. -/
def RecipeKind.toNat : RecipeKind → Nat
  | .Baseline => 0
  | .Upgrade => 1
  | .Revert => 2
  | .Fixup => 3

def RecipeKind.cmp (a b : RecipeKind) : Ordering := cmpOf a.toNat b.toNat

/-- Display impl of RecipeKind. -/
def RecipeKind.toStr : RecipeKind → String
  | .Baseline => "baseline"
  | .Upgrade => "upgrade"
  | .Revert => "revert"
  | .Fixup => "fixup"

/-- The integrity errors of recipe.rs that the embedded operations can
produce (loader path errors concern filesystem access and are outside the
embedded fragment). -/
inductive RecipeError
  | InvalidRecipeKind (kind : String)
  | RepeatedVersion (version name1 name2 : String)
  | InvalidRevertMeta (version name : String)
  | InvalidFixupMeta (version name : String)
  | ConflictedFixup (version name old_checksum : String)
  | InvalidFixupNewTarget (version name old_checksum new_version new_name
      new_checksum : String)
  deriving Repr, DecidableEq

/-- RecipeKind::from_str. -/
def RecipeKind.fromStr (s : String) : Except RecipeError RecipeKind :=
  match s with
  | "baseline" => .ok .Baseline
  | "upgrade" => .ok .Upgrade
  | "revert" => .ok .Revert
  | "fixup" => .ok .Fixup
  | _ => .error (.InvalidRecipeKind s)

inductive RecipeMeta
  | Baseline
  | Upgrade
  | Revert (old_checksum maximum_version : String)
  | Fixup (old_checksum maximum_version new_version new_name new_checksum : String)
  deriving Repr, DecidableEq

structure RecipeScript where
  version : String
  name : String
  checksum : String
  sql : String
  meta : RecipeMeta
  deriving Repr, DecidableEq

def RecipeScript.kind (r : RecipeScript) : RecipeKind :=
  match r.meta with
  | .Baseline => .Baseline
  | .Upgrade => .Upgrade
  | .Revert _ _ => .Revert
  | .Fixup _ _ _ _ _ => .Fixup

def RecipeScript.is_baseline (r : RecipeScript) : Bool :=
  match r.meta with
  | .Baseline => true
  | _ => false

def RecipeScript.is_upgrade (r : RecipeScript) : Bool :=
  match r.meta with
  | .Upgrade => true
  | _ => false

/-- RecipeScript::match_checksum: a checksum pattern shorter than 8 never
matches; otherwise prefix match (computed on the character lists, which is
the byte comparison of the Rust source for these ASCII hex strings). -/
def RecipeScript.match_checksum (r : RecipeScript) (checksum : String) : Bool :=
  if checksum.length < 8 then false else checksum.data.isPrefixOf r.checksum.data

def RecipeScript.old_checksum (r : RecipeScript) : Option String :=
  match r.meta with
  | .Revert oc _ => some oc
  | .Fixup oc _ _ _ _ => some oc
  | _ => none

def RecipeScript.maximum_version (r : RecipeScript) : Option String :=
  match r.meta with
  | .Revert _ mv => some mv
  | .Fixup _ mv _ _ _ => some mv
  | _ => none

def RecipeScript.new_version (r : RecipeScript) : Option String :=
  match r.meta with
  | .Fixup _ _ nv _ _ => some nv
  | _ => none

def RecipeScript.new_target (r : RecipeScript) : Option (String × String × String) :=
  match r.meta with
  | .Fixup _ _ nv nn nc => some (nv, nn, nc)
  | _ => none

/-! ## SHA-256 (the sha2 crate digest used by RecipeScript::new),
implemented over natural numbers with explicit reduction mod 2^32. -/

def u32 (x : Nat) : Nat := x % 4294967296

def rotr (n x : Nat) : Nat := u32 ((x >>> n) ||| (x <<< (32 - n)))

def shaCh (x y z : Nat) : Nat := (x &&& y) ^^^ ((x ^^^ 4294967295) &&& z)

def shaMaj (x y z : Nat) : Nat := (x &&& y) ^^^ (x &&& z) ^^^ (y &&& z)

def shaS0 (x : Nat) : Nat := (rotr 2 x) ^^^ (rotr 13 x) ^^^ (rotr 22 x)

def shaS1 (x : Nat) : Nat := (rotr 6 x) ^^^ (rotr 11 x) ^^^ (rotr 25 x)

def shaLs0 (x : Nat) : Nat := (rotr 7 x) ^^^ (rotr 18 x) ^^^ (x >>> 3)

def shaLs1 (x : Nat) : Nat := (rotr 17 x) ^^^ (rotr 19 x) ^^^ (x >>> 10)

def sha256K : List Nat := [1116352408, 1899447441, 3049323471, 3921009573, 961987163,
  1508970993, 2453635748, 2870763221, 3624381080, 310598401, 607225278, 1426881987,
  1925078388, 2162078206, 2614888103, 3248222580, 3835390401, 4022224774, 264347078,
  604807628, 770255983, 1249150122, 1555081692, 1996064986, 2554220882, 2821834349,
  2952996808, 3210313671, 3336571891, 3584528711, 113926993, 338241895, 666307205,
  773529912, 1294757372, 1396182291, 1695183700, 1986661051, 2177026350, 2456956037,
  2730485921, 2820302411, 3259730800, 3345764771, 3516065817, 3600352804, 4094571909,
  275423344, 430227734, 506948616, 659060556, 883997877, 958139571, 1322822218,
  1537002063, 1747873779, 1955562222, 2024104815, 2227730452, 2361852424, 2428436474,
  2756734187, 3204031479, 3329325298]

def sha256InitH : List Nat := [1779033703, 3144134277, 1013904242, 2773480762,
  1359893119, 2600822924, 528734635, 1541459225]

def shaExtendStep (w : List Nat) : List Nat :=
  let i := w.length
  w ++ [u32 (shaLs1 (w.getD (i - 2) 0) + w.getD (i - 7) 0 + shaLs0 (w.getD (i - 15) 0) +
    w.getD (i - 16) 0)]

structure ShaRegs where
  ra : Nat
  rb : Nat
  rc : Nat
  rd : Nat
  re : Nat
  rf : Nat
  rg : Nat
  rh : Nat

def shaRound (regs : ShaRegs) (kw : Nat) : ShaRegs :=
  let t1 := u32 (regs.rh + shaS1 regs.re + shaCh regs.re regs.rf regs.rg + kw)
  let t2 := u32 (shaS0 regs.ra + shaMaj regs.ra regs.rb regs.rc)
  ⟨u32 (t1 + t2), regs.ra, regs.rb, regs.rc, u32 (regs.rd + t1), regs.re, regs.rf, regs.rg⟩

def shaCompress (hs : List Nat) (block : List Nat) : List Nat :=
  let w := shaExtendStep^[48] block
  let kws := (sha256K.zip w).map (fun p => u32 (p.1 + p.2))
  let r := kws.foldl shaRound
    ⟨hs.getD 0 0, hs.getD 1 0, hs.getD 2 0, hs.getD 3 0, hs.getD 4 0, hs.getD 5 0,
      hs.getD 6 0, hs.getD 7 0⟩
  [u32 (hs.getD 0 0 + r.ra), u32 (hs.getD 1 0 + r.rb), u32 (hs.getD 2 0 + r.rc),
    u32 (hs.getD 3 0 + r.rd), u32 (hs.getD 4 0 + r.re), u32 (hs.getD 5 0 + r.rf),
    u32 (hs.getD 6 0 + r.rg), u32 (hs.getD 7 0 + r.rh)]

def shaPad (msg : List Nat) : List Nat :=
  let len := msg.length
  msg ++ [128] ++ List.replicate ((119 - len % 64) % 64) 0 ++
    (List.range 8).map (fun i => ((len * 8) >>> (56 - 8 * i)) % 256)

def bytesToWords : List Nat → List Nat
  | b0 :: b1 :: b2 :: b3 :: rest =>
    (b0 * 16777216 + b1 * 65536 + b2 * 256 + b3) :: bytesToWords rest
  | _ => []

def chunks16Go (fuel : Nat) (l : List Nat) : List (List Nat) :=
  match fuel, l with
  | 0, _ => []
  | _, [] => []
  | fuel + 1, l => l.take 16 :: chunks16Go fuel (l.drop 16)

def chunks16 (l : List Nat) : List (List Nat) := chunks16Go l.length l

def sha256Words (msg : List Nat) : List Nat :=
  (chunks16 (bytesToWords (shaPad msg))).foldl shaCompress sha256InitH

def hexDigitChars : List Char :=
  ['0', '1', '2', '3', '4'] ++ ['5', '6', '7', '8', '9'] ++ ['a', 'b', 'c', 'd', 'e', 'f']

def natToBytesBE4 (w : Nat) : List Nat :=
  [(w >>> 24) % 256, (w >>> 16) % 256, (w >>> 8) % 256, w % 256]

def byteToHex (b : Nat) : List Char :=
  [hexDigitChars.getD (b / 16) '0', hexDigitChars.getD (b % 16) '0']

/-- Lowercase hexadecimal rendering of the digest, as produced by the
LowerHex formatting of the digest output in RecipeScript::new. -/
def sha256Hex (msg : List Nat) : String :=
  ⟨((sha256Words msg).flatMap natToBytesBE4).flatMap byteToHex⟩

/-- UTF-8 encoding of one character (Rust hashes the raw bytes of the
script string). -/
def utf8Encode (c : Char) : List Nat :=
  let n := c.toNat
  if n < 128 then [n]
  else if n < 2048 then [192 + n / 64, 128 + n % 64]
  else if n < 65536 then [224 + n / 4096, 128 + (n / 64) % 64, 128 + n % 64]
  else [240 + n / 262144, 128 + (n / 4096) % 64, 128 + (n / 64) % 64, 128 + n % 64]

def strBytes (s : String) : List Nat := s.data.flatMap utf8Encode

/-! ## Metadata header parsing (parse_sql_metadata) -/

/-- Insert-or-overwrite into the metadata map (HashMap::insert semantics,
modelled as an association list whose first hit is the stored value). -/
def metaUpsert (mp : List (String × String)) (key value : String) :
    List (String × String) :=
  if mp.any (fun p => p.1 = key) then
    mp.map (fun p => if p.1 = key then (key, value) else p)
  else mp ++ [(key, value)]

/-- Newline splitting at character level (String.splitOn is not
kernel-computable); produces the pieces between newline characters, which
is what the Rust line iterator feeds to the metadata scan (a piece may
keep a trailing carriage return, removed by the trim below exactly as the
Rust iterator strips it before the split and the Rust trim would). -/
def splitLinesGo : List Char → List Char → List String
  | [], acc => [⟨acc.reverse⟩]
  | c :: rest, acc =>
    if c = '\n' then ⟨acc.reverse⟩ :: splitLinesGo rest []
    else splitLinesGo rest (c :: acc)

def splitLines (s : String) : List String := splitLinesGo s.data []

/-- Whitespace trim at character level (str::trim; the engine only meets
ASCII whitespace in metadata headers). -/
def trimChars (s : String) : String :=
  ⟨((s.data.dropWhile Char.isWhitespace).reverse.dropWhile Char.isWhitespace).reverse⟩

/-- splitn(2, colon): cut the line at its first colon, if any. -/
def splitFirstColonGo : List Char → List Char → Option (String × String)
  | [], _ => none
  | c :: rest, acc =>
    if c = ':' then some (⟨acc.reverse⟩, ⟨rest⟩)
    else splitFirstColonGo rest (c :: acc)

def splitFirstColon (s : String) : Option (String × String) := splitFirstColonGo s.data []

/-- The leading comment block scan of parse_sql_metadata: stop at the first
line that does not start with a double dash; split the rest of the line at
the first colon (a line with no colon is skipped); trim both sides and
upsert into the map. -/
def parseMetaLines : List String → List (String × String) → List (String × String)
  | [], mp => mp
  | line :: rest, mp =>
    match line.data with
    | '-' :: '-' :: body =>
      match splitFirstColon ⟨body⟩ with
      | none => parseMetaLines rest mp
      | some (key, value) =>
        parseMetaLines rest (metaUpsert mp (trimChars key) (trimChars value))
    | _ => mp

def parseSqlMetadata (sql : String) : List (String × String) :=
  parseMetaLines (splitLines sql) []

/-! ## RecipeScript::new -/

/-- Kind resolution step of RecipeScript::new: a kind metadata entry
overrides the default kind and a bad value propagates the from_str error. -/
def recipeKindOf (metadata : List (String × String)) (default_kind : Option RecipeKind) :
    Except RecipeError (Option RecipeKind) :=
  match metadata.lookup "kind" with
  | some s =>
    match RecipeKind.fromStr s with
    | .ok kin => .ok (some kin)
    | .error e => .error e
  | none => .ok default_kind

/-- Meta construction step of RecipeScript::new, after version and name
overrides have been applied. -/
def recipeMetaOf (version name : String) (metadata : List (String × String)) :
    Option RecipeKind → Except RecipeError RecipeMeta
  | some .Baseline => .ok .Baseline
  | some .Upgrade => .ok .Upgrade
  | some .Revert =>
    match metadata.lookup "old_checksum" with
    | some oc =>
      .ok (.Revert oc ((metadata.lookup "maximum_version").getD version))
    | none => .error (.InvalidRevertMeta version name)
  | some .Fixup =>
    match metadata.lookup "old_checksum", metadata.lookup "new_name",
        metadata.lookup "new_checksum" with
    | some oc, some nn, some nc =>
      .ok (.Fixup oc ((metadata.lookup "maximum_version").getD version)
        ((metadata.lookup "new_version").getD version) nn nc)
    | _, _, _ => .error (.InvalidFixupMeta version name)
  | none => .error (.InvalidRecipeKind "unknown")

/-- RecipeScript::new (recipe.rs lines 131 to 225): hash the script bytes,
parse the metadata header, apply version and name overrides, resolve the
kind and build the kind-tagged meta. -/
def RecipeScript.new (version name sql : String) (default_kind : Option RecipeKind) :
    Except RecipeError RecipeScript :=
  match recipeKindOf (parseSqlMetadata sql) default_kind with
  | .error e => .error e
  | .ok kind =>
    match recipeMetaOf (((parseSqlMetadata sql).lookup "version").getD version)
        (((parseSqlMetadata sql).lookup "name").getD name) (parseSqlMetadata sql) kind with
    | .error e => .error e
    | .ok meta =>
      .ok ⟨((parseSqlMetadata sql).lookup "version").getD version,
        ((parseSqlMetadata sql).lookup "name").getD name,
        sha256Hex (strBytes sql), sql, meta⟩

instance {ε α : Type} [DecidableEq ε] [DecidableEq α] : DecidableEq (Except ε α) :=
  fun x y =>
    match x, y with
    | .ok a, .ok b =>
      if h : a = b then .isTrue (by rw [h])
      else .isFalse (by intro hc; cases hc; exact h rfl)
    | .error a, .error b =>
      if h : a = b then .isTrue (by rw [h])
      else .isFalse (by intro hc; cases hc; exact h rfl)
    | .ok _, .error _ => .isFalse (by intro hc; cases hc)
    | .error _, .ok _ => .isFalse (by intro hc; cases hc)

/-! ### Claim C5: checksum purity -/

theorem recipeScript_new_ok (version name sql : String) (dk : Option RecipeKind)
    (r : RecipeScript) (h : RecipeScript.new version name sql dk = .ok r) :
    r.checksum = sha256Hex (strBytes sql) ∧ r.sql = sql := by
  unfold RecipeScript.new at h
  split at h
  · exact Except.noConfusion h
  · split at h
    · exact Except.noConfusion h
    · cases h
      exact ⟨rfl, rfl⟩

theorem length_flatMap_const {α β : Type} (f : α → List β) (c : Nat)
    (hf : ∀ a, (f a).length = c) (l : List α) : (l.flatMap f).length = c * l.length := by
  induction l with
  | nil => simp
  | cons x xs ih =>
    rw [List.flatMap_cons, List.length_append, hf, ih, List.length_cons]
    ring

theorem foldl_shaCompress_length (blocks : List (List Nat)) :
    ∀ hs : List Nat, hs.length = 8 → (blocks.foldl shaCompress hs).length = 8 := by
  induction blocks with
  | nil => intro hs h; exact h
  | cons b bs ih =>
    intro hs h
    exact ih (shaCompress hs b) rfl

theorem sha256Words_length (msg : List Nat) : (sha256Words msg).length = 8 :=
  foldl_shaCompress_length _ sha256InitH rfl

theorem sha256Hex_length (msg : List Nat) : (sha256Hex msg).length = 64 := by
  show (((sha256Words msg).flatMap natToBytesBE4).flatMap byteToHex).length = 64
  rw [length_flatMap_const byteToHex 2 (fun b => rfl),
    length_flatMap_const natToBytesBE4 4 (fun w => rfl), sha256Words_length]

theorem getD_mem_of_default_mem {α : Type} (l : List α) (i : Nat) (d : α) (hd : d ∈ l) :
    l.getD i d ∈ l := by
  by_cases h : i < l.length
  · rw [List.getD_eq_getElem?_getD, List.getElem?_eq_getElem h]
    exact List.getElem_mem h
  · rw [List.getD_eq_getElem?_getD, List.getElem?_eq_none (by omega)]
    exact hd

theorem sha256Hex_chars (msg : List Nat) : ∀ ch ∈ (sha256Hex msg).data, ch ∈ hexDigitChars := by
  intro ch hch
  have hch2 : ch ∈ ((sha256Words msg).flatMap natToBytesBE4).flatMap byteToHex := hch
  rcases List.mem_flatMap.mp hch2 with ⟨b, _, hmem⟩
  rcases List.mem_cons.mp hmem with rfl | hmem2
  · exact getD_mem_of_default_mem _ _ _ (by decide)
  · rcases List.mem_cons.mp hmem2 with rfl | hmem3
    · exact getD_mem_of_default_mem _ _ _ (by decide)
    · cases hmem3

/-- C5: every recipe built by RecipeScript::new carries exactly the
64-character lowercase-hex SHA-256 digest of the raw bytes of its sql
field (stored verbatim), and re-loading the same sql bytes (under any
version, name or default kind) reproduces the identical checksum. -/
theorem claim5_checksum_purity (version name sql : String) (dk : Option RecipeKind)
    (r : RecipeScript) (h : RecipeScript.new version name sql dk = .ok r) :
    r.checksum = sha256Hex (strBytes sql) ∧ r.sql = sql ∧
    r.checksum.length = 64 ∧ (∀ ch ∈ r.checksum.data, ch ∈ hexDigitChars) ∧
    (∀ version2 name2 dk2 r2, RecipeScript.new version2 name2 sql dk2 = .ok r2 →
      r2.checksum = r.checksum) := by
  obtain ⟨hc, hs⟩ := recipeScript_new_ok version name sql dk r h
  refine ⟨hc, hs, ?_, ?_, ?_⟩
  · rw [hc]; exact sha256Hex_length _
  · rw [hc]; exact sha256Hex_chars _
  · intro version2 name2 dk2 r2 h2
    obtain ⟨hc2, _⟩ := recipeScript_new_ok version2 name2 sql dk2 r2 h2
    rw [hc2, hc]

set_option maxRecDepth 20000 in
theorem claim5_checksum_purity_witness :
    RecipeScript.new "1.0.0" "init" "CREATE TABLE t(x int);" (some RecipeKind.Upgrade) =
      .ok (RecipeScript.mk "1.0.0" "init"
        "49e7ddd58bd0cd6e2d022ee89070c7f2672309ddbd10c0ba40c15360d590bb06"
        "CREATE TABLE t(x int);" RecipeMeta.Upgrade) ∧
    (RecipeScript.mk "1.0.0" "init"
        "49e7ddd58bd0cd6e2d022ee89070c7f2672309ddbd10c0ba40c15360d590bb06"
        "CREATE TABLE t(x int);" RecipeMeta.Upgrade).checksum =
      sha256Hex (strBytes "CREATE TABLE t(x int);") ∧
    (RecipeScript.mk "1.0.0" "init"
        "49e7ddd58bd0cd6e2d022ee89070c7f2672309ddbd10c0ba40c15360d590bb06"
        "CREATE TABLE t(x int);" RecipeMeta.Upgrade).checksum.length = 64 := by
  have h : RecipeScript.new "1.0.0" "init" "CREATE TABLE t(x int);"
      (some RecipeKind.Upgrade) =
      .ok (RecipeScript.mk "1.0.0" "init"
        "49e7ddd58bd0cd6e2d022ee89070c7f2672309ddbd10c0ba40c15360d590bb06"
        "CREATE TABLE t(x int);" RecipeMeta.Upgrade) := by decide
  refine ⟨h, ?_, ?_⟩
  · exact (claim5_checksum_purity _ _ _ _ _ h).1
  · exact (claim5_checksum_purity _ _ _ _ _ h).2.2.1

/-! ## order_recipes (`dbmigrator_core/src/recipe.rs` lines 536 to 619) -/

instance : Inhabited RecipeScript := ⟨⟨"", "", "", "", .Baseline⟩⟩

/-- The sorter closure of order_recipes: version comparator first, then the
kind discriminant order. -/
def recipeSorter (cmp : String → String → Ordering) (item : RecipeScript)
    (version : String) (kind : RecipeKind) : Ordering :=
  (cmp item.version version).then (item.kind.cmp kind)

def sortLe (cmp : String → String → Ordering) (a b : RecipeScript) : Bool :=
  match recipeSorter cmp a b.version b.kind with
  | .gt => false
  | _ => true

/-- Rust Vec::sort_by is a stable comparison sort; for a comparator that is
a total preorder the output of any stable sort is uniquely determined, so
the (stable) insertion sort below models it. -/
def insertSorted (cmp : String → String → Ordering) (x : RecipeScript) :
    List RecipeScript → List RecipeScript
  | [] => [x]
  | y :: ys => if sortLe cmp x y then x :: y :: ys else y :: insertSorted cmp x ys

def sortRecipes (cmp : String → String → Ordering) :
    List RecipeScript → List RecipeScript
  | [] => []
  | x :: xs => insertSorted cmp x (sortRecipes cmp xs)

/-- slice::chunk_by with the predicate of order_recipes: maximal runs of
adjacent recipes whose version strings are equal. Because string equality
is transitive, every maximal adjacent-equal run is exactly a head element
followed by the longest prefix of elements with the same version string,
which is the form used here (with fuel to keep the recursion structural,
hence kernel-computable; the wrapper supplies enough fuel). -/
def chunkByVersionGo : Nat → List RecipeScript → List (List RecipeScript)
  | 0, _ => []
  | _, [] => []
  | fuel + 1, x :: l =>
    (x :: l.takeWhile (fun r => r.version = x.version)) ::
      chunkByVersionGo fuel (l.dropWhile (fun r => r.version = x.version))

def chunkByVersion (l : List RecipeScript) : List (List RecipeScript) :=
  chunkByVersionGo l.length l

/-- First loop of a chunk: at most one Baseline and one Upgrade recipe per
version; a duplicate is a RepeatedVersion error. On success it hands the
found Baseline and Upgrade to the second loop. -/
def checkChunkDupesGo : List RecipeScript → Option RecipeScript → Option RecipeScript →
    Except RecipeError (Option RecipeScript × Option RecipeScript)
  | [], baseline, upgrade => .ok (baseline, upgrade)
  | item :: rest, baseline, upgrade =>
    if item.is_baseline then
      match baseline with
      | some b => .error (.RepeatedVersion item.version b.name item.name)
      | none => checkChunkDupesGo rest (some item) upgrade
    else if item.is_upgrade then
      match upgrade with
      | some u => .error (.RepeatedVersion item.version u.name item.name)
      | none => checkChunkDupesGo rest baseline (some item)
    else checkChunkDupesGo rest baseline upgrade

/-- Second loop of a chunk: a Revert or Fixup must not reference a live
Baseline or Upgrade of the same version by old-checksum prefix; afterwards
the loop state takes the fix item itself as the reference baseline, as the
source does. -/
def checkChunkFixGo : List RecipeScript → Option RecipeScript → Option RecipeScript →
    Option RecipeError
  | [], _, _ => none
  | item :: rest, baseline, upgrade =>
    match item.old_checksum with
    | some oc =>
      if (match baseline with | some b => b.match_checksum oc | none => false) then
        some (.ConflictedFixup item.version item.name oc)
      else if (match upgrade with | some u => u.match_checksum oc | none => false) then
        some (.ConflictedFixup item.version item.name oc)
      else checkChunkFixGo rest (some item) upgrade
    | none => checkChunkFixGo rest baseline upgrade

def checkChunk (chunk : List RecipeScript) : Option RecipeError :=
  match checkChunkDupesGo chunk none none with
  | .error e => some e
  | .ok (baseline, upgrade) => checkChunkFixGo chunk baseline upgrade

def checkChunks : List (List RecipeScript) → Option RecipeError
  | [] => none
  | ch :: rest =>
    match checkChunk ch with
    | some e => some e
    | none => checkChunks rest

/-- Final loop of order_recipes: every fixup new target must name an
existing Upgrade recipe with the given name and checksum (located by
binary search with the sorter). -/
def checkFixupTargets (cmp : String → String → Ordering) (sorted : List RecipeScript) :
    List RecipeScript → Option RecipeError
  | [] => none
  | item :: rest =>
    match item.meta with
    | .Fixup oc _ nv nn nc =>
      if (match binarySearchBy (fun a => recipeSorter cmp a nv RecipeKind.Upgrade) sorted
            default with
          | .ok index =>
            ((sorted.getD index default).name == nn) &&
              ((sorted.getD index default).checksum == nc)
          | .error _ => false) then
        checkFixupTargets cmp sorted rest
      else some (.InvalidFixupNewTarget item.version item.name oc nv nn nc)
    | _ => checkFixupTargets cmp sorted rest

/-- order_recipes: stable-sort by (version, kind), then enforce the three
integrity rules. Returns the sorted list (the Rust source sorts in place). -/
def order_recipes (cmp : String → String → Ordering) (recipes : List RecipeScript) :
    Except RecipeError (List RecipeScript) :=
  match checkChunks (chunkByVersion (sortRecipes cmp recipes)) with
  | some e => .error e
  | none =>
    match checkFixupTargets cmp (sortRecipes cmp recipes) (sortRecipes cmp recipes) with
    | some e => .error e
    | none => .ok (sortRecipes cmp recipes)

/-! ### Sorting lemmas -/

theorem sortLe_iff {K : Type} [LinearOrder K] (k : String → K) (a b : RecipeScript) :
    sortLe (keyCmp k) a b = true ↔
      (k a.version < k b.version ∨
        (k a.version = k b.version ∧ a.kind.toNat ≤ b.kind.toNat)) := by
  unfold sortLe recipeSorter keyCmp RecipeKind.cmp
  rcases lt_trichotomy (k a.version) (k b.version) with h | h | h
  · rw [(cmpOf_lt_iff _ _).mpr h]
    simp only [Ordering.then]
    constructor
    · intro _; exact Or.inl h
    · intro _; trivial
  · rw [(cmpOf_eq_iff _ _).mpr h]
    simp only [Ordering.then]
    constructor
    · intro hle
      refine Or.inr ⟨h, ?_⟩
      by_contra hc
      push_neg at hc
      rw [(cmpOf_gt_iff _ _).mpr hc] at hle
      cases hle
    · intro hle
      rcases hle with hlt | ⟨_, hle⟩
      · exact absurd h (ne_of_lt hlt)
      · have : ¬ b.kind.toNat < a.kind.toNat := by omega
        rcases hc : cmpOf a.kind.toNat b.kind.toNat with _ | _ | _
        · rfl
        · rfl
        · rw [cmpOf_gt_iff] at hc
          exact absurd hc this
  · rw [(cmpOf_gt_iff _ _).mpr h]
    simp only [Ordering.then]
    constructor
    · intro hc; cases hc
    · intro hc
      rcases hc with hlt | ⟨heq, _⟩
      · exact absurd h (asymm hlt)
      · exact absurd heq (ne_of_gt h)

theorem sortLe_total {K : Type} [LinearOrder K] (k : String → K) (a b : RecipeScript) :
    sortLe (keyCmp k) a b = true ∨ sortLe (keyCmp k) b a = true := by
  rw [sortLe_iff, sortLe_iff]
  rcases lt_trichotomy (k a.version) (k b.version) with h | h | h
  · exact Or.inl (Or.inl h)
  · rcases Nat.le_total a.kind.toNat b.kind.toNat with h2 | h2
    · exact Or.inl (Or.inr ⟨h, h2⟩)
    · exact Or.inr (Or.inr ⟨h.symm, h2⟩)
  · exact Or.inr (Or.inl h)

theorem sortLe_trans {K : Type} [LinearOrder K] (k : String → K) (a b c : RecipeScript)
    (h1 : sortLe (keyCmp k) a b = true) (h2 : sortLe (keyCmp k) b c = true) :
    sortLe (keyCmp k) a c = true := by
  rw [sortLe_iff] at h1 h2 ⊢
  rcases h1 with h1 | ⟨h1, h1k⟩ <;> rcases h2 with h2 | ⟨h2, h2k⟩
  · exact Or.inl (lt_trans h1 h2)
  · exact Or.inl (h2 ▸ h1)
  · exact Or.inl (h1 ▸ h2)
  · exact Or.inr ⟨h1.trans h2, le_trans h1k h2k⟩

theorem insertSorted_perm (cmp : String → String → Ordering) (x : RecipeScript)
    (l : List RecipeScript) : List.Perm (insertSorted cmp x l) (x :: l) := by
  induction l with
  | nil => exact List.Perm.refl _
  | cons y ys ih =>
    unfold insertSorted
    by_cases h : sortLe cmp x y = true
    · rw [if_pos h]
    · rw [if_neg h]
      exact (List.Perm.cons y ih).trans (List.Perm.swap x y ys)

theorem sortRecipes_perm (cmp : String → String → Ordering) (l : List RecipeScript) :
    List.Perm (sortRecipes cmp l) l := by
  induction l with
  | nil => exact List.Perm.refl _
  | cons x xs ih =>
    unfold sortRecipes
    exact (insertSorted_perm cmp x (sortRecipes cmp xs)).trans (List.Perm.cons x ih)

theorem mem_insertSorted (cmp : String → String → Ordering) (x a : RecipeScript)
    (l : List RecipeScript) : a ∈ insertSorted cmp x l ↔ a = x ∨ a ∈ l := by
  have h := (insertSorted_perm cmp x l).mem_iff (a := a)
  rw [h, List.mem_cons]

theorem insertSorted_pairwise (cmp : String → String → Ordering)
    (htot : ∀ a b, sortLe cmp a b = true ∨ sortLe cmp b a = true)
    (htrans : ∀ a b c, sortLe cmp a b = true → sortLe cmp b c = true →
      sortLe cmp a c = true)
    (x : RecipeScript) (l : List RecipeScript)
    (hl : l.Pairwise (fun a b => sortLe cmp a b = true)) :
    (insertSorted cmp x l).Pairwise (fun a b => sortLe cmp a b = true) := by
  induction l with
  | nil => simp [insertSorted]
  | cons y ys ih =>
    rcases List.pairwise_cons.mp hl with ⟨hy, hys⟩
    unfold insertSorted
    by_cases h : sortLe cmp x y = true
    · rw [if_pos h]
      rw [List.pairwise_cons]
      constructor
      · intro b hb
        rcases List.mem_cons.mp hb with rfl | hb2
        · exact h
        · exact htrans x y b h (hy b hb2)
      · exact hl
    · rw [if_neg h]
      rw [List.pairwise_cons]
      constructor
      · intro b hb
        rcases (mem_insertSorted cmp x b ys).mp hb with rfl | hb2
        · rcases htot b y with h2 | h2
          · exact absurd h2 h
          · exact h2
        · exact hy b hb2
      · exact ih hys

theorem sortRecipes_pairwise (cmp : String → String → Ordering)
    (htot : ∀ a b, sortLe cmp a b = true ∨ sortLe cmp b a = true)
    (htrans : ∀ a b c, sortLe cmp a b = true → sortLe cmp b c = true →
      sortLe cmp a c = true)
    (l : List RecipeScript) :
    (sortRecipes cmp l).Pairwise (fun a b => sortLe cmp a b = true) := by
  induction l with
  | nil => simp [sortRecipes]
  | cons x xs ih =>
    exact insertSorted_pairwise cmp htot htrans x _ ih

/-! ### Chunk structure lemmas -/

theorem chunkByVersionGo_fuel : ∀ fuel fuel2 (l : List RecipeScript),
    l.length ≤ fuel → l.length ≤ fuel2 →
    chunkByVersionGo fuel l = chunkByVersionGo fuel2 l := by
  intro fuel
  induction fuel with
  | zero =>
    intro fuel2 l h1 _
    have : l = [] := List.length_eq_zero.mp (by omega)
    subst this
    cases fuel2 <;> rfl
  | succ fuel ih =>
    intro fuel2 l h1 h2
    match l with
    | [] => cases fuel2 <;> rfl
    | x :: rest =>
      match fuel2 with
      | 0 => simp at h2
      | fuel2 + 1 =>
        simp only [chunkByVersionGo]
        congr 1
        have hle := List.Sublist.length_le
          (List.dropWhile_sublist (l := rest) (fun r => r.version = x.version))
        exact ih fuel2 _ (by simp at h1; omega) (by simp at h2; omega)

theorem chunkByVersion_cons (x : RecipeScript) (l : List RecipeScript) :
    chunkByVersion (x :: l) =
      (x :: l.takeWhile (fun r => r.version = x.version)) ::
        chunkByVersion (l.dropWhile (fun r => r.version = x.version)) := by
  show chunkByVersionGo (x :: l).length (x :: l) = _
  have : (x :: l).length = l.length + 1 := rfl
  rw [this]
  simp only [chunkByVersionGo]
  congr 1
  exact chunkByVersionGo_fuel l.length _ _
    (List.Sublist.length_le (List.dropWhile_sublist _)) (le_refl _)

/-! ### Duplicate detection: specification of the chunk checks -/

def optNum : Option RecipeScript → Nat
  | some _ => 1
  | none => 0

theorem recipeKind_exclusive (r : RecipeScript) :
    ¬ (r.is_baseline = true ∧ r.is_upgrade = true) := by
  unfold RecipeScript.is_baseline RecipeScript.is_upgrade
  rcases r.meta <;> simp

theorem checkChunkDupesGo_spec : ∀ (C : List RecipeScript)
    (b u : Option RecipeScript),
    ((∃ p, checkChunkDupesGo C b u = .ok p) ↔
      (C.countP (·.is_baseline) + optNum b ≤ 1 ∧ C.countP (·.is_upgrade) + optNum u ≤ 1)) ∧
    (∀ e, checkChunkDupesGo C b u = .error e → ∃ v n1 n2, e = .RepeatedVersion v n1 n2) := by
  intro C
  induction C with
  | nil =>
    intro b u
    constructor
    · rcases b <;> rcases u <;> simp [checkChunkDupesGo, optNum]
    · intro e he
      cases he
  | cons item rest ih =>
    intro b u
    by_cases hb : item.is_baseline = true
    · have hu : item.is_upgrade = false := by
        rcases hu2 : item.is_upgrade with _ | _
        · rfl
        · exact absurd ⟨hb, hu2⟩ (recipeKind_exclusive item)
      rcases b with _ | bb
      · -- baseline slot free: take it
        have hstep : checkChunkDupesGo (item :: rest) none u =
            checkChunkDupesGo rest (some item) u := by
          simp [checkChunkDupesGo, hb]
        rw [hstep]
        constructor
        · rw [(ih (some item) u).1]
          simp [List.countP_cons, hb, hu, optNum]
        · exact (ih (some item) u).2
      · -- duplicate baseline
        have hstep : checkChunkDupesGo (item :: rest) (some bb) u =
            .error (.RepeatedVersion item.version bb.name item.name) := by
          simp [checkChunkDupesGo, hb]
        rw [hstep]
        constructor
        · constructor
          · intro ⟨p, hp⟩
            cases hp
          · intro ⟨h1, _⟩
            rw [List.countP_cons] at h1
            simp [hb, optNum] at h1
        · intro e he
          cases he
          exact ⟨_, _, _, rfl⟩
    · by_cases hup : item.is_upgrade = true
      · rcases u with _ | uu
        · have hstep : checkChunkDupesGo (item :: rest) b none =
              checkChunkDupesGo rest b (some item) := by
            simp [checkChunkDupesGo, hb, hup]
          rw [hstep]
          constructor
          · rw [(ih b (some item)).1]
            simp [List.countP_cons, hb, hup, optNum]
          · exact (ih b (some item)).2
        · have hstep : checkChunkDupesGo (item :: rest) b (some uu) =
              .error (.RepeatedVersion item.version uu.name item.name) := by
            simp [checkChunkDupesGo, hb, hup]
          rw [hstep]
          constructor
          · constructor
            · intro ⟨p, hp⟩
              cases hp
            · intro ⟨_, h2⟩
              rw [List.countP_cons] at h2
              simp [hup, optNum] at h2
          · intro e he
            cases he
            exact ⟨_, _, _, rfl⟩
      · have hstep : checkChunkDupesGo (item :: rest) b u =
            checkChunkDupesGo rest b u := by
          simp [checkChunkDupesGo, hb, hup]
        rw [hstep]
        constructor
        · rw [(ih b u).1]
          simp [List.countP_cons, hb, hup]
        · exact (ih b u).2

theorem checkChunkFixGo_none : ∀ (C : List RecipeScript),
    (∀ r ∈ C, r.old_checksum = none) → ∀ b u, checkChunkFixGo C b u = none := by
  intro C
  induction C with
  | nil => intro _ b u; rfl
  | cons item rest ih =>
    intro h b u
    have hi : item.old_checksum = none := h item (List.mem_cons_self _ _)
    have hr : ∀ r ∈ rest, r.old_checksum = none := fun r hr => h r (List.mem_cons_of_mem _ hr)
    simp [checkChunkFixGo, hi, ih hr]

theorem meta_BU_old_checksum {r : RecipeScript}
    (h : r.meta = .Baseline ∨ r.meta = .Upgrade) : r.old_checksum = none := by
  unfold RecipeScript.old_checksum
  rcases h with h | h <;> rw [h]

theorem checkChunk_spec (C : List RecipeScript)
    (hBU : ∀ r ∈ C, r.meta = .Baseline ∨ r.meta = .Upgrade) :
    (checkChunk C = none ↔
      C.countP (·.is_baseline) ≤ 1 ∧ C.countP (·.is_upgrade) ≤ 1) ∧
    (∀ e, checkChunk C = some e → ∃ v n1 n2, e = .RepeatedVersion v n1 n2) := by
  unfold checkChunk
  have hspec := checkChunkDupesGo_spec C none none
  rcases hgo : checkChunkDupesGo C none none with e | p
  · constructor
    · constructor
      · intro hc
        cases hc
      · intro hcnt
        have := hspec.1.mpr (by simpa [optNum] using hcnt)
        rcases this with ⟨p, hp⟩
        rw [hgo] at hp
        cases hp
    · intro e2 he2
      cases he2
      exact hspec.2 e hgo
  · have hfix : checkChunkFixGo C p.1 p.2 = none :=
      checkChunkFixGo_none C (fun r hr => meta_BU_old_checksum (hBU r hr)) p.1 p.2
    constructor
    · constructor
      · intro _
        have := hspec.1.mp ⟨p, hgo⟩
        simpa [optNum] using this
      · intro _
        show (match p with | (baseline, upgrade) => checkChunkFixGo C baseline upgrade) = none
        rcases p with ⟨b, u⟩
        exact hfix
    · intro e2 he2
      rcases p with ⟨b, u⟩
      simp only at he2
      rw [hfix] at he2
      cases he2

/-! ### checkChunks on a sorted recipe list -/

def countBaselineAt (l : List RecipeScript) (v : String) : Nat :=
  l.countP (fun r => r.version = v && r.is_baseline)

def countUpgradeAt (l : List RecipeScript) (v : String) : Nat :=
  l.countP (fun r => r.version = v && r.is_upgrade)

/-- Some version string carries two Baselines or two Upgrades. -/
def HasDupBU (l : List RecipeScript) : Prop :=
  ∃ v, 2 ≤ countBaselineAt l v ∨ 2 ≤ countUpgradeAt l v

theorem sortLe_version_le {K : Type} [LinearOrder K] (k : String → K) {a b : RecipeScript}
    (h : sortLe (keyCmp k) a b = true) : k a.version ≤ k b.version := by
  rcases (sortLe_iff k a b).mp h with h | ⟨h, _⟩
  · exact le_of_lt h
  · exact le_of_eq h

theorem dropWhile_head_false {α : Type} (p : α → Bool) :
    ∀ (l : List α) (b : α) (l2 : List α), l.dropWhile p = b :: l2 → p b = false := by
  intro l
  induction l with
  | nil => intro b l2 h; cases h
  | cons x xs ih =>
    intro b l2 h
    rw [List.dropWhile_cons] at h
    split at h
    · exact ih b l2 h
    · cases h
      next hx => exact Bool.not_eq_true _ |>.mp hx

theorem checkChunks_spec {K : Type} [LinearOrder K] (k : String → K)
    (hinj : Function.Injective k) :
    ∀ n (l : List RecipeScript), l.length ≤ n →
      l.Pairwise (fun a b => sortLe (keyCmp k) a b = true) →
      (∀ r ∈ l, r.meta = .Baseline ∨ r.meta = .Upgrade) →
      (checkChunks (chunkByVersion l) = none ↔ ¬ HasDupBU l) ∧
      (∀ e, checkChunks (chunkByVersion l) = some e →
        ∃ v n1 n2, e = .RepeatedVersion v n1 n2) := by
  intro n
  induction n with
  | zero =>
    intro l hlen _ _
    have hnil : l = [] := List.length_eq_zero.mp (by omega)
    subst hnil
    refine ⟨⟨fun _ hd => ?_, fun _ => rfl⟩, fun e he => by cases he⟩
    rcases hd with ⟨v, hv⟩
    simp [countBaselineAt, countUpgradeAt] at hv
  | succ n ih =>
    intro l hlen hsort hBU
    match l with
    | [] =>
      refine ⟨⟨fun _ hd => ?_, fun _ => rfl⟩, fun e he => by cases he⟩
      rcases hd with ⟨v, hv⟩
      simp [countBaselineAt, countUpgradeAt] at hv
    | x :: rest =>
      obtain ⟨T, D, hT, hD, hTD⟩ :
          ∃ T D, T = rest.takeWhile (fun r => r.version = x.version) ∧
            D = rest.dropWhile (fun r => r.version = x.version) ∧ rest = T ++ D :=
        ⟨_, _, rfl, rfl, (List.takeWhile_append_dropWhile _ _).symm⟩
      have hpc := List.pairwise_cons.mp hsort
      have hxrest := hpc.1
      have hrest_sort := hpc.2
      have hDsub : D.Sublist rest := hD ▸ List.dropWhile_sublist _
      have hTsub : T.Sublist rest := hT ▸ List.takeWhile_sublist _
      have hCver : ∀ r ∈ (x :: T), r.version = x.version := by
        intro r hr
        rcases List.mem_cons.mp hr with rfl | hr2
        · rfl
        · have := List.mem_takeWhile_imp (hT ▸ hr2)
          simpa using this
      have hDver : ∀ r ∈ D, ¬ r.version = x.version := by
        intro r hr hveq
        rcases hDc : D with _ | ⟨d, D2⟩
        · rw [hDc] at hr; cases hr
        · have hdp : (fun r : RecipeScript => decide (r.version = x.version)) d = false :=
            dropWhile_head_false _ rest d D2 (by rw [← hD, hDc])
          have hdmem : d ∈ rest := hDsub.mem (by rw [hDc]; exact List.mem_cons_self _ _)
          have hxd : k x.version ≤ k d.version := sortLe_version_le k (hxrest d hdmem)
          have hdr : k d.version ≤ k r.version := by
            rw [hDc] at hr
            rcases List.mem_cons.mp hr with rfl | hr2
            · exact le_refl _
            · have hDsort : (d :: D2).Pairwise
                  (fun a b => sortLe (keyCmp k) a b = true) :=
                List.Pairwise.sublist (hDc ▸ hDsub) hrest_sort
              exact sortLe_version_le k ((List.pairwise_cons.mp hDsort).1 r hr2)
          have hrx : k r.version = k x.version := by rw [hveq]
          have : k d.version = k x.version := le_antisymm (hrx ▸ hdr) hxd
          have hdx : d.version = x.version := hinj this
          have hdp2 : decide (d.version = x.version) = false := hdp
          rw [hdx] at hdp2
          simp at hdp2
      have hCBU : ∀ r ∈ (x :: T), r.meta = .Baseline ∨ r.meta = .Upgrade := by
        intro r hr
        rcases List.mem_cons.mp hr with rfl | hr2
        · exact hBU r (List.mem_cons_self _ _)
        · exact hBU r (List.mem_cons_of_mem _ (hTsub.mem hr2))
      have hDBU : ∀ r ∈ D, r.meta = .Baseline ∨ r.meta = .Upgrade := by
        intro r hr
        exact hBU r (List.mem_cons_of_mem _ (hDsub.mem hr))
      have hDlen : D.length ≤ n := by
        have h1 := hDsub.length_le
        have h2 : (x :: rest).length = rest.length + 1 := rfl
        rw [h2] at hlen
        omega
      have hDsort2 : D.Pairwise (fun a b => sortLe (keyCmp k) a b = true) :=
        List.Pairwise.sublist hDsub hrest_sort
      have ihD := ih D hDlen hDsort2 hDBU
      -- count decompositions
      have hsplitB : ∀ v, countBaselineAt (x :: rest) v =
          countBaselineAt (x :: T) v + countBaselineAt D v := by
        intro v
        unfold countBaselineAt
        rw [hTD]
        simp only [List.countP_cons, List.countP_append]
        omega
      have hsplitU : ∀ v, countUpgradeAt (x :: rest) v =
          countUpgradeAt (x :: T) v + countUpgradeAt D v := by
        intro v
        unfold countUpgradeAt
        rw [hTD]
        simp only [List.countP_cons, List.countP_append]
        omega
      have hCzero : ∀ v, ¬ v = x.version →
          countBaselineAt (x :: T) v = 0 ∧ countUpgradeAt (x :: T) v = 0 := by
        intro v hv
        constructor
        · rw [countBaselineAt, List.countP_eq_zero]
          intro a ha
          have hva := hCver a ha
          simp only [Bool.and_eq_true, decide_eq_true_eq, not_and]
          intro hc
          exfalso
          apply hv
          rw [← hc, hva]
        · rw [countUpgradeAt, List.countP_eq_zero]
          intro a ha
          have hva := hCver a ha
          simp only [Bool.and_eq_true, decide_eq_true_eq, not_and]
          intro hc
          exfalso
          apply hv
          rw [← hc, hva]
      have hDzero : countBaselineAt D x.version = 0 ∧ countUpgradeAt D x.version = 0 := by
        constructor
        · rw [countBaselineAt, List.countP_eq_zero]
          intro a ha
          simp [hDver a ha]
        · rw [countUpgradeAt, List.countP_eq_zero]
          intro a ha
          simp [hDver a ha]
      have hCeqB : countBaselineAt (x :: T) x.version = (x :: T).countP (·.is_baseline) := by
        unfold countBaselineAt
        apply List.countP_congr
        intro a ha
        simp [hCver a ha]
      have hCeqU : countUpgradeAt (x :: T) x.version = (x :: T).countP (·.is_upgrade) := by
        unfold countUpgradeAt
        apply List.countP_congr
        intro a ha
        simp [hCver a ha]
      have hdecomp : HasDupBU (x :: rest) ↔
          (2 ≤ (x :: T).countP (·.is_baseline) ∨ 2 ≤ (x :: T).countP (·.is_upgrade)) ∨
            HasDupBU D := by
        constructor
        · rintro ⟨v, hv⟩
          by_cases hvx : v = x.version
          · subst hvx
            left
            rcases hv with hv | hv
            · left
              rw [hsplitB, hDzero.1, hCeqB] at hv
              omega
            · right
              rw [hsplitU, hDzero.2, hCeqU] at hv
              omega
          · right
            refine ⟨v, ?_⟩
            rcases hv with hv | hv
            · left
              rw [hsplitB, (hCzero v hvx).1] at hv
              omega
            · right
              rw [hsplitU, (hCzero v hvx).2] at hv
              omega
        · rintro (h | ⟨v, hv⟩)
          · refine ⟨x.version, ?_⟩
            rcases h with h | h
            · left
              rw [hsplitB, hDzero.1, hCeqB]
              omega
            · right
              rw [hsplitU, hDzero.2, hCeqU]
              omega
          · refine ⟨v, ?_⟩
            rcases hv with hv | hv
            · left
              rw [hsplitB]
              omega
            · right
              rw [hsplitU]
              omega
      have hC := checkChunk_spec (x :: T) hCBU
      have hchunks : checkChunks (chunkByVersion (x :: rest)) =
          (match checkChunk (x :: T) with
          | some e => some e
          | none => checkChunks (chunkByVersion D)) := by
        rw [chunkByVersion_cons, ← hT, ← hD]
        rfl
      rcases hchk : checkChunk (x :: T) with _ | e
      · rw [hchunks, hchk]
        have hcnt := hC.1.mp hchk
        constructor
        · rw [ihD.1, hdecomp]
          constructor
          · intro hnD hdup
            rcases hdup with h | h
            · omega
            · exact hnD h
          · intro hno
            intro hdupD
            exact hno (Or.inr hdupD)
        · intro e he
          exact ihD.2 e he
      · rw [hchunks, hchk]
        constructor
        · constructor
          · intro hc
            cases hc
          · intro hnd
            exfalso
            have hcnt : (x :: T).countP (·.is_baseline) ≤ 1 ∧
                (x :: T).countP (·.is_upgrade) ≤ 1 := by
              rw [hdecomp] at hnd
              push_neg at hnd
              have := hnd.1
              omega
            have := hC.1.mpr hcnt
            rw [hchk] at this
            cases this
        · intro e2 he2
          cases he2
          exact hC.2 e hchk

theorem checkFixupTargets_none (cmp : String → String → Ordering)
    (sorted : List RecipeScript) :
    ∀ C, (∀ r ∈ C, r.meta = .Baseline ∨ r.meta = .Upgrade) →
      checkFixupTargets cmp sorted C = none := by
  intro C
  induction C with
  | nil => intro _; rfl
  | cons item rest ih =>
    intro h
    have hi := h item (List.mem_cons_self _ _)
    have hr := fun r hrr => h r (List.mem_cons_of_mem _ hrr)
    rcases hi with hi | hi <;> simp [checkFixupTargets, hi, ih hr]

/-- C8 (amended): with a comparator that equates only identical version
strings (as the shipped byte-wise comparator does) and a recipe set of
Baselines and Upgrades only (so that no other integrity error can
preempt), order_recipes fails with RepeatedVersion exactly when some
version string carries two Baselines or two Upgrades; otherwise it accepts
the set and returns it sorted. -/
theorem claim8_order_recipes_repeated_amended {K : Type} [LinearOrder K]
    (k : String → K) (hinj : Function.Injective k) (recipes : List RecipeScript)
    (hBU : ∀ r ∈ recipes, r.meta = .Baseline ∨ r.meta = .Upgrade) :
    ((∃ v n1 n2, order_recipes (keyCmp k) recipes =
        .error (.RepeatedVersion v n1 n2)) ↔ HasDupBU recipes) ∧
    (¬ HasDupBU recipes →
      order_recipes (keyCmp k) recipes = .ok (sortRecipes (keyCmp k) recipes)) := by
  have hsorted := sortRecipes_pairwise (keyCmp k) (sortLe_total k) (sortLe_trans k) recipes
  have hperm := sortRecipes_perm (keyCmp k) recipes
  have hsBU : ∀ r ∈ sortRecipes (keyCmp k) recipes,
      r.meta = .Baseline ∨ r.meta = .Upgrade := by
    intro r hr
    exact hBU r (hperm.mem_iff.mp hr)
  have hdup_iff : HasDupBU (sortRecipes (keyCmp k) recipes) ↔ HasDupBU recipes := by
    unfold HasDupBU countBaselineAt countUpgradeAt
    constructor <;>
      (rintro ⟨v, hv⟩
       refine ⟨v, ?_⟩
       rw [hperm.countP_eq, hperm.countP_eq] at *
       exact hv)
  have hspec := checkChunks_spec k hinj (sortRecipes (keyCmp k) recipes).length
    (sortRecipes (keyCmp k) recipes) (le_refl _) hsorted hsBU
  have hfix := checkFixupTargets_none (keyCmp k) (sortRecipes (keyCmp k) recipes)
    (sortRecipes (keyCmp k) recipes) hsBU
  unfold order_recipes
  rcases hchk : checkChunks (chunkByVersion (sortRecipes (keyCmp k) recipes)) with _ | e
  · -- all chunks pass
    have hnd : ¬ HasDupBU (sortRecipes (keyCmp k) recipes) := hspec.1.mp hchk
    rw [hfix]
    constructor
    · constructor
      · rintro ⟨v, n1, n2, hc⟩
        cases hc
      · intro hdup
        exact absurd (hdup_iff.mpr hdup) hnd
    · intro _
      rfl
  · -- a chunk failed: the error is a RepeatedVersion
    obtain ⟨v, n1, n2, rfl⟩ := hspec.2 e hchk
    constructor
    · constructor
      · intro _
        by_contra hnd
        have : checkChunks (chunkByVersion (sortRecipes (keyCmp k) recipes)) = none :=
          hspec.1.mpr (fun hd => hnd (hdup_iff.mp hd))
        rw [hchk] at this
        cases this
      · intro _
        exact ⟨v, n1, n2, rfl⟩
    · intro hnd
      exfalso
      have : checkChunks (chunkByVersion (sortRecipes (keyCmp k) recipes)) = none :=
        hspec.1.mpr (fun hd => hnd (hdup_iff.mp hd))
      rw [hchk] at this
      cases this

/-! ### The concrete comparator keys used by witnesses and counterexamples -/

/-- Code-point sequence of a string: the key of the byte-wise comparator
simple_compare (UTF-8 byte order and code-point order agree). -/
def strKey (s : String) : List Nat := s.data.map Char.toNat

theorem strKey_injective : Function.Injective strKey := by
  have hchar : Function.Injective Char.toNat := by
    intro c d hcd
    exact Char.ext (UInt32.toNat.inj hcd)
  intro a b h
  have hd : a.data = b.data := List.map_injective_iff.mpr hchar h
  cases a
  cases b
  exact congrArg String.mk hd

/-- A lawful but non-injective comparator key: it ignores everything from
the first plus sign on (the build-metadata convention of semantic
versioning). -/
def buildMetaKey (s : String) : List Nat :=
  (s.data.takeWhile (fun c => ¬ c = '+')).map Char.toNat

def cxBase1 : RecipeScript :=
  ⟨"1.0.0", "base1", "aaaaaaaaaaaaaaaaaaaaaaaaaaaaaaaaaaaaaaaaaaaaaaaaaaaaaaaaaaaaaaaa",
    "CREATE TABLE a(x int);", .Baseline⟩

def cxBase2 : RecipeScript :=
  ⟨"1.0.0+fix", "base2", "bbbbbbbbbbbbbbbbbbbbbbbbbbbbbbbbbbbbbbbbbbbbbbbbbbbbbbbbbbbbbbbb",
    "CREATE TABLE b(x int);", .Baseline⟩

/-- C8 counterexample: two Baseline recipes whose versions compare equal
under the configured comparator but whose version strings differ are
accepted by order_recipes, because chunk_by groups by string equality of
versions, not by the comparator; the claim as stated demands a
RepeatedVersion failure here. -/
theorem claim8_counterexample :
    keyCmp buildMetaKey cxBase1.version cxBase2.version = .eq ∧
    cxBase1.is_baseline = true ∧ cxBase2.is_baseline = true ∧
    order_recipes (keyCmp buildMetaKey) [cxBase1, cxBase2] = .ok [cxBase1, cxBase2] := by
  decide

def cxUp1 : RecipeScript :=
  ⟨"1.0.1", "up1", "cccccccccccccccccccccccccccccccccccccccccccccccccccccccccccccccc",
    "ALTER TABLE a ADD y int;", .Upgrade⟩

def cxUp2 : RecipeScript :=
  ⟨"1.0.1", "up2", "dddddddddddddddddddddddddddddddddddddddddddddddddddddddddddddddd",
    "ALTER TABLE a ADD z int;", .Upgrade⟩

theorem claim8_order_recipes_repeated_amended_witness :
    ∃ v n1 n2, order_recipes (keyCmp strKey) [cxUp1, cxUp2] =
      .error (.RepeatedVersion v n1 n2) :=
  (claim8_order_recipes_repeated_amended strKey strKey_injective [cxUp1, cxUp2]
    (by decide)).1.mpr ⟨"1.0.1", Or.inr (by decide)⟩

/-! ## Errors of the migrator (`dbmigrator/src/migrator.rs`) -/

inductive SqlErrorCode
  | undefinedTable
  | other (code : String)
  deriving Repr, DecidableEq

inductive MigratorError
  | RecipeErr (e : RecipeError)
  | NoBaseline
  | UnknownBaseline (version : String)
  | UnknownTarget (version : String) (available : Option String)
  | NoLogTable
  | UnknownMigration (log : Changelog)
  | MissingMigration (script : RecipeScript)
  | ConflictedMigration (log : Changelog) (script : RecipeScript)
  | PgErr (code : SqlErrorCode)
  deriving Repr, DecidableEq

/-! ## tokio_postgres driver: last_log_id
(`dbmigrator/src/drivers/tokio_postgres.rs` lines 30 to 53)

The database table is modelled as `Option (List Changelog)`: `none` when
the log table does not exist (the query then fails with the
undefined-table SQL state) and `some rows` otherwise. -/

/-- The `SELECT max(log_id)` aggregate: it always returns exactly one row,
whose value is NULL (here the inner `none`) when the table is empty. -/
def selectMaxLogId (db : Option (List Changelog)) :
    Except SqlErrorCode (Option (Option Int)) :=
  match db with
  | none => .error .undefinedTable
  | some rows => .ok (some ((rows.map (fun r => r.log_id)).max?))

/-- AsyncClient::last_log_id for the tokio_postgres Client:
`Ok(Some(row))` unwraps the nullable aggregate with default 0; the
`Ok(None)` arm (a zero-row result set) maps to -1; the undefined-table
error code maps to NoLogTable, any other database error passes through. -/
def last_log_id (db : Option (List Changelog)) : Except MigratorError Int :=
  match selectMaxLogId db with
  | .ok (some row) => .ok (row.getD 0)
  | .ok none => .ok (-1)
  | .error c =>
    if c = .undefinedTable then .error .NoLogTable else .error (.PgErr c)

/-- C6 counterexample: on a table that exists but has no rows, last_log_id
returns 0, not -1 as the claim states — the aggregate query yields one row
holding NULL, so the zero-row arm that would produce -1 is unreachable. -/
theorem claim6_counterexample : ¬ last_log_id (some []) = .ok (-1) := by decide

/-- C6 (amended): last_log_id fails with NoLogTable exactly when the log
table is missing (undefined-relation error code), and returns 0 — not
-1 — when the table exists but contains no rows, because the max()
aggregate returns a single NULL row that is unwrapped with default 0. -/
theorem claim6_last_log_id_amended :
    last_log_id none = .error .NoLogTable ∧
    last_log_id (some []) = .ok 0 := by
  constructor <;> rfl

/-! ## The Migrator (`dbmigrator/src/migrator.rs`) -/

structure Config where
  auto_initialize : Bool
  log_table_name : Option String
  suggested_baseline_version : Option String
  target_version : Option String
  apply_by : Option String
  allow_fixes : Bool
  allow_out_of_order : Bool
  deriving Repr, DecidableEq

structure MigrationPlan where
  recipe : RecipeScript
  log_id_to_revert : Option Int
  revert_log : Option Changelog
  apply_log : Option Changelog
  deriving Repr, DecidableEq

/-- The Migrator state. The version comparator, a function value in the
Rust struct, is passed to each operation instead of being stored. -/
structure Migrator where
  config : Config
  recipes : List RecipeScript
  last_log_id : Int
  next_log_id : Int
  raw_logs : List Changelog
  consolidated_logs : List Changelog
  updated_logs : List Changelog
  baseline_version : Option String
  plans : List MigrationPlan
  deriving Repr, DecidableEq

/-- Migrator::recipes_for_version: binary search by the version comparator
only; on a hit, the returned slice runs from the landing index through the
first strictly greater recipe inclusive (the source slices
`first..first+last+1` where `last` is the position of the first Greater
element). -/
def recipes_for_version (cmp : String → String → Ordering) (recipes : List RecipeScript)
    (version : String) : List RecipeScript :=
  match binarySearchBy (fun a => cmp a.version version) recipes default with
  | .ok first =>
    match (recipes.drop first).findIdx? (fun a => cmp a.version version = .gt) with
    | some last => (recipes.drop first).take (last + 1)
    | none => recipes.drop first
  | .error _ => []

/-- Migrator::match_fix_recipe: version strings equal, stored old checksum
equal to the log checksum (full string equality), and the current version
at most the recipe's maximum version. -/
def match_fix_recipe (cmp : String → String → Ordering) (log_version log_checksum : String)
    (recipe : RecipeScript) (current_version : String) : Bool :=
  match recipe.old_checksum, recipe.maximum_version with
  | some oc, some mv =>
    (log_version = recipe.version) && (log_checksum = oc) &&
      (match cmp current_version mv with
       | .lt => true
       | .eq => true
       | .gt => false)
  | _, _ => false

/-- Migrator::baseline_recipe: the baseline at the suggested version, or
the last baseline in sort order. -/
def baseline_recipe (cmp : String → String → Ordering) (config : Config)
    (recipes : List RecipeScript) : Except MigratorError RecipeScript :=
  match config.suggested_baseline_version with
  | some sbv =>
    match binarySearchBy (fun a => recipeSorter cmp a sbv RecipeKind.Baseline)
        recipes default with
    | .ok index => .ok (recipes.getD index default)
    | .error _ => .error (.UnknownBaseline sbv)
  | none =>
    match recipes.reverse.find? (fun s => s.is_baseline) with
    | some recipe => .ok recipe
    | none => .error .NoBaseline

/-- Phase A scan of make_plan: walk the updated logs from newest to oldest
(`current_version` is the newest version, fixed over the walk) and stop at
the first log entry with a matching fix recipe. The checksum unwrap inside
the search closure panics (modelled as the error) when a scanned entry has
a null checksum and the recipe slice at its version is nonempty. -/
def phaseAScan (cmp : String → String → Ordering) (recipes : List RecipeScript)
    (current_version : String) :
    List Changelog → Except Unit (Option (Changelog × RecipeScript))
  | [] => .ok none
  | log :: rest =>
    match recipes_for_version cmp recipes log.version with
    | [] => phaseAScan cmp recipes current_version rest
    | f :: fs =>
      match log.checksum with
      | none => .error ()
      | some c =>
        match (f :: fs).find?
            (fun fix => match_fix_recipe cmp log.version c fix current_version) with
        | some fix => .ok (some (log, fix))
        | none => phaseAScan cmp recipes current_version rest

def mkApplyLog (next_id : Int) (r : RecipeScript) (apply_by : Option String) : Changelog :=
  ⟨next_id, r.version, some r.name, r.kind.toStr, some r.checksum, apply_by,
    none, none, none⟩

/-- Phase A of make_plan (migrator.rs lines 311 to 378): when fixes are
allowed and the newest-to-oldest walk finds a matching Revert or Fixup,
emit exactly one plan unit (a revert marker row with null checksum, plus
an apply row at the fixup's new target) and fold the synthetic rows into
the updated logs; then stop. -/
def phaseA (cmp : String → String → Ordering) (st : Migrator) : Except Unit Migrator :=
  if st.config.allow_fixes then
    match st.updated_logs.getLast? with
    | none => .ok st
    | some newest =>
      match phaseAScan cmp st.recipes newest.version st.updated_logs.reverse with
      | .error () => .error ()
      | .ok none => .ok st
      | .ok (some (log, fix)) =>
        let revert_log : Changelog :=
          ⟨st.next_log_id, log.version, some fix.name, fix.kind.toStr, none,
            st.config.apply_by, none, none, none⟩
        match fix.new_target with
        | some (nv, nn, nc) =>
          let apply_log : Changelog :=
            ⟨st.next_log_id + 1, nv, some nn, fix.kind.toStr, some nc,
              st.config.apply_by, none, none, none⟩
          .ok { st with
            next_log_id := st.next_log_id + 2,
            plans := st.plans ++ [⟨fix, some log.log_id, some revert_log, some apply_log⟩],
            updated_logs := [revert_log, apply_log].foldl (updateAggLog cmp)
              st.updated_logs }
        | none =>
          .ok { st with
            next_log_id := st.next_log_id + 1,
            plans := st.plans ++ [⟨fix, some log.log_id, some revert_log, none⟩],
            updated_logs := [revert_log].foldl (updateAggLog cmp) st.updated_logs }
  else .ok st

/-- Phase B of make_plan (lines 380 to 407): with a nonempty updated log,
record the baseline version and report the newest version as last_version;
otherwise plan the baseline recipe. -/
def phaseB (cmp : String → String → Ordering) (st : Migrator) :
    Except MigratorError (Migrator × String) :=
  if st.updated_logs.length > 0 then
    .ok ({ st with baseline_version := some (st.updated_logs.headD default).version },
      ((st.updated_logs.getLast?).getD default).version)
  else
    match baseline_recipe cmp st.config st.recipes with
    | .error e => .error e
    | .ok br =>
      let apply_log := mkApplyLog st.next_log_id br st.config.apply_by
      .ok ({ st with
        baseline_version := some br.version,
        next_log_id := st.next_log_id + 1,
        updated_logs := updateAggLog cmp st.updated_logs apply_log,
        plans := st.plans ++ [⟨br, none, none, some apply_log⟩] }, br.version)

/-- The recipe range of Phase C (lines 408 to 425): skip recipes at or
below last_version, stop above the target version when set, keep the
Upgrades. -/
def phaseCRecipes (cmp : String → String → Ordering) (recipes : List RecipeScript)
    (last_version : String) (target_version : Option String) : List RecipeScript :=
  ((recipes.dropWhile (fun r =>
      match cmp r.version last_version with
      | .lt => true
      | .eq => true
      | .gt => false)).takeWhile (fun r =>
        match target_version with
        | some tv =>
          (match cmp r.version tv with
           | .lt => true
           | .eq => true
           | .gt => false)
        | none => true)).filter (fun r => r.is_upgrade)

def phaseCGo (cmp : String → String → Ordering) :
    List RecipeScript → Migrator → Migrator
  | [], st => st
  | r :: rest, st =>
    let apply_log := mkApplyLog st.next_log_id r st.config.apply_by
    phaseCGo cmp rest { st with
      next_log_id := st.next_log_id + 1,
      updated_logs := updateAggLog cmp st.updated_logs apply_log,
      plans := st.plans ++ [⟨r, none, none, some apply_log⟩] }

def phaseC (cmp : String → String → Ordering) (st : Migrator) (last_version : String) :
    Migrator :=
  phaseCGo cmp (phaseCRecipes cmp st.recipes last_version st.config.target_version) st

/-- A planning failure: either the checksum unwrap panic of Phase A or a
MigratorError from baseline selection. -/
inductive PlanError
  | panicChecksum
  | mig (e : MigratorError)
  deriving Repr, DecidableEq

/-- Migrator::make_plan. -/
def make_plan (cmp : String → String → Ordering) (st : Migrator) :
    Except PlanError Migrator :=
  match phaseA cmp st with
  | .error () => .error .panicChecksum
  | .ok st1 =>
    match phaseB cmp st1 with
    | .error e => .error (.mig e)
    | .ok (st2, last_version) => .ok (phaseC cmp st2 last_version)

/-- State rebuild of read_changelog after the adapter calls: store the ids,
the raw rows (ordered by log_id by the adapter query), the consolidated
view, reset the updated view to it and clear the plans. -/
def readChangelogCont (cmp : String → String → Ordering) (st : Migrator) (lid : Int)
    (rows : List Changelog) : Migrator :=
  { st with
    last_log_id := lid,
    next_log_id := lid + 1,
    raw_logs := rows,
    consolidated_logs := consolidate cmp rows,
    updated_logs := consolidate cmp rows,
    plans := [] }

/-- Migrator::read_changelog (lines 217 to 250): query the last log id
(recovering from a missing table when auto_initialize is set, with id 0),
fetch the rows and consolidate. The driver get_changelog creates the table
if missing, so a missing table reads as no rows. -/
def read_changelog (cmp : String → String → Ordering) (st : Migrator)
    (db : Option (List Changelog)) : Except MigratorError Migrator :=
  match last_log_id db with
  | .error .NoLogTable =>
    if st.config.auto_initialize then
      .ok (readChangelogCont cmp st 0 (db.getD []))
    else .error .NoLogTable
  | .error e => .error e
  | .ok lid => .ok (readChangelogCont cmp st lid (db.getD []))

/-- Target check of check_updated_log (lines 450 to 470). -/
def checkTarget (cmp : String → String → Ordering) (recipes : List RecipeScript) :
    Option String → Except MigratorError Unit
  | none => .ok ()
  | some tv =>
    match binarySearchBy (fun a => recipeSorter cmp a tv RecipeKind.Baseline)
        recipes default with
    | .ok _ => .ok ()
    | .error _ =>
      match binarySearchBy (fun a => recipeSorter cmp a tv RecipeKind.Upgrade)
          recipes default with
      | .ok _ => .ok ()
      | .error index =>
        .error (.UnknownTarget tv
          (if 1 ≤ index then some ((recipes.getD (index - 1) default).version) else none))

/-- Second check of check_updated_log (lines 473 to 490): every updated log
entry past index 0 must match an Upgrade recipe with identical checksum. -/
def checkLogsKnown (cmp : String → String → Ordering) (recipes : List RecipeScript) :
    List Changelog → Nat → Except MigratorError Unit
  | [], _ => .ok ()
  | log :: rest, index =>
    if index > 0 then
      match binarySearchBy (fun a => recipeSorter cmp a log.version RecipeKind.Upgrade)
          recipes default with
      | .ok i =>
        if log.checksum.getD "" = (recipes.getD i default).checksum then
          checkLogsKnown cmp recipes rest (index + 1)
        else .error (.ConflictedMigration log (recipes.getD i default))
      | .error _ => .error (.UnknownMigration log)
    else checkLogsKnown cmp recipes rest (index + 1)

/-- Third check of check_updated_log (lines 493 to 532): every Upgrade in
the (baseline, target] range must be applied with identical checksum. -/
def checkUpgradesApplied (cmp : String → String → Ordering)
    (updated_logs : List Changelog) : List RecipeScript → Except MigratorError Unit
  | [] => .ok ()
  | script :: rest =>
    match findAggLog cmp updated_logs script.version with
    | some log =>
      if log.checksum.getD "" = script.checksum then
        checkUpgradesApplied cmp updated_logs rest
      else .error (.ConflictedMigration log script)
    | none => .error (.MissingMigration script)

/-- Migrator::check_updated_log. -/
def check_updated_log (cmp : String → String → Ordering) (st : Migrator) :
    Except MigratorError Unit :=
  match checkTarget cmp st.recipes st.config.target_version with
  | .error e => .error e
  | .ok () =>
    match checkLogsKnown cmp st.recipes st.updated_logs 0 with
    | .error e => .error e
    | .ok () =>
      match st.baseline_version with
      | some bv =>
        checkUpgradesApplied cmp st.updated_logs
          (phaseCRecipes cmp st.recipes bv st.config.target_version)
      | none => .ok ()

/-! ## Applying plans to the changelog (AsyncClient::apply_plan, changelog
effect only; the executed SQL acts on the schema, outside this model) -/

def setRevertTs (ts : Option Int) (target : Option Int) (c : Changelog) : Changelog :=
  match target with
  | some id => if c.log_id = id then { c with revert_ts := ts } else c
  | none => c

def setInsertTs (ts : Option Int) (c : Changelog) : Changelog :=
  { c with start_ts := ts, finish_ts := ts }

/-- The changelog effect of one apply_plan call: stamp revert_ts on the
reverted row and append the revert marker and apply row with the captured
clock value (a single opaque clock value stands for both timestamps). -/
def applyPlanRows (ts : Option Int) (rows : List Changelog) (plan : MigrationPlan) :
    List Changelog :=
  (rows.map (setRevertTs ts plan.log_id_to_revert)) ++
    ((plan.revert_log.toList ++ plan.apply_log.toList).map (setInsertTs ts))

def applyPlansRows (ts : Option Int) (rows : List Changelog) :
    List MigrationPlan → List Changelog
  | [] => rows
  | p :: ps => applyPlansRows ts (applyPlanRows ts rows p) ps

/-- The synthetic changelog rows of a plan list, in emission order. -/
def rowsOfPlans (plans : List MigrationPlan) : List Changelog :=
  plans.flatMap (fun p => p.revert_log.toList ++ p.apply_log.toList)

/-! ### Claim C9: consolidated checksums are present, Phase A cannot panic -/

theorem phaseAScan_no_panic (cmp : String → String → Ordering)
    (recipes : List RecipeScript) (cur : String) :
    ∀ logs : List Changelog, (∀ c ∈ logs, c.checksum.isSome = true) →
      ¬ phaseAScan cmp recipes cur logs = .error () := by
  intro logs
  induction logs with
  | nil =>
    intro _ h
    cases h
  | cons log rest ih =>
    intro h hc
    have hlog : log.checksum.isSome = true := h log (List.mem_cons_self _ _)
    have hrest : ∀ c ∈ rest, c.checksum.isSome = true :=
      fun c hcc => h c (List.mem_cons_of_mem _ hcc)
    unfold phaseAScan at hc
    rcases hrv : recipes_for_version cmp recipes log.version with _ | ⟨f, fs⟩ <;>
      rw [hrv] at hc <;> dsimp only at hc
    · exact ih hrest hc
    · rcases hchk : log.checksum with _ | c <;> rw [hchk] at hc <;> dsimp only at hc
      · rw [hchk] at hlog
        cases hlog
      · rcases hf : (f :: fs).find?
            (fun fix => match_fix_recipe cmp log.version c fix cur) with _ | fix <;>
          rw [hf] at hc
        · exact ih hrest hc
        · cases hc

/-- C9: every entry of the consolidated (and hence initial updated) log
carries a non-null checksum — update_agg_log only inserts or keeps
checksummed entries and null-checksum markers only remove — so the
checksum unwrap inside Phase A of make_plan cannot panic, for any raw
changelog and any comparator. -/
theorem claim9_checksum_invariant_no_panic (cmp : String → String → Ordering)
    (raw : List Changelog) (st : Migrator) (h : st.updated_logs = consolidate cmp raw) :
    (∀ c ∈ consolidate cmp raw, c.checksum.isSome = true) ∧
    ¬ phaseA cmp st = .error () := by
  have hall := consolidate_all_isSome cmp raw
  refine ⟨hall, ?_⟩
  intro hc
  unfold phaseA at hc
  by_cases hfx : st.config.allow_fixes = true
  · rw [if_pos hfx] at hc
    rcases hlast : st.updated_logs.getLast? with _ | newest <;> rw [hlast] at hc <;>
      dsimp only at hc
    · cases hc
    · rcases hscan : phaseAScan cmp st.recipes newest.version
          st.updated_logs.reverse with u | r
      · cases u
        exact phaseAScan_no_panic cmp st.recipes newest.version _
          (fun c hcc => hall c (by rw [← h]; exact List.mem_reverse.mp hcc)) hscan
      · rw [hscan] at hc
        try dsimp only at hc
        rcases r with _ | ⟨log, fix⟩
        · cases hc
        · try dsimp only at hc
          rcases hnt : fix.new_target with _ | ⟨nv, nn, nc⟩ <;> rw [hnt] at hc <;>
            (try dsimp only at hc) <;> cases hc
  · rw [if_neg hfx] at hc
    cases hc

def cx9raw : List Changelog :=
  [⟨1, "1.0.0", some "init", "baseline",
    some "49e7ddd58bd0cd6e2d022ee89070c7f2672309ddbd10c0ba40c15360d590bb06",
    none, none, none, none⟩]

def cx9st : Migrator :=
  ⟨⟨true, none, none, none, none, true, false⟩, [], 1, 2, cx9raw,
    consolidate (keyCmp strKey) cx9raw, consolidate (keyCmp strKey) cx9raw, none, []⟩

theorem claim9_checksum_invariant_no_panic_witness :
    ¬ phaseA (keyCmp strKey) cx9st = .error () :=
  (claim9_checksum_invariant_no_panic (keyCmp strKey) cx9raw cx9st rfl).2

/-! ### Claim C2: Phase A selection (counterexample to the prefix rule) -/

def cx2Log : Changelog :=
  ⟨1, "1.0.1", some "add_y", "upgrade",
    some "aaaaaaaabbbbbbbbccccccccddddddddaaaaaaaabbbbbbbbccccccccdddddddd",
    none, none, none, none⟩

def cx2Revert : RecipeScript :=
  ⟨"1.0.1", "revert_add_y",
    "eeeeeeeeffffffffeeeeeeeeffffffffeeeeeeeeffffffffeeeeeeeeffffffff",
    "-- kind: revert", .Revert "aaaaaaaa" "1.0.1"⟩

def cx2St : Migrator :=
  ⟨⟨true, none, none, none, none, true, false⟩, [cx2Revert], 1, 2, [cx2Log],
    [cx2Log], [cx2Log], none, []⟩

/-- C2 counterexample: a Revert recipe whose old_checksum is an 8-character
prefix of the logged checksum (so the claim's prefix rule holds, the
version matches and the maximum_version condition is satisfied, with fixes
allowed) is NOT selected by Phase A — make_plan compares the full strings
for equality — so no plan unit is produced where the claim requires
exactly one. -/
theorem claim2_counterexample :
    (8 ≤ ("aaaaaaaa" : String).length ∧
      ("aaaaaaaa" : String).data.isPrefixOf (cx2Log.checksum.getD "").data = true ∧
      cx2Revert.old_checksum = some "aaaaaaaa" ∧
      keyCmp strKey cx2Log.version cx2Revert.version = .eq ∧
      cx2Revert.maximum_version = some "1.0.1" ∧
      keyCmp strKey cx2Log.version "1.0.1" = .eq ∧
      cx2St.config.allow_fixes = true) ∧
    phaseA (keyCmp strKey) cx2St = .ok cx2St ∧ cx2St.plans = [] := by
  decide

/-! ### Claim C3: Phase C plans exactly the upgrades in range -/

theorem dropWhile_eq_filter_not {α : Type} (p : α → Bool) (R : α → α → Prop) :
    ∀ l : List α, l.Pairwise R → (∀ a b, R a b → p b = true → p a = true) →
      l.dropWhile p = l.filter (fun a => ! p a) := by
  intro l
  induction l with
  | nil => intro _ _; rfl
  | cons x xs ih =>
    intro hp hclosed
    rcases List.pairwise_cons.mp hp with ⟨hx, hxs⟩
    rw [List.dropWhile_cons, List.filter_cons]
    by_cases hpx : p x = true
    · rw [if_pos hpx]
      have : (!p x) = false := by rw [hpx]; rfl
      rw [this]
      simp only [Bool.false_eq_true, if_false]
      exact ih hxs hclosed
    · rw [if_neg hpx]
      have hxne : (!p x) = true := by
        rcases hb : p x with _ | _
        · rfl
        · exact absurd hb hpx
      rw [hxne]
      simp only [if_true]
      have hall : ∀ b ∈ xs, (!p b) = true := by
        intro b hb
        rcases hpb : p b with _ | _
        · rfl
        · exact absurd (hclosed x b (hx b hb) hpb) hpx
      rw [List.filter_eq_self.mpr hall]

theorem takeWhile_eq_filter {α : Type} (p : α → Bool) (R : α → α → Prop) :
    ∀ l : List α, l.Pairwise R → (∀ a b, R a b → p b = true → p a = true) →
      l.takeWhile p = l.filter p := by
  intro l
  induction l with
  | nil => intro _ _; rfl
  | cons x xs ih =>
    intro hp hclosed
    rcases List.pairwise_cons.mp hp with ⟨hx, hxs⟩
    rw [List.takeWhile_cons, List.filter_cons]
    by_cases hpx : p x = true
    · rw [if_pos hpx, if_pos hpx]
      rw [ih hxs hclosed]
    · rw [if_neg hpx, if_neg hpx]
      have hall : xs.filter p = [] := by
        rw [List.filter_eq_nil_iff]
        intro b hb hpb
        exact hpx (hclosed x b (hx b hb) hpb)
      rw [hall]

/-- The Boolean form of a comparator test accepting Less and Equal. -/
theorem cmpLe_bool {K : Type} [LinearOrder K] (x y : K) :
    (match cmpOf x y with
     | .lt => true
     | .eq => true
     | .gt => false) = decide (x ≤ y) := by
  rcases lt_trichotomy x y with h | h | h
  · rw [(cmpOf_lt_iff x y).mpr h]
    simp [le_of_lt h]
  · subst h
    rw [cmpOf_self]
    simp
  · rw [(cmpOf_gt_iff x y).mpr h]
    simp [not_le.mpr h]

/-- The upgrade recipes Phase C emits: strictly above last_version and not
above the target version when one is set. -/
def upgradeInRange {K : Type} [LinearOrder K] (k : String → K) (tv : Option String)
    (lastV : String) (r : RecipeScript) : Bool :=
  r.is_upgrade && decide (k lastV < k r.version) &&
    (match tv with
     | some t => decide (k r.version ≤ k t)
     | none => true)

theorem phaseCRecipes_filter_key {K : Type} [LinearOrder K] (k : String → K)
    (recipes : List RecipeScript) (lastV : String)
    (hsorted : recipes.Pairwise (fun a b => sortLe (keyCmp k) a b = true))
    (q : RecipeScript → Bool)
    (hq : ∀ a b, sortLe (keyCmp k) a b = true → q b = true → q a = true) :
    ((recipes.dropWhile (fun r => decide (k r.version ≤ k lastV))).takeWhile q).filter
        (fun r => r.is_upgrade) =
      recipes.filter (fun r => r.is_upgrade && decide (k lastV < k r.version) && q r) := by
  have hdrop := dropWhile_eq_filter_not (fun r : RecipeScript => decide (k r.version ≤ k lastV))
    (fun a b => sortLe (keyCmp k) a b = true) recipes hsorted ?hclose1
  case hclose1 =>
    intro a b hab hpb
    simp only [decide_eq_true_eq] at hpb ⊢
    exact le_trans (sortLe_version_le k hab) hpb
  rw [hdrop]
  have hsorted2 : (recipes.filter
      (fun a => !decide (k a.version ≤ k lastV))).Pairwise
      (fun a b => sortLe (keyCmp k) a b = true) :=
    List.Pairwise.sublist (List.filter_sublist _) hsorted
  rw [takeWhile_eq_filter q (fun a b => sortLe (keyCmp k) a b = true) _ hsorted2 hq]
  rw [List.filter_filter, List.filter_filter]
  apply List.filter_congr
  intro r _
  have hlt : decide (k lastV < k r.version) = !decide (k r.version ≤ k lastV) := by
    rcases le_or_lt (k r.version) (k lastV) with h | h
    · simp [h, not_lt.mpr h]
    · simp [h, not_le.mpr h]
  rw [hlt]
  rcases decide (k r.version ≤ k lastV) with _ | _ <;>
    rcases q r with _ | _ <;>
      rcases r.is_upgrade with _ | _ <;> rfl

theorem phaseCRecipes_eq_filter {K : Type} [LinearOrder K] (k : String → K)
    (recipes : List RecipeScript) (lastV : String) (tv : Option String)
    (hsorted : recipes.Pairwise (fun a b => sortLe (keyCmp k) a b = true)) :
    phaseCRecipes (keyCmp k) recipes lastV tv =
      recipes.filter (upgradeInRange k tv lastV) := by
  unfold phaseCRecipes
  have hfp : (fun r : RecipeScript =>
      match keyCmp k r.version lastV with
      | .lt => true
      | .eq => true
      | .gt => false) = (fun r : RecipeScript => decide (k r.version ≤ k lastV)) := by
    funext r
    exact cmpLe_bool (k r.version) (k lastV)
  rw [hfp]
  rcases tv with _ | t
  · have hred : (fun r : RecipeScript =>
        match (none : Option String) with
        | some tv =>
          (match keyCmp k r.version tv with
           | .lt => true
           | .eq => true
           | .gt => false)
        | none => true) = (fun _ : RecipeScript => true) := rfl
    rw [hred,
      phaseCRecipes_filter_key k recipes lastV hsorted (fun _ => true) (fun _ _ _ h => h)]
    apply List.filter_congr
    intro r _
    unfold upgradeInRange
    rcases r.is_upgrade with _ | _ <;>
      rcases decide (k lastV < k r.version) with _ | _ <;> rfl
  · have hred : (fun r : RecipeScript =>
        match (some t : Option String) with
        | some tv =>
          (match keyCmp k r.version tv with
           | .lt => true
           | .eq => true
           | .gt => false)
        | none => true) = (fun r : RecipeScript => decide (k r.version ≤ k t)) := by
      funext r
      exact cmpLe_bool (k r.version) (k t)
    rw [hred,
      phaseCRecipes_filter_key k recipes lastV hsorted
        (fun r => decide (k r.version ≤ k t)) ?hq]
    case hq =>
      intro a b hab hpb
      simp only [decide_eq_true_eq] at hpb ⊢
      exact le_trans (sortLe_version_le k hab) hpb
    apply List.filter_congr
    intro r _
    unfold upgradeInRange
    dsimp only

/-- The list of plan units Phase C creates for a recipe slice: one unit per
recipe, each with no revert part and an apply row at consecutive log ids. -/
def planUnitsGo (apply_by : Option String) : List RecipeScript → Int → List MigrationPlan
  | [], _ => []
  | r :: rest, next =>
    ⟨r, none, none, some (mkApplyLog next r apply_by)⟩ :: planUnitsGo apply_by rest (next + 1)

theorem phaseCGo_spec (cmp : String → String → Ordering) :
    ∀ (rs : List RecipeScript) (st : Migrator),
      (phaseCGo cmp rs st).plans =
        st.plans ++ planUnitsGo st.config.apply_by rs st.next_log_id ∧
      (phaseCGo cmp rs st).updated_logs =
        (rowsOfPlans (planUnitsGo st.config.apply_by rs st.next_log_id)).foldl
          (updateAggLog cmp) st.updated_logs ∧
      (phaseCGo cmp rs st).next_log_id = st.next_log_id + rs.length := by
  intro rs
  induction rs with
  | nil =>
    intro st
    refine ⟨?_, ?_, ?_⟩
    · simp [phaseCGo, planUnitsGo]
    · simp [phaseCGo, planUnitsGo, rowsOfPlans]
    · simp [phaseCGo]
  | cons r rest ih =>
    intro st
    have hstep : phaseCGo cmp (r :: rest) st = phaseCGo cmp rest { st with
      next_log_id := st.next_log_id + 1,
      updated_logs := updateAggLog cmp st.updated_logs
        (mkApplyLog st.next_log_id r st.config.apply_by),
      plans := st.plans ++
        [⟨r, none, none, some (mkApplyLog st.next_log_id r st.config.apply_by)⟩] } := rfl
    have h := ih { st with
      next_log_id := st.next_log_id + 1,
      updated_logs := updateAggLog cmp st.updated_logs
        (mkApplyLog st.next_log_id r st.config.apply_by),
      plans := st.plans ++
        [⟨r, none, none, some (mkApplyLog st.next_log_id r st.config.apply_by)⟩] }
    refine ⟨?_, ?_, ?_⟩
    · rw [hstep, h.1]
      simp [planUnitsGo, List.append_assoc]
    · rw [hstep, h.2.1]
      simp [planUnitsGo, rowsOfPlans]
    · rw [hstep, h.2.2]
      simp only [List.length_cons]
      push_cast
      ring

/-- C3: after baseline handling establishes last_version, Phase C of
make_plan emits, in sorted order, exactly one plan unit for every Upgrade
recipe strictly above last_version and (when config.target_version is set)
not above the target, at consecutive log ids starting from next_log_id,
and projects exactly those units' apply rows into updated_logs. -/
theorem claim3_phaseC_upgrade_range {K : Type} [LinearOrder K] (k : String → K)
    (st : Migrator) (lastV : String)
    (hsorted : st.recipes.Pairwise (fun a b => sortLe (keyCmp k) a b = true)) :
    (phaseC (keyCmp k) st lastV).plans =
      st.plans ++ planUnitsGo st.config.apply_by
        (st.recipes.filter (upgradeInRange k st.config.target_version lastV))
        st.next_log_id ∧
    (phaseC (keyCmp k) st lastV).updated_logs =
      (rowsOfPlans (planUnitsGo st.config.apply_by
        (st.recipes.filter (upgradeInRange k st.config.target_version lastV))
        st.next_log_id)).foldl (updateAggLog (keyCmp k)) st.updated_logs := by
  unfold phaseC
  rw [phaseCRecipes_eq_filter k st.recipes lastV st.config.target_version hsorted]
  exact ⟨(phaseCGo_spec (keyCmp k) _ st).1, (phaseCGo_spec (keyCmp k) _ st).2.1⟩

def cx3B : RecipeScript :=
  ⟨"1.0.0", "init", "aaaabbbbccccddddaaaabbbbccccddddaaaabbbbccccddddaaaabbbbccccdddd",
    "CREATE TABLE t(x int);", .Baseline⟩

def cx3U1 : RecipeScript :=
  ⟨"1.0.1", "add_y", "11112222333344441111222233334444111122223333444411112222333344445",
    "ALTER TABLE t ADD y int;", .Upgrade⟩

def cx3U2 : RecipeScript :=
  ⟨"1.0.2", "add_z", "5555666677778888555566667777888855556666777788885555666677778888",
    "ALTER TABLE t ADD z int;", .Upgrade⟩

def cx3Log : Changelog :=
  ⟨1, "1.0.0", some "init",
    "baseline", some "aaaabbbbccccddddaaaabbbbccccddddaaaabbbbccccddddaaaabbbbccccdddd",
    none, none, none, none⟩

def cx3St : Migrator :=
  ⟨⟨true, "changelog", none, some "1.0.1", none, false, false⟩,
    [cx3B, cx3U1, cx3U2], 1, 2, [cx3Log], [cx3Log], [cx3Log], some "1.0.0", []⟩

theorem claim3_phaseC_upgrade_range_witness :
    cx3St.recipes.Pairwise (fun a b => sortLe (keyCmp strKey) a b = true) ∧
    (phaseC (keyCmp strKey) cx3St "1.0.0").plans =
      [⟨cx3U1, none, none, some (mkApplyLog 2 cx3U1 none)⟩] ∧
    (phaseC (keyCmp strKey) cx3St "1.0.0").updated_logs =
      [cx3Log, mkApplyLog 2 cx3U1 none] := by
  have h := claim3_phaseC_upgrade_range strKey cx3St "1.0.0" (by decide)
  exact ⟨by decide, h.1.trans (by decide), h.2.trans (by decide)⟩

/-! ### Claim C7: target-version validation in check_updated_log -/

theorem then_eq_eq (c1 c2 : Ordering) : (c1.then c2) = .eq ↔ (c1 = .eq ∧ c2 = .eq) := by
  cases c1 <;> cases c2 <;> simp [Ordering.then]

theorem then_eq_lt (c1 c2 : Ordering) :
    (c1.then c2) = .lt ↔ (c1 = .lt ∨ (c1 = .eq ∧ c2 = .lt)) := by
  cases c1 <;> cases c2 <;> simp [Ordering.then]

theorem ordRank_le_two (c : Ordering) : ordRank c ≤ 2 := by
  cases c <;> simp [ordRank]

theorem then_rank_mono {K : Type} [LinearOrder K] {L : Type} [LinearOrder L]
    (x1 x2 t : K) (y1 y2 s : L)
    (h : x1 < x2 ∨ (x1 = x2 ∧ y1 ≤ y2)) :
    ordRank ((cmpOf x1 t).then (cmpOf y1 s)) ≤ ordRank ((cmpOf x2 t).then (cmpOf y2 s)) := by
  rcases h with h | ⟨heq, hy⟩
  · rcases lt_trichotomy x1 t with h1 | h1 | h1
    · rw [(cmpOf_lt_iff x1 t).mpr h1]
      show ordRank .lt ≤ _
      simp [ordRank]
    · subst h1
      rw [(cmpOf_gt_iff x2 x1).mpr h, cmpOf_self]
      show ordRank (cmpOf y1 s) ≤ ordRank .gt
      calc ordRank (cmpOf y1 s) ≤ 2 := ordRank_le_two _
      _ = ordRank .gt := rfl
    · rw [(cmpOf_gt_iff x1 t).mpr h1, (cmpOf_gt_iff x2 t).mpr (lt_trans h1 h)]
      exact le_refl _
  · subst heq
    rcases lt_trichotomy x1 t with h1 | h1 | h1
    · rw [(cmpOf_lt_iff x1 t).mpr h1]
      exact le_refl _
    · subst h1
      rw [cmpOf_self]
      show ordRank (cmpOf y1 s) ≤ ordRank (cmpOf y2 s)
      exact ordRank_cmpOf_mono hy
    · rw [(cmpOf_gt_iff x1 t).mpr h1]
      exact le_refl _

theorem RecipeKind.toNat_inj : ∀ {a b : RecipeKind}, a.toNat = b.toNat → a = b := by
  intro a b
  cases a <;> cases b <;> simp [RecipeKind.toNat]

theorem recipeSorter_eq_iff {K : Type} [LinearOrder K] (k : String → K)
    (a : RecipeScript) (v : String) (kind : RecipeKind) :
    recipeSorter (keyCmp k) a v kind = .eq ↔ (k a.version = k v ∧ a.kind = kind) := by
  show ((cmpOf (k a.version) (k v)).then (cmpOf a.kind.toNat kind.toNat)) = .eq ↔ _
  rw [then_eq_eq, cmpOf_eq_iff, cmpOf_eq_iff]
  constructor
  · rintro ⟨h1, h2⟩
    exact ⟨h1, RecipeKind.toNat_inj h2⟩
  · rintro ⟨h1, rfl⟩
    exact ⟨h1, rfl⟩

theorem recipeSorter_lt_iff {K : Type} [LinearOrder K] (k : String → K)
    (a : RecipeScript) (v : String) (kind : RecipeKind) :
    recipeSorter (keyCmp k) a v kind = .lt ↔
      (k a.version < k v ∨ (k a.version = k v ∧ a.kind.toNat < kind.toNat)) := by
  show ((cmpOf (k a.version) (k v)).then (cmpOf a.kind.toNat kind.toNat)) = .lt ↔ _
  rw [then_eq_lt, cmpOf_lt_iff, cmpOf_eq_iff, cmpOf_lt_iff]

theorem recipeSorter_rank_mono {K : Type} [LinearOrder K] (k : String → K)
    (recipes : List RecipeScript) (v : String) (kind : RecipeKind)
    (hsorted : recipes.Pairwise (fun a b => sortLe (keyCmp k) a b = true)) :
    recipes.Pairwise (fun a b =>
      ordRank (recipeSorter (keyCmp k) a v kind) ≤
        ordRank (recipeSorter (keyCmp k) b v kind)) := by
  refine hsorted.imp ?_
  intro a b hab
  have hs := (sortLe_iff k a b).mp hab
  show ordRank ((cmpOf (k a.version) (k v)).then (cmpOf a.kind.toNat kind.toNat)) ≤
    ordRank ((cmpOf (k b.version) (k v)).then (cmpOf b.kind.toNat kind.toNat))
  exact then_rank_mono (k a.version) (k b.version) (k v) a.kind.toNat b.kind.toNat
    kind.toNat hs

theorem filter_lt_eq_take_of_partition {α : Type} {f : α → Ordering} {l : List α} {d : α}
    {n m : Nat} (hp : OrdPartition f l d n m) :
    l.filter (fun a => decide (f a = .lt)) = l.take n := by
  conv_lhs => rw [← List.take_append_drop n l]
  rw [List.filter_append]
  have h1 : (l.take n).filter (fun a => decide (f a = .lt)) = l.take n :=
    List.filter_eq_self.mpr (fun a ha => by
      simp [mem_take_of_partition hp a ha])
  have h2 : (l.drop n).filter (fun a => decide (f a = .lt)) = [] := by
    rw [List.filter_eq_nil_iff]
    intro a ha
    rcases List.mem_iff_getElem.mp ha with ⟨j, hj, rfl⟩
    have hjl : n + j < l.length := by
      have := l.length_drop n
      omega
    have hget : (l.drop n)[j] = l.getD (n + j) d := by
      rw [List.getElem_drop]
      simp [List.getD_eq_getElem?_getD, List.getElem?_eq_getElem, hjl]
    rw [hget]
    simp only [decide_eq_true_eq]
    by_cases hcase : n + j < n + m
    · rw [hp.2.2.1 (n + j) (by omega) hcase]
      intro hx
      cases hx
    · rw [hp.2.2.2 (n + j) (by omega) hjl]
      intro hx
      cases hx
  rw [h1, h2, List.append_nil]

theorem getLast?_take_of_pos {α : Type} (l : List α) (d : α) (n : Nat)
    (h1 : 1 ≤ n) (h2 : n ≤ l.length) :
    (l.take n).getLast? = some (l.getD (n - 1) d) := by
  rw [List.getLast?_eq_getElem?]
  have hlen : (l.take n).length = n := by
    simp [List.length_take]
    omega
  rw [hlen]
  have hlt : n - 1 < l.length := by omega
  have hmain : (l.take n)[n - 1]? = l[n - 1]? := by
    rw [List.getElem?_take]
    simp only [if_pos (by omega : n - 1 < n)]
  rw [hmain, List.getElem?_eq_getElem hlt]
  rw [List.getD_eq_getElem?_getD, List.getElem?_eq_getElem hlt]
  rfl

theorem checkTarget_err {K : Type} [LinearOrder K] (k : String → K)
    (recipes : List RecipeScript) (tv : String)
    (hsorted : recipes.Pairwise (fun a b => sortLe (keyCmp k) a b = true))
    (hB : ∀ r ∈ recipes, ¬(k r.version = k tv ∧ r.kind = RecipeKind.Baseline))
    (hU : ∀ r ∈ recipes, ¬(k r.version = k tv ∧ r.kind = RecipeKind.Upgrade)) :
    checkTarget (keyCmp k) recipes (some tv) =
      .error (.UnknownTarget tv
        ((recipes.filter (fun r => decide (k r.version < k tv))).getLast?.map
          (fun r => r.version))) := by
  have hpB := ordPartition_of_mono
    (fun a => recipeSorter (keyCmp k) a tv RecipeKind.Baseline) recipes default
    (recipeSorter_rank_mono k recipes tv RecipeKind.Baseline hsorted)
  have hmB : recipes.countP
      (fun a => decide (recipeSorter (keyCmp k) a tv RecipeKind.Baseline = .eq)) = 0 := by
    rw [List.countP_eq_zero]
    intro a ha
    simp only [decide_eq_true_eq]
    rw [recipeSorter_eq_iff]
    exact hB a ha
  rw [hmB] at hpB
  have hbsB := binarySearchBy_err
    (fun a => recipeSorter (keyCmp k) a tv RecipeKind.Baseline) recipes default _ hpB
  have hpU := ordPartition_of_mono
    (fun a => recipeSorter (keyCmp k) a tv RecipeKind.Upgrade) recipes default
    (recipeSorter_rank_mono k recipes tv RecipeKind.Upgrade hsorted)
  have hmU : recipes.countP
      (fun a => decide (recipeSorter (keyCmp k) a tv RecipeKind.Upgrade = .eq)) = 0 := by
    rw [List.countP_eq_zero]
    intro a ha
    simp only [decide_eq_true_eq]
    rw [recipeSorter_eq_iff]
    exact hU a ha
  rw [hmU] at hpU
  have hbsU := binarySearchBy_err
    (fun a => recipeSorter (keyCmp k) a tv RecipeKind.Upgrade) recipes default _ hpU
  dsimp only at hpB hbsB hpU hbsU
  have hfilter : recipes.filter (fun r => decide (k r.version < k tv)) =
      recipes.filter
        (fun a => decide (recipeSorter (keyCmp k) a tv RecipeKind.Upgrade = .lt)) := by
    apply List.filter_congr
    intro r hr
    rw [decide_eq_decide]
    rw [recipeSorter_lt_iff]
    constructor
    · exact Or.inl
    · rintro (h | ⟨heq, hk⟩)
      · exact h
      · exfalso
        have hkind : r.kind = RecipeKind.Baseline := by
          rcases hc : r.kind with _ | _ | _ | _
          · rfl
          all_goals (rw [hc] at hk; simp [RecipeKind.toNat] at hk)
        exact hB r hr ⟨heq, hkind⟩
  have havail : (if 1 ≤ recipes.countP
        (fun a => decide (recipeSorter (keyCmp k) a tv RecipeKind.Upgrade = .lt)) then
          some ((recipes.getD (recipes.countP
            (fun a => decide (recipeSorter (keyCmp k) a tv RecipeKind.Upgrade = .lt)) - 1)
            default).version)
        else none) =
      (recipes.filter (fun r => decide (k r.version < k tv))).getLast?.map
        (fun r => r.version) := by
    rw [hfilter, filter_lt_eq_take_of_partition hpU]
    by_cases hn : 1 ≤ recipes.countP
        (fun a => decide (recipeSorter (keyCmp k) a tv RecipeKind.Upgrade = .lt))
    · rw [if_pos hn, getLast?_take_of_pos recipes default _ hn (by
        have := hpU.1
        omega)]
      rfl
    · rw [if_neg hn]
      have h0 : recipes.countP
          (fun a => decide (recipeSorter (keyCmp k) a tv RecipeKind.Upgrade = .lt)) = 0 := by
        omega
      rw [h0, List.take_zero]
      rfl
  unfold checkTarget
  dsimp only
  rw [hbsB, hbsU]
  dsimp only
  rw [havail]

theorem checkTarget_ok {K : Type} [LinearOrder K] (k : String → K)
    (recipes : List RecipeScript) (tv : String)
    (hsorted : recipes.Pairwise (fun a b => sortLe (keyCmp k) a b = true))
    (hex : ∃ r ∈ recipes, k r.version = k tv ∧
      (r.kind = RecipeKind.Baseline ∨ r.kind = RecipeKind.Upgrade)) :
    checkTarget (keyCmp k) recipes (some tv) = .ok () := by
  rcases hex with ⟨r, hr, hv, hkind | hkind⟩
  · have hpB := ordPartition_of_mono
      (fun a => recipeSorter (keyCmp k) a tv RecipeKind.Baseline) recipes default
      (recipeSorter_rank_mono k recipes tv RecipeKind.Baseline hsorted)
    have hm : 0 < recipes.countP
        (fun a => decide ((fun a => recipeSorter (keyCmp k) a tv RecipeKind.Baseline) a
          = Ordering.eq)) := by
      rw [List.countP_pos_iff]
      refine ⟨r, hr, ?_⟩
      simp only [decide_eq_true_eq]
      exact (recipeSorter_eq_iff k r tv RecipeKind.Baseline).mpr ⟨hv, hkind⟩
    obtain ⟨i, _, _, hok⟩ := binarySearchBy_ok
      (fun a => recipeSorter (keyCmp k) a tv RecipeKind.Baseline) recipes default _ _ hpB hm
    unfold checkTarget
    dsimp only
    rw [hok]
  · have hpU := ordPartition_of_mono
      (fun a => recipeSorter (keyCmp k) a tv RecipeKind.Upgrade) recipes default
      (recipeSorter_rank_mono k recipes tv RecipeKind.Upgrade hsorted)
    have hm : 0 < recipes.countP
        (fun a => decide ((fun a => recipeSorter (keyCmp k) a tv RecipeKind.Upgrade) a
          = Ordering.eq)) := by
      rw [List.countP_pos_iff]
      refine ⟨r, hr, ?_⟩
      simp only [decide_eq_true_eq]
      exact (recipeSorter_eq_iff k r tv RecipeKind.Upgrade).mpr ⟨hv, hkind⟩
    obtain ⟨i, _, _, hokU⟩ := binarySearchBy_ok
      (fun a => recipeSorter (keyCmp k) a tv RecipeKind.Upgrade) recipes default _ _ hpU hm
    unfold checkTarget
    dsimp only
    rcases hbsB : binarySearchBy
        (fun a => recipeSorter (keyCmp k) a tv RecipeKind.Baseline) recipes default
      with n | n
    · dsimp only
      rw [hokU]
    · rfl

theorem checkLogsKnown_not_unknown_target (cmp : String → String → Ordering)
    (recipes : List RecipeScript) :
    ∀ (logs : List Changelog) (idx : Nat) (e : MigratorError),
      checkLogsKnown cmp recipes logs idx = .error e →
      ∀ v a, e ≠ .UnknownTarget v a := by
  intro logs
  induction logs with
  | nil =>
    intro idx e h v a
    simp [checkLogsKnown] at h
  | cons log rest ih =>
    intro idx e h v a
    unfold checkLogsKnown at h
    by_cases hidx : idx > 0
    · rw [if_pos hidx] at h
      rcases hbs : binarySearchBy
          (fun a0 => recipeSorter cmp a0 log.version RecipeKind.Upgrade) recipes default
        with i | i
      · rw [hbs] at h
        dsimp only at h
        injection h with h2
        subst h2
        exact fun hx => MigratorError.noConfusion hx
      · rw [hbs] at h
        dsimp only at h
        split_ifs at h with hc
        · exact ih (idx + 1) e h v a
        · injection h with h2
          subst h2
          exact fun hx => MigratorError.noConfusion hx
    · rw [if_neg hidx] at h
      exact ih (idx + 1) e h v a

theorem checkUpgradesApplied_not_unknown_target (cmp : String → String → Ordering)
    (updated_logs : List Changelog) :
    ∀ (scripts : List RecipeScript) (e : MigratorError),
      checkUpgradesApplied cmp updated_logs scripts = .error e →
      ∀ v a, e ≠ .UnknownTarget v a := by
  intro scripts
  induction scripts with
  | nil =>
    intro e h v a
    simp [checkUpgradesApplied] at h
  | cons script rest ih =>
    intro e h v a
    unfold checkUpgradesApplied at h
    rcases hfa : findAggLog cmp updated_logs script.version with _ | log
    · rw [hfa] at h
      dsimp only at h
      injection h with h2
      subst h2
      exact fun hx => MigratorError.noConfusion hx
    · rw [hfa] at h
      dsimp only at h
      split_ifs at h with hc
      · exact ih e h v a
      · injection h with h2
        subst h2
        exact fun hx => MigratorError.noConfusion hx

/-- C7: with a target version configured, check_updated_log fails with
UnknownTarget exactly when no Baseline and no Upgrade recipe sits at the
target version; the error then reports as available the version of the last
recipe strictly below the target (None when no recipe is below it), and
when a Baseline or Upgrade recipe exists at the target, no UnknownTarget
error can arise from any of the three verification passes. -/
theorem claim7_unknown_target {K : Type} [LinearOrder K] (k : String → K)
    (st : Migrator) (tv : String)
    (hsorted : st.recipes.Pairwise (fun a b => sortLe (keyCmp k) a b = true))
    (htv : st.config.target_version = some tv) :
    ((∀ r ∈ st.recipes, ¬(k r.version = k tv ∧
        (r.kind = RecipeKind.Baseline ∨ r.kind = RecipeKind.Upgrade))) →
      check_updated_log (keyCmp k) st =
        .error (.UnknownTarget tv
          ((st.recipes.filter (fun r => decide (k r.version < k tv))).getLast?.map
            (fun r => r.version)))) ∧
    ((∃ r ∈ st.recipes, k r.version = k tv ∧
        (r.kind = RecipeKind.Baseline ∨ r.kind = RecipeKind.Upgrade)) →
      ∀ v avail, check_updated_log (keyCmp k) st ≠ .error (.UnknownTarget v avail)) := by
  constructor
  · intro hnone
    have hB : ∀ r ∈ st.recipes, ¬(k r.version = k tv ∧ r.kind = RecipeKind.Baseline) := by
      rintro r hr ⟨h1, h2⟩
      exact hnone r hr ⟨h1, Or.inl h2⟩
    have hU : ∀ r ∈ st.recipes, ¬(k r.version = k tv ∧ r.kind = RecipeKind.Upgrade) := by
      rintro r hr ⟨h1, h2⟩
      exact hnone r hr ⟨h1, Or.inr h2⟩
    unfold check_updated_log
    rw [htv, checkTarget_err k st.recipes tv hsorted hB hU]
  · intro hex v avail hcontra
    unfold check_updated_log at hcontra
    rw [htv, checkTarget_ok k st.recipes tv hsorted hex] at hcontra
    dsimp only at hcontra
    rcases hlk : checkLogsKnown (keyCmp k) st.recipes st.updated_logs 0 with e | u
    · rw [hlk] at hcontra
      dsimp only at hcontra
      injection hcontra with h2
      exact checkLogsKnown_not_unknown_target (keyCmp k) st.recipes st.updated_logs 0 e
        hlk v avail h2
    · rw [hlk] at hcontra
      dsimp only at hcontra
      rcases hbv : st.baseline_version with _ | bv
      · rw [hbv] at hcontra
        exact Except.noConfusion hcontra
      · rw [hbv] at hcontra
        dsimp only at hcontra
        exact checkUpgradesApplied_not_unknown_target (keyCmp k) st.updated_logs
          (phaseCRecipes (keyCmp k) st.recipes bv (some tv))
          (.UnknownTarget v avail) hcontra v avail rfl

def cx7St : Migrator :=
  ⟨⟨true, "changelog", none, some "9", none, false, false⟩,
    [cx3B, cx3U1, cx3U2], 1, 2, [cx3Log], [cx3Log], [cx3Log], some "1.0.0", []⟩

theorem claim7_unknown_target_witness :
    cx7St.recipes.Pairwise (fun a b => sortLe (keyCmp strKey) a b = true) ∧
    cx7St.config.target_version = some "9" ∧
    check_updated_log (keyCmp strKey) cx7St =
      .error (.UnknownTarget "9" (some "1.0.2")) := by
  have h := claim7_unknown_target strKey cx7St "9" (by decide) (by decide)
  exact ⟨by decide, by decide, (h.1 (by decide)).trans (by decide)⟩

/-! ### Claim C2: Phase A fix selection (amended: exact checksum equality) -/

theorem find?_congr_mem {α : Type} (p q : α → Bool) :
    ∀ l : List α, (∀ x ∈ l, p x = q x) → l.find? p = l.find? q := by
  intro l
  induction l with
  | nil => intro _; rfl
  | cons x xs ih =>
    intro h
    by_cases hq : q x = true
    · rw [List.find?_cons_of_pos _ (by rw [h x (List.mem_cons_self x xs)]; exact hq),
        List.find?_cons_of_pos _ hq]
    · rw [List.find?_cons_of_neg _ (by rw [h x (List.mem_cons_self x xs)]; exact hq),
        List.find?_cons_of_neg _ hq]
      exact ih (fun y hy => h y (List.mem_cons_of_mem x hy))

theorem find?_append_left_none {α : Type} (p : α → Bool) :
    ∀ l1 l2 : List α, (∀ x ∈ l1, p x = false) → (l1 ++ l2).find? p = l2.find? p := by
  intro l1
  induction l1 with
  | nil => intro l2 _; rfl
  | cons x xs ih =>
    intro l2 h
    rw [List.cons_append, List.find?_cons_of_neg _ (by
      rw [h x (List.mem_cons_self x xs)]
      exact Bool.false_ne_true)]
    exact ih l2 (fun y hy => h y (List.mem_cons_of_mem x hy))

theorem find?_append_right_none {α : Type} (p : α → Bool) :
    ∀ l1 l2 : List α, (∀ x ∈ l2, p x = false) → (l1 ++ l2).find? p = l1.find? p := by
  intro l1
  induction l1 with
  | nil =>
    intro l2 h
    rw [List.nil_append, List.find?_nil, List.find?_eq_none]
    intro x hx
    rw [h x hx]
    exact Bool.false_ne_true
  | cons x xs ih =>
    intro l2 h
    by_cases hx : p x = true
    · rw [List.cons_append, List.find?_cons_of_pos _ hx, List.find?_cons_of_pos _ hx]
    · rw [List.cons_append, List.find?_cons_of_neg _ hx, List.find?_cons_of_neg _ hx]
      exact ih l2 h

theorem findIdx?_go_eq_some {α : Type} (q : α → Bool) (d : α) :
    ∀ (L : List α) (i j0 : Nat), j0 < L.length → q (L.getD j0 d) = true →
      (∀ j, j < j0 → q (L.getD j d) = false) → List.findIdx? q L i = some (i + j0) := by
  intro L
  induction L with
  | nil =>
    intro i j0 h
    simp at h
  | cons x xs ih =>
    intro i j0 hlen hq hprev
    rcases j0 with _ | j
    · rw [List.findIdx?_cons, if_pos (by exact hq), Nat.add_zero]
    · have hx : q x = false := hprev 0 (Nat.succ_pos j)
      rw [List.findIdx?_cons, if_neg (by rw [hx]; exact Bool.false_ne_true)]
      have := ih (i + 1) j (by simpa using hlen) (by exact hq)
        (fun j2 hj2 => hprev (j2 + 1) (by omega))
      rw [this]
      congr 1
      omega

theorem findIdx?_eq_some_first {α : Type} (q : α → Bool) (d : α)
    (L : List α) (j0 : Nat) (h1 : j0 < L.length) (h2 : q (L.getD j0 d) = true)
    (h3 : ∀ j, j < j0 → q (L.getD j d) = false) : L.findIdx? q = some j0 := by
  have := findIdx?_go_eq_some q d L 0 j0 h1 h2 h3
  simpa using this

theorem findIdx?_go_eq_none {α : Type} (q : α → Bool) :
    ∀ (L : List α) (i : Nat), (∀ x ∈ L, q x = false) → List.findIdx? q L i = none := by
  intro L
  induction L with
  | nil => intro i _; rfl
  | cons x xs ih =>
    intro i h
    rw [List.findIdx?_cons, if_neg (by
      rw [h x (List.mem_cons_self x xs)]
      exact Bool.false_ne_true)]
    exact ih (i + 1) (fun y hy => h y (List.mem_cons_of_mem x hy))

theorem findIdx?_eq_none_all {α : Type} (q : α → Bool) (L : List α)
    (h : ∀ x ∈ L, q x = false) : L.findIdx? q = none :=
  findIdx?_go_eq_none q L 0 h

theorem getD_drop {α : Type} (l : List α) (d : α) (i j : Nat) :
    (l.drop i).getD j d = l.getD (i + j) d := by
  rw [List.getD_eq_getElem?_getD, List.getD_eq_getElem?_getD, List.getElem?_drop]

theorem old_checksum_none_of_meta (r : RecipeScript)
    (h : r.meta = RecipeMeta.Baseline ∨ r.meta = RecipeMeta.Upgrade) :
    r.old_checksum = none := by
  unfold RecipeScript.old_checksum
  rcases h with h | h <;> rw [h]

theorem old_checksum_isSome_kind (r : RecipeScript)
    (h : r.old_checksum.isSome = true) : 2 ≤ r.kind.toNat := by
  rcases hm : r.meta with _ | _ | ⟨a, b⟩ | ⟨a, b, c, d, e⟩
  · rw [old_checksum_none_of_meta r (Or.inl hm)] at h
    exact Bool.noConfusion h
  · rw [old_checksum_none_of_meta r (Or.inr hm)] at h
    exact Bool.noConfusion h
  · have hk : r.kind = RecipeKind.Revert := by
      unfold RecipeScript.kind
      rw [hm]
    rw [hk]
    exact Nat.le_refl 2
  · have hk : r.kind = RecipeKind.Fixup := by
      unfold RecipeScript.kind
      rw [hm]
    rw [hk]
    exact Nat.le_succ_of_le (Nat.le_refl 2)

/-- The amended selection rule, written from the corrected spec wording: a
Revert or Fixup recipe matches a log entry when the versions are equal as
strings, the stored old checksum equals the log checksum exactly (full
string equality, not a prefix test), and the current version is at most the
recipe's maximum version under the version comparator. -/
def specFixMatch {K : Type} [LinearOrder K] (k : String → K) (log : Changelog)
    (fix : RecipeScript) (cur : String) : Bool :=
  match fix.old_checksum, fix.maximum_version with
  | some oc, some mv =>
    (log.version = fix.version) && (log.checksum = some oc) && decide (k cur ≤ k mv)
  | _, _ => false

theorem specFixMatch_prop {K : Type} [LinearOrder K] (k : String → K) (log : Changelog)
    (fix : RecipeScript) (cur : String) (h : specFixMatch k log fix cur = true) :
    fix.version = log.version ∧ 2 ≤ fix.kind.toNat := by
  unfold specFixMatch at h
  rcases hoc : fix.old_checksum with _ | oc <;>
    rcases hmv : fix.maximum_version with _ | mv <;> rw [hoc, hmv] at h
  · exact Bool.noConfusion h
  · exact Bool.noConfusion h
  · exact Bool.noConfusion h
  · simp only [Bool.and_eq_true, decide_eq_true_eq] at h
    refine ⟨h.1.1.symm, ?_⟩
    apply old_checksum_isSome_kind
    rw [hoc]
    rfl

theorem match_fix_recipe_eq_spec {K : Type} [LinearOrder K] (k : String → K)
    (log : Changelog) (c : String) (hc : log.checksum = some c)
    (fix : RecipeScript) (cur : String) :
    match_fix_recipe (keyCmp k) log.version c fix cur = specFixMatch k log fix cur := by
  unfold match_fix_recipe specFixMatch
  rcases hoc : fix.old_checksum with _ | oc <;>
    rcases hmv : fix.maximum_version with _ | mv
  · rfl
  · rfl
  · rfl
  · dsimp only
    have h1 : (match keyCmp k cur mv with
          | .lt => true
          | .eq => true
          | .gt => false) = decide (k cur ≤ k mv) := cmpLe_bool (k cur) (k mv)
    rw [h1, hc]
    have h2 : decide (c = oc) = decide (some c = some oc) := by
      rw [decide_eq_decide]
      exact Option.some_inj.symm
    rw [h2]

theorem countP_class_fix_le_one {K : Type} [LinearOrder K] (k : String → K)
    (recipes : List RecipeScript)
    (hpw : recipes.Pairwise (fun a b =>
      ¬(k a.version = k b.version ∧ 2 ≤ a.kind.toNat ∧ 2 ≤ b.kind.toNat)))
    (w : String) :
    recipes.countP
      (fun r => decide (k r.version = k w) && decide (2 ≤ r.kind.toNat)) ≤ 1 := by
  induction recipes with
  | nil => simp
  | cons x xs ih =>
    rcases List.pairwise_cons.mp hpw with ⟨hx, hxs⟩
    rw [List.countP_cons]
    by_cases hxp : (decide (k x.version = k w) && decide (2 ≤ x.kind.toNat)) = true
    · have hall : xs.countP
          (fun r => decide (k r.version = k w) && decide (2 ≤ r.kind.toNat)) = 0 := by
        rw [List.countP_eq_zero]
        intro y hy hpy
        simp only [Bool.and_eq_true, decide_eq_true_eq] at hxp hpy
        exact hx y hy ⟨hxp.1.trans hpy.1.symm, hxp.2, hpy.2⟩
      rw [hall, hxp]
      simp
    · have hxp0 : (decide (k x.version = k w) && decide (2 ≤ x.kind.toNat)) = false :=
        Bool.eq_false_iff.mpr hxp
      rw [hxp0]
      simpa using ih hxs

theorem getD_eq_getElem_of_lt {α : Type} (l : List α) (d : α) {i : Nat} (h : i < l.length) :
    l.getD i d = l[i] := by
  simp [List.getD_eq_getElem?_getD, List.getElem?_eq_getElem, h]

theorem recipes_for_version_find {K : Type} [LinearOrder K] (k : String → K)
    (recipes : List RecipeScript) (v : String) (p : RecipeScript → Bool)
    (hsorted : recipes.Pairwise (fun a b => sortLe (keyCmp k) a b = true))
    (hone : recipes.countP
      (fun r => decide (k r.version = k v) && decide (2 ≤ r.kind.toNat)) ≤ 1)
    (hp : ∀ r, p r = true → r.version = v ∧ 2 ≤ r.kind.toNat) :
    (recipes_for_version (keyCmp k) recipes v).find? p = recipes.find? p := by
  have hpeq : ∀ r, p r = true → keyCmp k r.version v = Ordering.eq := by
    intro r hr
    show cmpOf (k r.version) (k v) = Ordering.eq
    rw [cmpOf_eq_iff, (hp r hr).1]
  have hpart := ordPartition_of_mono (fun a => keyCmp k a.version v) recipes default ?hmono
  case hmono =>
    refine hsorted.imp ?_
    intro a b hab
    show ordRank (cmpOf (k a.version) (k v)) ≤ ordRank (cmpOf (k b.version) (k v))
    exact ordRank_cmpOf_mono (sortLe_version_le k hab)
  try dsimp only at hpart
  by_cases hm0 : recipes.countP (fun a => decide (keyCmp k a.version v = Ordering.eq)) = 0
  · rw [hm0] at hpart
    have hbs := binarySearchBy_err (fun a => keyCmp k a.version v) recipes default _ hpart
    unfold recipes_for_version
    rw [hbs]
    dsimp only
    rw [List.find?_nil]
    symm
    rw [List.find?_eq_none]
    intro x hx hpx
    have h0 := List.countP_eq_zero.mp hm0 x hx
    simp only [decide_eq_true_eq] at h0
    exact h0 (hpeq x hpx)
  · obtain ⟨i, hin, him, hbs⟩ := binarySearchBy_ok (fun a => keyCmp k a.version v)
      recipes default _ _ hpart (Nat.pos_of_ne_zero hm0)
    try dsimp only at hbs
    have hlenNM := hpart.1
    have hil : i < recipes.length := by omega
    have hTakeFail : ∀ x ∈ recipes.take i, p x = false := by
      intro x hx
      rcases hb : p x with _ | _
      · rfl
      exfalso
      rcases List.mem_iff_getElem.mp hx with ⟨j, hjlen, hget⟩
      have hjl : j < recipes.length := by
        have := recipes.length_take i
        omega
      have hji : j < i := by
        have := recipes.length_take i
        omega
      have hxj : x = recipes.getD j default := by
        rw [← hget, List.getElem_take, getD_eq_getElem_of_lt recipes default hjl]
      have hfx := hpeq x hb
      have hjn : recipes.countP
          (fun a => decide (keyCmp k a.version v = Ordering.lt)) ≤ j := by
        by_contra hlt
        have hj2 := hpart.2.1 j (by omega)
        rw [← hxj] at hj2
        exact Ordering.noConfusion (hj2.symm.trans hfx)
      have hfi := hpart.2.2.1 i hin him
      try dsimp only at hfi
      have hsij : sortLe (keyCmp k) x (recipes.getD i default) = true := by
        have hpg := List.pairwise_iff_getElem.mp hsorted j i hjl hil hji
        rw [hxj, getD_eq_getElem_of_lt recipes default hjl,
          getD_eq_getElem_of_lt recipes default hil]
        exact hpg
      have hx1 : k x.version = k v := by
        have := hfx
        rw [show keyCmp k x.version v = cmpOf (k x.version) (k v) from rfl,
          cmpOf_eq_iff] at this
        exact this
      have hi1 : k (recipes.getD i default).version = k v := by
        have := hfi
        rw [show keyCmp k (recipes.getD i default).version v =
          cmpOf (k (recipes.getD i default).version) (k v) from rfl, cmpOf_eq_iff] at this
        exact this
      have hxfix : 2 ≤ x.kind.toNat := (hp x hb).2
      have hkind : 2 ≤ (recipes.getD i default).kind.toNat := by
        rcases (sortLe_iff k x (recipes.getD i default)).mp hsij with hlt | ⟨_, hk⟩
        · exact absurd hlt (by rw [hx1, hi1]; exact lt_irrefl _)
        · omega
      have hq : ∀ y : RecipeScript, k y.version = k v → 2 ≤ y.kind.toNat →
          (fun r => decide (k r.version = k v) && decide (2 ≤ r.kind.toNat)) y = true := by
        intro y h1 h2
        simp [h1, h2]
      have hmem1 : x ∈ recipes.take (j + 1) := by
        apply List.getElem?_mem (n := j)
        rw [List.getElem?_take_of_lt (by omega : j < j + 1), hxj,
          getD_eq_getElem_of_lt recipes default hjl]
        exact List.getElem?_eq_getElem hjl
      have hmem2 : recipes.getD i default ∈ recipes.drop (j + 1) := by
        apply List.getElem?_mem (n := i - (j + 1))
        rw [List.getElem?_drop]
        have he : j + 1 + (i - (j + 1)) = i := by omega
        rw [he, getD_eq_getElem_of_lt recipes default hil]
        exact List.getElem?_eq_getElem hil
      have hcnt1 : 0 < (recipes.take (j + 1)).countP
          (fun r => decide (k r.version = k v) && decide (2 ≤ r.kind.toNat)) := by
        rw [List.countP_pos_iff]
        exact ⟨x, hmem1, hq x hx1 hxfix⟩
      have hcnt2 : 0 < (recipes.drop (j + 1)).countP
          (fun r => decide (k r.version = k v) && decide (2 ≤ r.kind.toNat)) := by
        rw [List.countP_pos_iff]
        exact ⟨recipes.getD i default, hmem2, hq _ hi1 hkind⟩
      have hsplit : recipes.countP
          (fun r => decide (k r.version = k v) && decide (2 ≤ r.kind.toNat)) =
          (recipes.take (j + 1)).countP
            (fun r => decide (k r.version = k v) && decide (2 ≤ r.kind.toNat)) +
          (recipes.drop (j + 1)).countP
            (fun r => decide (k r.version = k v) && decide (2 ≤ r.kind.toNat)) := by
        rw [← List.countP_append, List.take_append_drop]
      omega
    have hDropFail : ∀ x ∈ recipes.drop
        (recipes.countP (fun a => decide (keyCmp k a.version v = Ordering.lt)) +
         recipes.countP (fun a => decide (keyCmp k a.version v = Ordering.eq))),
        p x = false := by
      intro x hx
      rcases hb : p x with _ | _
      · rfl
      exfalso
      have hgt := mem_drop_of_partition hpart x hx
      try dsimp only at hgt
      exact Ordering.noConfusion ((hpeq x hb).symm.trans hgt)
    unfold recipes_for_version
    rw [hbs]
    dsimp only
    by_cases hend : recipes.countP (fun a => decide (keyCmp k a.version v = Ordering.lt)) +
        recipes.countP (fun a => decide (keyCmp k a.version v = Ordering.eq)) <
        recipes.length
    · have hsome := findIdx?_eq_some_first
        (fun a => decide (keyCmp k a.version v = Ordering.gt)) default (recipes.drop i)
        (recipes.countP (fun a => decide (keyCmp k a.version v = Ordering.lt)) +
         recipes.countP (fun a => decide (keyCmp k a.version v = Ordering.eq)) - i)
        ?hj0len ?hj0q ?hj0prev
      case hj0len =>
        rw [List.length_drop]
        omega
      case hj0q =>
        dsimp only
        rw [getD_drop]
        have he : i + (recipes.countP (fun a => decide (keyCmp k a.version v = Ordering.lt)) +
            recipes.countP (fun a => decide (keyCmp k a.version v = Ordering.eq)) - i) =
            recipes.countP (fun a => decide (keyCmp k a.version v = Ordering.lt)) +
            recipes.countP (fun a => decide (keyCmp k a.version v = Ordering.eq)) := by
          omega
        rw [he]
        have := hpart.2.2.2 _ (le_refl _) hend
        try dsimp only at this
        rw [this]
        rfl
      case hj0prev =>
        intro j hj
        dsimp only
        rw [getD_drop]
        have := hpart.2.2.1 (i + j) (by omega) (by omega)
        try dsimp only at this
        rw [this]
        rfl
      rw [hsome]
      dsimp only
      conv_rhs => rw [← List.take_append_drop i recipes]
      rw [find?_append_left_none p _ _ hTakeFail]
      conv_rhs => rw [← List.take_append_drop
        (recipes.countP (fun a => decide (keyCmp k a.version v = Ordering.lt)) +
         recipes.countP (fun a => decide (keyCmp k a.version v = Ordering.eq)) - i + 1)
        (recipes.drop i)]
      rw [List.drop_drop]
      have he2 : i + (recipes.countP (fun a => decide (keyCmp k a.version v = Ordering.lt)) +
          recipes.countP (fun a => decide (keyCmp k a.version v = Ordering.eq)) - i + 1) =
          recipes.countP (fun a => decide (keyCmp k a.version v = Ordering.lt)) +
          recipes.countP (fun a => decide (keyCmp k a.version v = Ordering.eq)) + 1 := by
        omega
      rw [he2]
      rw [find?_append_right_none p _ _ ?hrest]
      case hrest =>
        intro x hx
        apply hDropFail
        have hdd : recipes.drop
            (recipes.countP (fun a => decide (keyCmp k a.version v = Ordering.lt)) +
             recipes.countP (fun a => decide (keyCmp k a.version v = Ordering.eq)) + 1) =
            (recipes.drop
              (recipes.countP (fun a => decide (keyCmp k a.version v = Ordering.lt)) +
               recipes.countP (fun a => decide (keyCmp k a.version v = Ordering.eq)))).drop 1 := by
          rw [List.drop_drop]
        rw [hdd] at hx
        exact List.mem_of_mem_drop hx
    · have hnone := findIdx?_eq_none_all
        (fun a => decide (keyCmp k a.version v = Ordering.gt)) (recipes.drop i) ?hfail
      case hfail =>
        intro x hx
        dsimp only
        rcases List.mem_iff_getElem.mp hx with ⟨j, hjlen, hget⟩
        have hjl2 : i + j < recipes.length := by
          rw [List.length_drop] at hjlen
          omega
        have hxe : x = recipes.getD (i + j) default := by
          rw [← hget, ← getD_drop, getD_eq_getElem_of_lt (recipes.drop i) default hjlen]
        have := hpart.2.2.1 (i + j) (by omega) (by omega)
        try dsimp only at this
        rw [hxe, this]
        rfl
      rw [hnone]
      dsimp only
      conv_rhs => rw [← List.take_append_drop i recipes]
      rw [find?_append_left_none p _ _ hTakeFail]

theorem phaseAScan_spec {K : Type} [LinearOrder K] (k : String → K)
    (recipes : List RecipeScript) (cur : String)
    (hsorted : recipes.Pairwise (fun a b => sortLe (keyCmp k) a b = true))
    (hone : ∀ w : String, recipes.countP
      (fun r => decide (k r.version = k w) && decide (2 ≤ r.kind.toNat)) ≤ 1) :
    ∀ logs : List Changelog, (∀ log ∈ logs, log.checksum.isSome = true) →
      phaseAScan (keyCmp k) recipes cur logs =
        .ok (logs.findSome? (fun log =>
          (recipes.find? (fun fix => specFixMatch k log fix cur)).map
            (fun fix => (log, fix)))) := by
  intro logs
  induction logs with
  | nil => intro _; rfl
  | cons log rest ih =>
    intro hck
    have hfind := recipes_for_version_find k recipes log.version
      (fun fix => specFixMatch k log fix cur) hsorted (hone log.version)
      (fun r hr => specFixMatch_prop k log r cur hr)
    unfold phaseAScan
    rw [List.findSome?_cons]
    rcases hslice : recipes_for_version (keyCmp k) recipes log.version with _ | ⟨f, fs⟩
    · rw [hslice] at hfind
      rw [List.find?_nil] at hfind
      rw [← hfind]
      dsimp only
      exact ih (fun l hl => hck l (List.mem_cons_of_mem _ hl))
    · rw [hslice] at hfind
      rcases hc : log.checksum with _ | c
      · exfalso
        have := hck log (List.mem_cons_self log rest)
        rw [hc] at this
        exact Bool.noConfusion this
      · have hcong : (f :: fs).find?
            (fun fix => match_fix_recipe (keyCmp k) log.version c fix cur) =
            (f :: fs).find? (fun fix => specFixMatch k log fix cur) :=
          find?_congr_mem _ _ (f :: fs)
            (fun x _ => match_fix_recipe_eq_spec k log c hc x cur)
        dsimp only
        rw [hcong, hfind]
        rcases hres : recipes.find? (fun fix => specFixMatch k log fix cur) with _ | fix
        · dsimp only
          exact ih (fun l hl => hck l (List.mem_cons_of_mem _ hl))
        · rfl

/-- The first (newest-to-oldest) log entry together with the first matching
Revert/Fixup recipe under the amended selection rule. -/
def specPhaseA {K : Type} [LinearOrder K] (k : String → K) (st : Migrator) :
    Option (Changelog × RecipeScript) :=
  match st.updated_logs.getLast? with
  | none => none
  | some newest =>
    st.updated_logs.reverse.findSome? (fun log =>
      (st.recipes.find? (fun fix => specFixMatch k log fix newest.version)).map
        (fun fix => (log, fix)))

/-- The revert marker row of a Phase A plan unit: null checksum, at the
reverted log's version. -/
def revertLogOf (st : Migrator) (log : Changelog) (fix : RecipeScript) : Changelog :=
  ⟨st.next_log_id, log.version, some fix.name, fix.kind.toStr, none,
    st.config.apply_by, none, none, none⟩

/-- The optional apply row of a Phase A plan unit: present exactly when the
selected recipe is a Fixup, at its new target. -/
def applyLogOf (st : Migrator) (fix : RecipeScript) : Option Changelog :=
  match fix.new_target with
  | some (nv, nn, nc) =>
    some ⟨st.next_log_id + 1, nv, some nn, fix.kind.toStr, some nc,
      st.config.apply_by, none, none, none⟩
  | none => none

def specApplyUnit (st : Migrator) (log : Changelog) (fix : RecipeScript) : MigrationPlan :=
  ⟨fix, some log.log_id, some (revertLogOf st log fix), applyLogOf st fix⟩

/-- The state Phase A should produce according to the amended claim: at most
one plan unit, chosen by specPhaseA, whose rows are projected into
updated_logs. -/
def specPhaseAState {K : Type} [LinearOrder K] (k : String → K) (st : Migrator) : Migrator :=
  match specPhaseA k st with
  | none => st
  | some (log, fix) =>
    { st with
      next_log_id := st.next_log_id + 1 + (applyLogOf st fix).toList.length,
      plans := st.plans ++ [specApplyUnit st log fix],
      updated_logs := ((revertLogOf st log fix) :: (applyLogOf st fix).toList).foldl
        (updateAggLog (keyCmp k)) st.updated_logs }

/-- C2 (amended): in Phase A of make_plan, run only when allow_fixes is
true, walking updated_logs from newest to oldest a Revert/Fixup recipe R at
a log entry's version is selected if and only if R.old_checksum equals the
log entry's checksum by FULL string equality (match_fix_recipe compares the
two checksum strings with ==, not by the eight-or-more-character prefix
rule the original claim states) and the comparator places the current
version at or below R.maximum_version; the first such match, scanning each
log entry's recipes in sorted order, produces exactly one plan unit (a
revert marker row with null checksum, plus an apply row at the fixup's new
target when R is a Fixup) and Phase A stops. Hypotheses: sorted recipes, at
most one Revert/Fixup per comparator version class, and all updated_logs
checksums present. -/
theorem claim2_phaseA_exact_amended {K : Type} [LinearOrder K] (k : String → K)
    (st : Migrator)
    (hallow : st.config.allow_fixes = true)
    (hsorted : st.recipes.Pairwise (fun a b => sortLe (keyCmp k) a b = true))
    (hpw : st.recipes.Pairwise (fun a b =>
      ¬(k a.version = k b.version ∧ 2 ≤ a.kind.toNat ∧ 2 ≤ b.kind.toNat)))
    (hck : ∀ log ∈ st.updated_logs, log.checksum.isSome = true) :
    phaseA (keyCmp k) st = .ok (specPhaseAState k st) := by
  unfold phaseA specPhaseAState specPhaseA
  rw [hallow]
  simp only [if_true]
  rcases hlast : st.updated_logs.getLast? with _ | newest
  · rfl
  · dsimp only
    rw [phaseAScan_spec k st.recipes newest.version hsorted
      (countP_class_fix_le_one k st.recipes hpw) st.updated_logs.reverse
      (fun l hl => hck l (List.mem_reverse.mp hl))]
    rcases hfs : st.updated_logs.reverse.findSome? (fun log =>
        (st.recipes.find? (fun fix => specFixMatch k log fix newest.version)).map
          (fun fix => (log, fix))) with _ | ⟨log, fix⟩
    · rfl
    · dsimp only
      rcases hnt : fix.new_target with _ | ⟨nv, nn, nc⟩
      · have ha : applyLogOf st fix = none := by
          unfold applyLogOf
          rw [hnt]
        rw [ha]
        unfold specApplyUnit revertLogOf
        rw [ha]
        simp [Option.toList]
      · have ha : applyLogOf st fix =
            some ⟨st.next_log_id + 1, nv, some nn, fix.kind.toStr, some nc,
              st.config.apply_by, none, none, none⟩ := by
          unfold applyLogOf
          rw [hnt]
        rw [ha]
        unfold specApplyUnit revertLogOf
        rw [ha]
        simp [Option.toList]
        omega

def cx2aB : RecipeScript :=
  ⟨"1.0.0", "init", "aaaa1111aaaa1111aaaa1111aaaa1111aaaa1111aaaa1111aaaa1111aaaa1111",
    "CREATE TABLE t(x int);", .Baseline⟩

def cx2aU : RecipeScript :=
  ⟨"1.0.1", "add_y", "bbbb2222bbbb2222bbbb2222bbbb2222bbbb2222bbbb2222bbbb2222bbbb2222",
    "ALTER TABLE t ADD y int;", .Upgrade⟩

def cx2aR : RecipeScript :=
  ⟨"1.0.1", "revert_add_y",
    "cccc3333cccc3333cccc3333cccc3333cccc3333cccc3333cccc3333cccc3333",
    "ALTER TABLE t DROP y;",
    .Revert "bbbb2222bbbb2222bbbb2222bbbb2222bbbb2222bbbb2222bbbb2222bbbb2222" "1.0.1"⟩

def cx2aLog1 : Changelog :=
  ⟨1, "1.0.0", some "init", "baseline",
    some "aaaa1111aaaa1111aaaa1111aaaa1111aaaa1111aaaa1111aaaa1111aaaa1111",
    none, none, none, none⟩

def cx2aLog2 : Changelog :=
  ⟨2, "1.0.1", some "add_y", "upgrade",
    some "bbbb2222bbbb2222bbbb2222bbbb2222bbbb2222bbbb2222bbbb2222bbbb2222",
    none, none, none, none⟩

def cx2aSt : Migrator :=
  ⟨⟨true, "changelog", none, none, none, true, false⟩,
    [cx2aB, cx2aU, cx2aR], 2, 3, [cx2aLog1, cx2aLog2], [cx2aLog1, cx2aLog2],
    [cx2aLog1, cx2aLog2], some "1.0.0", []⟩

theorem claim2_phaseA_exact_amended_witness :
    cx2aSt.config.allow_fixes = true ∧
    specPhaseA strKey cx2aSt = some (cx2aLog2, cx2aR) ∧
    phaseA (keyCmp strKey) cx2aSt = .ok (specPhaseAState strKey cx2aSt) :=
  ⟨by decide, by decide,
    claim2_phaseA_exact_amended strKey cx2aSt (by decide) (by decide) (by decide)
      (by decide)⟩

/-! ### Claim C4: planner idempotence round-trip -/

/-- Two changelog rows that agree on everything consolidation and planning
inspect: the version string and the presence of a checksum. Timestamp
stamping (revert_ts, start_ts, finish_ts) and id fields may differ. -/
def ClSig (c d : Changelog) : Prop :=
  c.version = d.version ∧ c.checksum.isSome = d.checksum.isSome

theorem clSig_refl (c : Changelog) : ClSig c c := ⟨rfl, rfl⟩

theorem forall₂_clSig_append {A B C D : List Changelog}
    (h1 : List.Forall₂ ClSig A B) (h2 : List.Forall₂ ClSig C D) :
    List.Forall₂ ClSig (A ++ C) (B ++ D) := by
  induction h1 with
  | nil => exact h2
  | cons hxy _ ih => exact List.Forall₂.cons hxy ih

theorem forall₂_clSig_map_left {l : List Changelog} (f : Changelog → Changelog)
    (hf : ∀ c ∈ l, ClSig (f c) c) : List.Forall₂ ClSig (l.map f) l := by
  induction l with
  | nil => exact List.Forall₂.nil
  | cons x xs ih =>
    exact List.Forall₂.cons (hf x (List.mem_cons_self x xs))
      (ih (fun c hc => hf c (List.mem_cons_of_mem x hc)))

theorem forall₂_clSig_refl (l : List Changelog) : List.Forall₂ ClSig l l := by
  induction l with
  | nil => exact List.Forall₂.nil
  | cons x xs ih => exact List.Forall₂.cons (clSig_refl x) ih

theorem forall₂_clSig_getD {A B : List Changelog} (h : List.Forall₂ ClSig A B)
    (i : Nat) (dA dB : Changelog) (hd : ClSig dA dB) :
    ClSig (A.getD i dA) (B.getD i dB) := by
  by_cases hi : i < A.length
  · have hi2 : i < B.length := by
      rw [← h.length_eq]
      exact hi
    rw [getD_eq_getElem_of_lt A dA hi, getD_eq_getElem_of_lt B dB hi2]
    have := (List.forall₂_iff_get.mp h).2 i hi hi2
    simpa using this
  · have hi2 : ¬ i < B.length := by
      rw [← h.length_eq]
      exact hi
    rw [List.getD_eq_getElem?_getD, List.getD_eq_getElem?_getD,
      List.getElem?_eq_none (by omega), List.getElem?_eq_none (by omega)]
    exact hd

theorem forall₂_clSig_insertIdx :
    ∀ (n : Nat) (A B : List Changelog) (x y : Changelog), List.Forall₂ ClSig A B →
      ClSig x y → List.Forall₂ ClSig (A.insertIdx n x) (B.insertIdx n y) := by
  intro n
  induction n with
  | zero =>
    intro A B x y hAB hxy
    exact List.Forall₂.cons hxy hAB
  | succ m ih =>
    intro A B x y hAB hxy
    cases hAB with
    | nil => exact List.Forall₂.nil
    | cons hab htail => exact List.Forall₂.cons hab (ih _ _ _ _ htail hxy)

theorem forall₂_clSig_set :
    ∀ (n : Nat) (A B : List Changelog) (x y : Changelog), List.Forall₂ ClSig A B →
      ClSig x y → List.Forall₂ ClSig (A.set n x) (B.set n y) := by
  intro n
  induction n with
  | zero =>
    intro A B x y hAB hxy
    cases hAB with
    | nil => exact List.Forall₂.nil
    | cons hab htail => exact List.Forall₂.cons hxy htail
  | succ m ih =>
    intro A B x y hAB hxy
    cases hAB with
    | nil => exact List.Forall₂.nil
    | cons hab htail => exact List.Forall₂.cons hab (ih _ _ _ _ htail hxy)

theorem forall₂_clSig_eraseIdx :
    ∀ (n : Nat) (A B : List Changelog), List.Forall₂ ClSig A B →
      List.Forall₂ ClSig (A.eraseIdx n) (B.eraseIdx n) := by
  intro n
  induction n with
  | zero =>
    intro A B hAB
    cases hAB with
    | nil => exact List.Forall₂.nil
    | cons hab htail => exact htail
  | succ m ih =>
    intro A B hAB
    cases hAB with
    | nil => exact List.Forall₂.nil
    | cons hab htail => exact List.Forall₂.cons hab (ih _ _ htail)

theorem bsLoop_congr {α β : Type} (f : α → Ordering) (g : β → Ordering)
    (l : List α) (l2 : List β) (d : α) (d2 : β)
    (hlen : l.length = l2.length)
    (hpt : ∀ i, i < l.length → f (l.getD i d) = g (l2.getD i d2)) :
    ∀ fuel left right, right ≤ l.length →
      bsLoop f l d fuel left right = bsLoop g l2 d2 fuel left right := by
  intro fuel
  induction fuel with
  | zero => intro left right _; rfl
  | succ n ih =>
    intro left right hr
    unfold bsLoop
    by_cases hlr : left < right
    · rw [if_pos hlr, if_pos hlr]
      dsimp only
      have hmid : left + (right - left) / 2 < l.length := by omega
      rw [← hpt _ hmid]
      rcases hfv : f (l.getD (left + (right - left) / 2) d) with _ | _ | _
      · exact ih (left + (right - left) / 2 + 1) right hr
      · rfl
      · exact ih left (left + (right - left) / 2) (by omega)
    · rw [if_neg hlr, if_neg hlr]

theorem binarySearchBy_congr {α β : Type} (f : α → Ordering) (g : β → Ordering)
    (l : List α) (l2 : List β) (d : α) (d2 : β)
    (hlen : l.length = l2.length)
    (hpt : ∀ i, i < l.length → f (l.getD i d) = g (l2.getD i d2)) :
    binarySearchBy f l d = binarySearchBy g l2 d2 := by
  unfold binarySearchBy
  rw [← hlen]
  exact bsLoop_congr f g l l2 d d2 hlen hpt l.length 0 l.length (le_refl _)

theorem updateAggLog_congr (cmp : String → String → Ordering) (A B : List Changelog)
    (x y : Changelog) (hAB : List.Forall₂ ClSig A B) (hxy : ClSig x y) :
    List.Forall₂ ClSig (updateAggLog cmp A x) (updateAggLog cmp B y) := by
  have hbs : binarySearchBy (fun a => cmp a.version x.version) A default =
      binarySearchBy (fun a => cmp a.version y.version) B default := by
    apply binarySearchBy_congr _ _ A B default default hAB.length_eq
    intro i hi
    have hcl := forall₂_clSig_getD hAB i default default (clSig_refl default)
    rw [hcl.1, hxy.1]
  unfold updateAggLog
  rw [← hbs, ← hxy.2]
  generalize binarySearchBy (fun a => cmp a.version x.version) A default = r
  generalize x.checksum.isSome = bk
  rcases r with i | i <;> rcases bk with _ | _
  · exact hAB
  · exact forall₂_clSig_insertIdx i A B x y hAB hxy
  · exact forall₂_clSig_eraseIdx i A B hAB
  · exact forall₂_clSig_set i A B x y hAB hxy

theorem foldl_updateAggLog_congr (cmp : String → String → Ordering) :
    ∀ (rows1 rows2 : List Changelog), List.Forall₂ ClSig rows1 rows2 →
      ∀ (A B : List Changelog), List.Forall₂ ClSig A B →
      List.Forall₂ ClSig (rows1.foldl (updateAggLog cmp) A)
        (rows2.foldl (updateAggLog cmp) B) := by
  intro rows1 rows2 h
  induction h with
  | nil => intro A B hAB; exact hAB
  | cons hxy htail ih =>
    intro A B hAB
    exact ih _ _ (updateAggLog_congr cmp _ _ _ _ hAB hxy)

theorem setRevertTs_clSig (ts : Option Int) (t : Option Int) (c : Changelog) :
    ClSig (setRevertTs ts t c) c := by
  unfold setRevertTs
  rcases t with _ | id
  · exact clSig_refl c
  · dsimp only
    by_cases hc : c.log_id = id
    · rw [if_pos hc]
      exact ⟨rfl, rfl⟩
    · rw [if_neg hc]
      exact clSig_refl c

theorem setInsertTs_clSig (ts : Option Int) (c : Changelog) :
    ClSig (setInsertTs ts c) c := ⟨rfl, rfl⟩

theorem forall₂_clSig_trans :
    ∀ {A B C : List Changelog}, List.Forall₂ ClSig A B → List.Forall₂ ClSig B C →
      List.Forall₂ ClSig A C := by
  intro A B C h1
  induction h1 generalizing C with
  | nil =>
    intro h2
    cases h2
    exact List.Forall₂.nil
  | cons hxy htail ih =>
    intro h2
    cases h2 with
    | cons hyz htail2 =>
      exact List.Forall₂.cons ⟨hxy.1.trans hyz.1, hxy.2.trans hyz.2⟩ (ih htail2)

theorem applyPlansRows_sig (ts : Option Int) :
    ∀ (plans : List MigrationPlan) (X Y : List Changelog), List.Forall₂ ClSig X Y →
      List.Forall₂ ClSig (applyPlansRows ts X plans) (Y ++ rowsOfPlans plans) := by
  intro plans
  induction plans with
  | nil =>
    intro X Y hXY
    rw [rowsOfPlans, List.flatMap_nil, List.append_nil]
    exact hXY
  | cons p ps ih =>
    intro X Y hXY
    show List.Forall₂ ClSig (applyPlansRows ts (applyPlanRows ts X p) ps) _
    have hstep : List.Forall₂ ClSig (applyPlanRows ts X p)
        (Y ++ (p.revert_log.toList ++ p.apply_log.toList)) := by
      unfold applyPlanRows
      apply forall₂_clSig_append
      · exact forall₂_clSig_trans
          (forall₂_clSig_map_left _ (fun c _ => setRevertTs_clSig ts _ c)) hXY
      · exact forall₂_clSig_map_left _ (fun c _ => setInsertTs_clSig ts c)
    have hmain := ih (applyPlanRows ts X p)
      (Y ++ (p.revert_log.toList ++ p.apply_log.toList)) hstep
    have hr : rowsOfPlans (p :: ps) =
        (p.revert_log.toList ++ p.apply_log.toList) ++ rowsOfPlans ps := by
      rw [rowsOfPlans, rowsOfPlans, List.flatMap_cons]
    rw [hr, ← List.append_assoc]
    exact hmain

theorem sortedKeys_foldl {K : Type} [LinearOrder K] (k : String → K) :
    ∀ (rows : List Changelog) (A : List Changelog), SortedKeys k A →
      SortedKeys k (rows.foldl (updateAggLog (keyCmp k)) A) := by
  intro rows
  induction rows with
  | nil => intro A hs; exact hs
  | cons c cs ih =>
    intro A hs
    rw [List.foldl_cons]
    exact ih _ (sortedKeys_updateAggLog k A c hs)

theorem presence_foldl {K : Type} [LinearOrder K] (k : String → K) :
    ∀ (rows : List Changelog) (A : List Changelog), SortedKeys k A →
      (∀ c ∈ rows, c.checksum.isSome = true) → ∀ κ : K,
      ((A.find? (fun c => k c.version = κ)).isSome = true ∨ ∃ c ∈ rows, k c.version = κ) →
      (((rows.foldl (updateAggLog (keyCmp k)) A).find?
        (fun c => k c.version = κ)).isSome = true) := by
  intro rows
  induction rows with
  | nil =>
    intro A hs hall κ h
    rcases h with h | ⟨c, hc, _⟩
    · exact h
    · cases hc
  | cons c cs ih =>
    intro A hs hall κ h
    rw [List.foldl_cons]
    apply ih (updateAggLog (keyCmp k) A c) (sortedKeys_updateAggLog k A c hs)
      (fun d hd => hall d (List.mem_cons_of_mem _ hd))
    rcases h with hA | ⟨d, hd, hdv⟩
    · left
      rw [find?_key_updateAggLog k A c hs κ]
      by_cases hv : k c.version = κ
      · rw [if_pos hv, hall c (List.mem_cons_self c cs)]
        rfl
      · rw [if_neg hv]
        exact hA
    · rcases List.mem_cons.mp hd with rfl | hd2
      · left
        rw [find?_key_updateAggLog k A d hs κ, if_pos hdv,
          hall d (List.mem_cons_self d cs)]
        rfl
      · right
        exact ⟨d, hd2, hdv⟩

theorem sortedKeys_mem_le_getLast {K : Type} [LinearOrder K] (k : String → K) :
    ∀ (A : List Changelog) (d : Changelog), SortedKeys k A →
      ∀ e ∈ A, k e.version ≤ k ((A.getLast?).getD d).version := by
  intro A
  induction A with
  | nil =>
    intro d _ e he
    cases he
  | cons x xs ih =>
    intro d hs e he
    rcases List.pairwise_cons.mp hs with ⟨hx, hxs⟩
    cases xs with
    | nil =>
      rcases List.mem_cons.mp he with rfl | he2
      · exact le_refl _
      · cases he2
    | cons y ys =>
      rw [List.getLast?_cons_cons]
      rcases List.mem_cons.mp he with rfl | he2
      · calc k e.version ≤ k y.version := le_of_lt (hx y (List.mem_cons_self y ys))
        _ ≤ _ := ih d hxs y (List.mem_cons_self y ys)
      · exact ih d hxs e he2

theorem rowsOfPlans_planUnits_checksums (ab : Option String) :
    ∀ (rs : List RecipeScript) (n : Int),
      ∀ c ∈ rowsOfPlans (planUnitsGo ab rs n), c.checksum.isSome = true := by
  intro rs
  induction rs with
  | nil =>
    intro n c hc
    cases hc
  | cons r rest ih =>
    intro n c hc
    rw [planUnitsGo, rowsOfPlans, List.flatMap_cons] at hc
    rcases List.mem_append.mp hc with h1 | h2
    · simp only [Option.toList] at h1
      rcases List.mem_cons.mp h1 with rfl | h3
      · rfl
      · cases h3
    · exact ih (n + 1) c h2

theorem mem_rowsOfPlans_planUnits (ab : Option String) :
    ∀ (rs : List RecipeScript) (n : Int) (r : RecipeScript), r ∈ rs →
      ∃ c ∈ rowsOfPlans (planUnitsGo ab rs n), c.version = r.version := by
  intro rs
  induction rs with
  | nil =>
    intro n r hr
    cases hr
  | cons x rest ih =>
    intro n r hr
    rw [planUnitsGo, rowsOfPlans, List.flatMap_cons]
    rcases List.mem_cons.mp hr with rfl | hr2
    · exact ⟨mkApplyLog n r ab, List.mem_append.mpr (Or.inl (by
        simp [Option.toList, mkApplyLog])), rfl⟩
    · rcases ih (n + 1) r hr2 with ⟨c, hc, hcv⟩
      exact ⟨c, List.mem_append.mpr (Or.inr hc), hcv⟩

theorem phaseA_delta (cmp : String → String → Ordering) (st st2 : Migrator)
    (h : phaseA cmp st = .ok st2) :
    ∃ np, st2.plans = st.plans ++ np ∧
      st2.updated_logs = (rowsOfPlans np).foldl (updateAggLog cmp) st.updated_logs ∧
      st2.recipes = st.recipes ∧ st2.config = st.config := by
  unfold phaseA at h
  split_ifs at h with hallow
  · rcases hlast : st.updated_logs.getLast? with _ | newest <;> rw [hlast] at h
    · injection h with h2
      subst h2
      exact ⟨[], by simp, by simp [rowsOfPlans], rfl, rfl⟩
    · dsimp only at h
      rcases hscan : phaseAScan cmp st.recipes newest.version st.updated_logs.reverse
        with e | res <;> rw [hscan] at h
      · exact Except.noConfusion h
      · rcases res with _ | ⟨log, fix⟩
        · injection h with h2
          subst h2
          exact ⟨[], by simp, by simp [rowsOfPlans], rfl, rfl⟩
        · dsimp only at h
          rcases hnt : fix.new_target with _ | ⟨nv, nn, nc⟩ <;> rw [hnt] at h <;>
            dsimp only at h <;> injection h with h2 <;> subst h2
          · refine ⟨[⟨fix, some log.log_id,
              some ⟨st.next_log_id, log.version, some fix.name, fix.kind.toStr, none,
                st.config.apply_by, none, none, none⟩, none⟩], rfl, ?_, rfl, rfl⟩
            rfl
          · refine ⟨[⟨fix, some log.log_id,
              some ⟨st.next_log_id, log.version, some fix.name, fix.kind.toStr, none,
                st.config.apply_by, none, none, none⟩,
              some ⟨st.next_log_id + 1, nv, some nn, fix.kind.toStr, some nc,
                st.config.apply_by, none, none, none⟩⟩], rfl, ?_, rfl, rfl⟩
            rfl
  · injection h with h2
    subst h2
    exact ⟨[], by simp, by simp [rowsOfPlans], rfl, rfl⟩

theorem phaseB_delta {K : Type} [LinearOrder K] (k : String → K) (st st2 : Migrator)
    (lastv : String) (h : phaseB (keyCmp k) st = .ok (st2, lastv)) :
    ∃ np, st2.plans = st.plans ++ np ∧
      st2.updated_logs = (rowsOfPlans np).foldl (updateAggLog (keyCmp k))
        st.updated_logs ∧
      st2.recipes = st.recipes ∧ st2.config = st.config ∧
      (∃ e ∈ st2.updated_logs, k e.version = k lastv) := by
  unfold phaseB at h
  split_ifs at h with hne
  · injection h with h2
    have hst : st2 = { st with
        baseline_version := (some (st.updated_logs.headD default).version) } :=
      (congrArg Prod.fst h2).symm
    have hlv : lastv = ((st.updated_logs.getLast?).getD default).version :=
      (congrArg Prod.snd h2).symm
    refine ⟨[], by rw [hst]; simp, by rw [hst]; simp [rowsOfPlans], by rw [hst],
      by rw [hst], ?_⟩
    refine ⟨(st.updated_logs.getLast?).getD default, ?_, by rw [hlv]⟩
    rw [hst]
    show (st.updated_logs.getLast?).getD default ∈ st.updated_logs
    rcases hgl : st.updated_logs.getLast? with _ | e
    · rw [List.getLast?_eq_none_iff] at hgl
      rw [hgl] at hne
      simp at hne
    · exact List.mem_of_getLast?_eq_some hgl
  · rcases hbr : baseline_recipe (keyCmp k) st.config st.recipes with e | br <;>
      rw [hbr] at h
    · exact Except.noConfusion h
    · dsimp only at h
      injection h with h2
      have hst : st2 = { st with
        baseline_version := some br.version,
        next_log_id := st.next_log_id + 1,
        updated_logs := updateAggLog (keyCmp k) st.updated_logs
          (mkApplyLog st.next_log_id br st.config.apply_by),
        plans := st.plans ++ [⟨br, none, none,
          some (mkApplyLog st.next_log_id br st.config.apply_by)⟩] } :=
        (congrArg Prod.fst h2).symm
      have hlv : lastv = br.version := (congrArg Prod.snd h2).symm
      refine ⟨[⟨br, none, none, some (mkApplyLog st.next_log_id br st.config.apply_by)⟩],
        by rw [hst], by rw [hst]; rfl, by rw [hst], by rw [hst], ?_⟩
      have hempty : st.updated_logs = [] := by
        rcases hul : st.updated_logs with _ | ⟨a, b⟩
        · rfl
        · rw [hul] at hne
          simp at hne
      refine ⟨mkApplyLog st.next_log_id br st.config.apply_by, ?_, by rw [hlv]; rfl⟩
      rw [hst]
      show mkApplyLog st.next_log_id br st.config.apply_by ∈
        updateAggLog (keyCmp k) st.updated_logs
          (mkApplyLog st.next_log_id br st.config.apply_by)
      rw [hempty]
      show mkApplyLog st.next_log_id br st.config.apply_by ∈
        [mkApplyLog st.next_log_id br st.config.apply_by]
      exact List.mem_cons_self _ _

theorem phaseCGo_fields (cmp : String → String → Ordering) :
    ∀ (rs : List RecipeScript) (st : Migrator),
      (phaseCGo cmp rs st).recipes = st.recipes ∧
      (phaseCGo cmp rs st).config = st.config := by
  intro rs
  induction rs with
  | nil => intro st; exact ⟨rfl, rfl⟩
  | cons r rest ih => intro st; exact ih _

theorem forall₂_clSig_getLastD {A B : List Changelog} (h : List.Forall₂ ClSig A B)
    (d : Changelog) :
    ((A.getLast?).getD d).version = ((B.getLast?).getD d).version := by
  rw [List.getLast?_eq_getElem? A, List.getLast?_eq_getElem? B,
    ← List.getD_eq_getElem?_getD, ← List.getD_eq_getElem?_getD, h.length_eq]
  exact (forall₂_clSig_getD h (B.length - 1) d d (clSig_refl d)).1

theorem presence_mem {K : Type} [LinearOrder K] (k : String → K) (A : List Changelog)
    (κ : K) (h : ((A.find? (fun c => k c.version = κ)).isSome = true)) :
    ∃ e ∈ A, k e.version = κ := by
  rcases hf : A.find? (fun c => k c.version = κ) with _ | e
  · rw [hf] at h
    exact Bool.noConfusion h
  · refine ⟨e, List.mem_of_find?_eq_some hf, ?_⟩
    have := List.find?_some hf
    simpa using this

/-- C4: planner idempotence round-trip. Starting from a changelog read,
a successful make_plan, and an application of the produced plan (revert_ts
stamping plus appended plan rows), re-running read_changelog and then
make_plan over the same recipes and config succeeds with an empty plan,
provided the second Phase A finds no new fix matches (stated as
phaseA returning the state unchanged) and the recipes are sorted. -/
theorem claim4_planner_idempotence {K : Type} [LinearOrder K] (k : String → K)
    (st0 : Migrator) (raw : List Changelog) (ts : Option Int) (st1 st2 st3 : Migrator)
    (hsorted : st0.recipes.Pairwise (fun a b => sortLe (keyCmp k) a b = true))
    (h1 : read_changelog (keyCmp k) st0 (some raw) = .ok st1)
    (h2 : make_plan (keyCmp k) st1 = .ok st2)
    (h3 : read_changelog (keyCmp k) st2
      (some (applyPlansRows ts raw st2.plans)) = .ok st3)
    (hA2 : phaseA (keyCmp k) st3 = .ok st3) :
    ∃ st4, make_plan (keyCmp k) st3 = .ok st4 ∧ st4.plans = [] := by
  -- unpack the first read
  unfold read_changelog last_log_id selectMaxLogId at h1
  dsimp only at h1
  injection h1 with h1e
  have hst1 : st1 = readChangelogCont (keyCmp k) st0
      (((raw.map (fun r => r.log_id)).max?).getD 0) raw := h1e.symm
  -- unpack the first make_plan
  unfold make_plan at h2
  rcases hA1 : phaseA (keyCmp k) st1 with e | stA <;> rw [hA1] at h2
  · exact Except.noConfusion h2
  dsimp only at h2
  rcases hB1 : phaseB (keyCmp k) stA with e | ⟨stB, last1⟩ <;> rw [hB1] at h2
  · exact Except.noConfusion h2
  dsimp only at h2
  injection h2 with h2e
  have hst2 : st2 = phaseC (keyCmp k) stB last1 := h2e.symm
  obtain ⟨npA, hA1p, hA1u, hA1r, hA1c⟩ := phaseA_delta (keyCmp k) st1 stA hA1
  obtain ⟨npB, hB1p, hB1u, hB1r, hB1c, eL, heL, heLv⟩ := phaseB_delta k stA stB last1 hB1
  -- field chains
  have hrecB : stB.recipes = st0.recipes := by
    rw [hB1r, hA1r, hst1]
    rfl
  have hcfgB : stB.config = st0.config := by
    rw [hB1c, hA1c, hst1]
    rfl
  have hsortedB : stB.recipes.Pairwise (fun a b => sortLe (keyCmp k) a b = true) := by
    rw [hrecB]
    exact hsorted
  -- phase C of the first run
  have hfilter1 := phaseCRecipes_eq_filter k stB.recipes last1 stB.config.target_version
    hsortedB
  have hC := phaseCGo_spec (keyCmp k)
    (phaseCRecipes (keyCmp k) stB.recipes last1 stB.config.target_version) stB
  have hst2u : st2.updated_logs =
      (rowsOfPlans (planUnitsGo stB.config.apply_by
        (stB.recipes.filter (upgradeInRange k stB.config.target_version last1))
        stB.next_log_id)).foldl (updateAggLog (keyCmp k)) stB.updated_logs := by
    rw [hst2]
    show (phaseCGo (keyCmp k)
      (phaseCRecipes (keyCmp k) stB.recipes last1 stB.config.target_version)
      stB).updated_logs = _
    rw [hC.2.1, hfilter1]
  have hst2p : st2.plans = stB.plans ++ planUnitsGo stB.config.apply_by
      (stB.recipes.filter (upgradeInRange k stB.config.target_version last1))
      stB.next_log_id := by
    rw [hst2]
    show (phaseCGo (keyCmp k)
      (phaseCRecipes (keyCmp k) stB.recipes last1 stB.config.target_version)
      stB).plans = _
    rw [hC.1, hfilter1]
  have hrec2 : st2.recipes = st0.recipes := by
    rw [hst2]
    show (phaseCGo (keyCmp k)
      (phaseCRecipes (keyCmp k) stB.recipes last1 stB.config.target_version)
      stB).recipes = _
    rw [(phaseCGo_fields (keyCmp k) _ stB).1, hrecB]
  have hcfg2 : st2.config = st0.config := by
    rw [hst2]
    show (phaseCGo (keyCmp k)
      (phaseCRecipes (keyCmp k) stB.recipes last1 stB.config.target_version)
      stB).config = _
    rw [(phaseCGo_fields (keyCmp k) _ stB).2, hcfgB]
  -- sortedness of the first run updated logs
  have hs1 : SortedKeys k st1.updated_logs := by
    rw [hst1]
    exact (consolidate_sorted_and_lookup k raw).1
  have hsA : SortedKeys k stA.updated_logs := by
    rw [hA1u]
    exact sortedKeys_foldl k _ _ hs1
  have hsB : SortedKeys k stB.updated_logs := by
    rw [hB1u]
    exact sortedKeys_foldl k _ _ hsA
  have hs2 : SortedKeys k st2.updated_logs := by
    rw [hst2u]
    exact sortedKeys_foldl k _ _ hsB
  -- presence of the last1 class in the final updated logs
  have hallC : ∀ c ∈ rowsOfPlans (planUnitsGo stB.config.apply_by
      (stB.recipes.filter (upgradeInRange k stB.config.target_version last1))
      stB.next_log_id), c.checksum.isSome = true :=
    rowsOfPlans_planUnits_checksums stB.config.apply_by _ _
  have hpresL : ((st2.updated_logs.find? (fun c => k c.version = k last1)).isSome
      = true) := by
    rw [hst2u]
    apply presence_foldl k _ _ hsB hallC
    left
    rw [List.find?_isSome]
    exact ⟨eL, heL, by simpa using heLv⟩
  obtain ⟨e2, he2, he2v⟩ := presence_mem k _ _ hpresL
  have hne2 : st2.updated_logs ≠ [] := by
    intro hcon
    rw [hcon] at he2
    cases he2
  -- unpack the second read
  unfold read_changelog last_log_id selectMaxLogId at h3
  dsimp only at h3
  injection h3 with h3e
  have hst3 : st3 = readChangelogCont (keyCmp k) st2
      ((((applyPlansRows ts raw st2.plans).map (fun r => r.log_id)).max?).getD 0)
      (applyPlansRows ts raw st2.plans) := h3e.symm
  have hrec3 : st3.recipes = st0.recipes := by
    rw [hst3]
    show st2.recipes = st0.recipes
    exact hrec2
  have hcfg3 : st3.config = st0.config := by
    rw [hst3]
    show st2.config = st0.config
    exact hcfg2
  have hst3u : st3.updated_logs = consolidate (keyCmp k)
      (applyPlansRows ts raw st2.plans) := by
    rw [hst3]
    rfl
  -- the sig relation between the two updated logs
  have hst2u2 : st2.updated_logs =
      (rowsOfPlans st2.plans).foldl (updateAggLog (keyCmp k)) st1.updated_logs := by
    rw [hst2p, hB1p, hA1p]
    have hplans1 : st1.plans = [] := by
      rw [hst1]
      rfl
    rw [hplans1, List.nil_append]
    rw [rowsOfPlans, List.flatMap_append, List.flatMap_append]
    rw [List.foldl_append, List.foldl_append]
    rw [hst2u, hB1u, hA1u]
    rfl
  have hsig : List.Forall₂ ClSig st3.updated_logs st2.updated_logs := by
    rw [hst3u, hst2u2]
    have hrows := applyPlansRows_sig ts st2.plans raw raw (forall₂_clSig_refl raw)
    have hcons := foldl_updateAggLog_congr (keyCmp k) _ _ hrows [] []
      List.Forall₂.nil
    show List.Forall₂ ClSig
      ((applyPlansRows ts raw st2.plans).foldl (updateAggLog (keyCmp k)) []) _
    have hsplit : (raw ++ rowsOfPlans st2.plans).foldl (updateAggLog (keyCmp k)) [] =
        (rowsOfPlans st2.plans).foldl (updateAggLog (keyCmp k))
          (raw.foldl (updateAggLog (keyCmp k)) []) := List.foldl_append _ _ _ _
    rw [hsplit] at hcons
    have hcraw : raw.foldl (updateAggLog (keyCmp k)) [] = st1.updated_logs := by
      rw [hst1]
      rfl
    rw [hcraw] at hcons
    exact hcons
  -- second run
  have hlen3 : st3.updated_logs.length > 0 := by
    rw [hsig.length_eq]
    rcases hul : st2.updated_logs with _ | ⟨a, b⟩
    · exact absurd hul hne2
    · simp
  refine ⟨phaseC (keyCmp k)
      { st3 with baseline_version :=
          (some (st3.updated_logs.headD default).version) }
      ((st3.updated_logs.getLast?.getD default).version), ?_, ?_⟩
  · unfold make_plan
    rw [hA2]
    dsimp only
    unfold phaseB
    rw [if_pos hlen3]
  -- the plan of the second run is empty
  have hsorted3 : st3.recipes.Pairwise (fun a b => sortLe (keyCmp k) a b = true) := by
    rw [hrec3]
    exact hsorted
  show (phaseCGo (keyCmp k)
    (phaseCRecipes (keyCmp k) st3.recipes
      ((st3.updated_logs.getLast?.getD default).version) st3.config.target_version)
    { st3 with baseline_version :=
        (some (st3.updated_logs.headD default).version) }).plans = []
  have hfilter2 := phaseCRecipes_eq_filter k st3.recipes
    ((st3.updated_logs.getLast?.getD default).version) st3.config.target_version
    hsorted3
  have hC2 := phaseCGo_spec (keyCmp k)
    (phaseCRecipes (keyCmp k) st3.recipes
      ((st3.updated_logs.getLast?.getD default).version) st3.config.target_version)
    { st3 with baseline_version :=
        (some (st3.updated_logs.headD default).version) }
  rw [hC2.1]
  have hplans3 : st3.plans = [] := by
    rw [hst3]
    rfl
  show st3.plans ++ planUnitsGo st3.config.apply_by _ _ = []
  rw [hplans3, List.nil_append]
  rw [hfilter2]
  have hempty : st3.recipes.filter
      (upgradeInRange k st3.config.target_version
        ((st3.updated_logs.getLast?.getD default).version)) = [] := by
    rw [List.filter_eq_nil_iff]
    intro r hr hcon
    unfold upgradeInRange at hcon
    rw [Bool.and_eq_true, Bool.and_eq_true] at hcon
    obtain ⟨⟨hup, hltb⟩, htgt⟩ := hcon
    rw [decide_eq_true_eq] at hltb
    -- the max version of the second consolidated view equals that of the first
    have hlastrel : ((st3.updated_logs.getLast?.getD default).version) =
        ((st2.updated_logs.getLast?.getD default).version) :=
      forall₂_clSig_getLastD hsig default
    rw [hlastrel] at hltb
    -- every class of the first final view is at most the max
    have hbound : ∀ e ∈ st2.updated_logs, k e.version ≤
        k ((st2.updated_logs.getLast?.getD default).version) :=
      sortedKeys_mem_le_getLast k st2.updated_logs default hs2
    rcases le_or_lt (k r.version) (k last1) with hcase | hcase
    · have := hbound e2 he2
      rw [he2v] at this
      have hle : k r.version ≤ k ((st2.updated_logs.getLast?.getD default).version) :=
        le_trans hcase this
      exact absurd hltb (not_lt.mpr hle)
    · -- r was planned by the first run
      have hrmem : r ∈ stB.recipes.filter
          (upgradeInRange k stB.config.target_version last1) := by
        rw [List.mem_filter]
        refine ⟨by rw [hrecB, ← hrec3]; exact hr, ?_⟩
        unfold upgradeInRange
        rw [Bool.and_eq_true, Bool.and_eq_true]
        refine ⟨⟨hup, by rw [decide_eq_true_eq]; exact hcase⟩, ?_⟩
        have : stB.config.target_version = st3.config.target_version := by
          rw [hcfgB, ← hcfg3]
        rw [this]
        exact htgt
      obtain ⟨c, hc, hcv⟩ := mem_rowsOfPlans_planUnits stB.config.apply_by _
        stB.next_log_id r hrmem
      have hpresR : ((st2.updated_logs.find? (fun c => k c.version = k r.version)).isSome
          = true) := by
        rw [hst2u]
        apply presence_foldl k _ _ hsB hallC
        right
        exact ⟨c, hc, by rw [hcv]⟩
      obtain ⟨e3, he3, he3v⟩ := presence_mem k _ _ hpresR
      have := hbound e3 he3
      rw [he3v] at this
      exact absurd hltb (not_lt.mpr this)
  rw [hempty]
  rfl

def cx4st0 : Migrator :=
  ⟨⟨true, "changelog", none, none, none, false, false⟩,
    [cx3B, cx3U1], 0, 1, [], [], [], none, []⟩

def cx4st1 : Migrator := readChangelogCont (keyCmp strKey) cx4st0 0 []

def cx4st2 : Migrator :=
  match make_plan (keyCmp strKey) cx4st1 with
  | .ok s => s
  | .error _ => cx4st1

def cx4st3 : Migrator :=
  match read_changelog (keyCmp strKey) cx4st2
      (some (applyPlansRows none [] cx4st2.plans)) with
  | .ok s => s
  | .error _ => cx4st2

theorem claim4_planner_idempotence_witness :
    ∃ st4, make_plan (keyCmp strKey) cx4st3 = .ok st4 ∧ st4.plans = [] :=
  claim4_planner_idempotence strKey cx4st0 [] none cx4st1 cx4st2 cx4st3
    (by decide) (by decide) (by decide) (by decide) (by decide)

/-! ### Boundary of the amended C8 rule: both provisos are necessary -/

def cx8nB1 : RecipeScript :=
  ⟨"1.0.0", "base_a", "a1a1a1a1a1a1a1a1a1a1a1a1a1a1a1a1a1a1a1a1a1a1a1a1a1a1a1a1a1a1a1a1",
    "CREATE TABLE a(x int);", .Baseline⟩

def cx8nB2 : RecipeScript :=
  ⟨"1.0.0+fix", "base_b", "b2b2b2b2b2b2b2b2b2b2b2b2b2b2b2b2b2b2b2b2b2b2b2b2b2b2b2b2b2b2b2b2",
    "CREATE TABLE b(x int);", .Baseline⟩

def cx8nB3 : RecipeScript :=
  ⟨"1.0.0", "base_c", "c3c3c3c3c3c3c3c3c3c3c3c3c3c3c3c3c3c3c3c3c3c3c3c3c3c3c3c3c3c3c3c3",
    "CREATE TABLE c(x int);", .Baseline⟩

/-- Without the identical-strings-only comparator proviso the amended C8
rule is false of the code: under the build-metadata-ignoring comparator, a
stable sort may leave two Baselines with the identical version string
"1.0.0" separated by a comparator-equal recipe at a different string, so
chunk_by (string equality of adjacent elements) puts them in different
chunks and order_recipes accepts the set although the string "1.0.0"
carries two Baselines. -/
theorem order_recipes_nonadjacent_dup_accepted :
    2 ≤ countBaselineAt [cx8nB1, cx8nB2, cx8nB3] "1.0.0" ∧
    ((order_recipes (keyCmp buildMetaKey) [cx8nB1, cx8nB2, cx8nB3]).toOption.isSome
      = true) := by
  decide

def cx8pU1 : RecipeScript :=
  ⟨"1.0.0", "up_a", "aaaaaaaa11111111111111111111111111111111111111111111111111111111",
    "CREATE TABLE a(x int);", .Upgrade⟩

def cx8pR1 : RecipeScript :=
  ⟨"1.0.0", "revert_a", "d4d4d4d4d4d4d4d4d4d4d4d4d4d4d4d4d4d4d4d4d4d4d4d4d4d4d4d4d4d4d4d4",
    "DROP TABLE a;", .Revert "aaaaaaaa" "1.0.0"⟩

def cx8pU2a : RecipeScript :=
  ⟨"1.0.1", "up_b1", "e5e5e5e5e5e5e5e5e5e5e5e5e5e5e5e5e5e5e5e5e5e5e5e5e5e5e5e5e5e5e5e5",
    "ALTER TABLE a ADD y int;", .Upgrade⟩

def cx8pU2b : RecipeScript :=
  ⟨"1.0.1", "up_b2", "f6f6f6f6f6f6f6f6f6f6f6f6f6f6f6f6f6f6f6f6f6f6f6f6f6f6f6f6f6f6f6f6",
    "ALTER TABLE a ADD z int;", .Upgrade⟩

/-- Without the Baseline/Upgrade-only proviso the amended C8 iff is false
of the code even under the byte-wise comparator: the chunk loop runs in
sort order, so a ConflictedFixup in the version-"1.0.0" chunk (a Revert
whose old_checksum matches that chunk's Upgrade) is returned although the
later version-"1.0.1" chunk carries two Upgrades, i.e. duplicates exist
but the error is not RepeatedVersion. -/
theorem order_recipes_conflict_preempts_dup :
    2 ≤ countUpgradeAt [cx8pU1, cx8pR1, cx8pU2a, cx8pU2b] "1.0.1" ∧
    order_recipes (keyCmp strKey) [cx8pU1, cx8pR1, cx8pU2a, cx8pU2b] =
      .error (.ConflictedFixup "1.0.0" "revert_a" "aaaaaaaa") := by
  decide

/-! ### Boundary of the amended C2 rule: the one-fix-per-class proviso is
necessary -/

def cx2mR1 : RecipeScript :=
  ⟨"1.0.1", "revert_first",
    "9a9a9a9a9a9a9a9a9a9a9a9a9a9a9a9a9a9a9a9a9a9a9a9a9a9a9a9a9a9a9a9a",
    "ALTER TABLE t DROP y;",
    .Revert "1111222233334444111122223333444411112222333344441111222233334444" "1.0.1"⟩

def cx2mR2 : RecipeScript :=
  ⟨"1.0.1", "revert_second",
    "8b8b8b8b8b8b8b8b8b8b8b8b8b8b8b8b8b8b8b8b8b8b8b8b8b8b8b8b8b8b8b8b",
    "ALTER TABLE t DROP z;",
    .Revert "5555666677778888555566667777888855556666777788885555666677778888" "1.0.1"⟩

def cx2mLog : Changelog :=
  ⟨1, "1.0.1", some "add_y", "upgrade",
    some "1111222233334444111122223333444411112222333344441111222233334444",
    none, none, none, none⟩

def cx2mSt : Migrator :=
  ⟨⟨true, "changelog", none, none, none, true, false⟩,
    [cx2mR1, cx2mR2], 1, 2, [cx2mLog], [cx2mLog], [cx2mLog], some "1.0.1", []⟩

/-- Without the at-most-one-Revert/Fixup-per-version-class proviso the
amended C2 rule is false of the code: with two Reverts in the class of
"1.0.1", the binary search over the two-element run probes index 1 and
returns it, so recipes_for_version starts past the earlier Revert whose
old_checksum equals the log checksum exactly; Phase A emits no plan unit
although the amended selection rule picks that Revert. The recipe
sortedness and checksum-presence hypotheses of the amended theorem hold
here. -/
theorem phaseA_multi_fix_class_missed :
    cx2mSt.recipes.Pairwise (fun a b => sortLe (keyCmp strKey) a b = true) ∧
    (∀ log ∈ cx2mSt.updated_logs, log.checksum.isSome = true) ∧
    specPhaseA strKey cx2mSt = some (cx2mLog, cx2mR1) ∧
    phaseA (keyCmp strKey) cx2mSt = .ok cx2mSt ∧ cx2mSt.plans = [] := by
  decide

end DbMigrator
